import Mathlib

/-!
libntru: the NTRUEncrypt envelope of `src/ntru.c`.

A shallow embedding of the functions of `ntru.c` and theorems about them.

Conventions of the embedding:

* a C buffer (`uint8_t *`, `int16_t coeffs[]`) is a total map from the index to the
  stored value (`Mem`, `Nat → Int`); the cells a function does not write keep what
  they held before the call, so uninitialised stack arrays are explicit arguments;
* machine integers are `Nat` / `Int` and a value stored into a `uint16_t` or `uint8_t`
  is reduced modulo `2 ^ 16` resp. `2 ^ 8` at the store;
* an `int16_t` coefficient is an `Int`; `ntru.c` itself only compares coefficients and adds
  `1` to them, the arithmetic on polynomials is in `poly.c`;
* a read past the end of a constant table (`NTRU_BIT1_TABLE[bit_tbl_index]` for a pair that is
  not ternary), undefined in C, yields `0`;
* a `while`/`for` loop is a recursive function on the number of iterations left; a loop
  without a bound (`for (;;)`, `while (t < df)` on the index stream) takes a bound on its
  iterations and returns `none` when the bound is reached;
* functions of `poly.c`, `idxgen.c`, `mgf.c` and `rand.c` are not part of `ntru.c`;
  they are fields of the record `Ext`.
-/

namespace NTRU

/-! ## Data model -/

/-- Return codes of `err.h`. -/
inductive Status where
  | NTRU_SUCCESS
  | NTRU_ERR_PRNG
  | NTRU_ERR_MSG_TOO_LONG
  | NTRU_ERR_INVALID_MAX_LEN
  | NTRU_ERR_DM0_VIOLATION
  | NTRU_ERR_NO_ZERO_PAD
  | NTRU_ERR_INVALID_ENCODING
  deriving DecidableEq, Repr

open Status

/-- A byte buffer: index to stored byte. -/
abbrev Mem := Nat → Nat

/-- The struct `NtruIntPoly`: `N` and the coefficient array. -/
structure NtruIntPoly where
  N : Nat
  coeffs : Nat → Int

/-- Store `v` at index `i` of an array. -/
def store {α : Type} (a : Nat → α) (i : Nat) (v : α) : Nat → α :=
  fun k => if k = i then v else a k

/-- Bit `k` of a buffer, bytes in order and least significant bit first. -/
def getBit (m : Mem) (k : Nat) : Bool := (m (k / 8)).testBit (k % 8)

/-- The buffer holding the bytes of a list (zero past its end). -/
def ofBytes (l : List Nat) : Mem := fun i => l.getD i 0

/-- The coefficient array holding the entries of a list (zero past its end). -/
def ofCoeffs (l : List Int) : Nat → Int := fun i => l.getD i 0

/-- The first `n` cells of an array, as a list. -/
def firstN {α : Type} (a : Nat → α) (n : Nat) : List α := (List.range n).map a

/-! ## SVES codec -/

def NTRU_COEFF1_TABLE : List Int := [0, 0, 0, 1, 1, 1, -1, -1]
def NTRU_COEFF2_TABLE : List Int := [0, 1, -1, 0, 1, -1, 0, 1]
def NTRU_BIT1_TABLE : List Nat := [1, 1, 1, 0, 0, 0, 1, 0, 1]
def NTRU_BIT2_TABLE : List Nat := [1, 1, 1, 1, 0, 0, 0, 1, 0]
def NTRU_BIT3_TABLE : List Nat := [1, 0, 1, 0, 0, 1, 1, 1, 0]

/-- Table index computed by the inner loop of `ntru_from_sves`:
`((chunk&1)<<2) + (chunk&2) + ((chunk&4)>>2)`, stored into a `uint8_t`. -/
def coeff_tbl_idx (chunk : Nat) : Nat :=
  (((chunk &&& 1) <<< 2) + (chunk &&& 2) + ((chunk &&& 4) >>> 2)) % 256

/-- Inner loop of `ntru_from_sves`, `for (j=0; j<8 && coeff_idx<N-1; j++)`, with `n = 8 - j`
iterations left. The state is `(chunk, coeff_idx, coeffs)`; `coeff_idx < N-1` is a comparison
of `int`s. -/
def from_sves_inner (N : Nat) : Nat → Nat → Nat → (Nat → Int) → Nat × (Nat → Int)
  | 0, _, coeff_idx, c => (coeff_idx, c)
  | n + 1, chunk, coeff_idx, c =>
    if (coeff_idx : Int) < (N : Int) - 1 then
      let c1 := store c coeff_idx (NTRU_COEFF1_TABLE.getD (coeff_tbl_idx chunk) 0)
      let c2 := store c1 (coeff_idx + 1) (NTRU_COEFF2_TABLE.getD (coeff_tbl_idx chunk) 0)
      from_sves_inner N n (chunk >>> 3) (coeff_idx + 2) c2
    else (coeff_idx, c)

/-- The 24-bit chunk read at offset `i`: `M[i+2]`, `M[i+1]`, `M[i]`, each cast to `uint8_t`. -/
def read_chunk (M : Mem) (i : Nat) : Nat :=
  (((M (i + 2) % 256) <<< 8) + M (i + 1) % 256) <<< 8 + M i % 256

/-- Outer loop of `ntru_from_sves`, `while (i<M_len/3*3 && coeff_idx<N-1)`, with `n` the number
of 3-byte chunks left before `i` reaches `M_len/3*3`. -/
def from_sves_outer (M : Mem) (N : Nat) : Nat → Nat → Nat → (Nat → Int) → Nat × (Nat → Int)
  | 0, _, coeff_idx, c => (coeff_idx, c)
  | n + 1, i, coeff_idx, c =>
    if (coeff_idx : Int) < (N : Int) - 1 then
      let r := from_sves_inner N 8 (read_chunk M i) coeff_idx c
      from_sves_outer M N n (i + 3) r.1 r.2
    else (coeff_idx, c)

/-- Final loop of `ntru_from_sves`, `while (coeff_idx < N) poly->coeffs[coeff_idx++] = 0`, with
`n = N - coeff_idx` iterations left. -/
def from_sves_fill : Nat → Nat → (Nat → Int) → (Nat → Int)
  | 0, _, c => c
  | n + 1, coeff_idx, c => from_sves_fill n (coeff_idx + 1) (store c coeff_idx 0)

/-- The function `ntru_from_sves`. `poly0` is what the coefficient array of `*poly` holds before
the call. -/
def ntru_from_sves (M : Mem) (M_len N skip : Nat) (poly0 : Nat → Int) : NtruIntPoly :=
  let coeff_idx := if skip ≠ 0 then 1 else 0
  let r := from_sves_outer M N (M_len / 3) 0 coeff_idx poly0
  { N := N, coeffs := from_sves_fill (N - r.1) r.1 r.2 }

/-- Loop `for (j=0; j<3; j++)` of `ntru_to_sves` over the bits still to write; the state is
`(data, bit_index, byte_index)`. -/
def to_sves_bits : List Nat → Mem → Nat → Nat → Mem × Nat × Nat
  | [], data, bit_index, byte_index => (data, bit_index, byte_index)
  | b :: bs, data, bit_index, byte_index =>
    let data1 := store data byte_index ((data byte_index ||| (b <<< bit_index)) % 256)
    if bit_index = 7 then to_sves_bits bs data1 0 ((byte_index + 1) % 65536)
    else to_sves_bits bs data1 (bit_index + 1) byte_index

/-- The array `bits[] = {NTRU_BIT1_TABLE[bit_tbl_index], NTRU_BIT2_TABLE[bit_tbl_index],
NTRU_BIT3_TABLE[bit_tbl_index]}` of `ntru_to_sves`. -/
def sves_bits_of (bit_tbl_index : Nat) : List Nat :=
  [NTRU_BIT1_TABLE.getD bit_tbl_index 0, NTRU_BIT2_TABLE.getD bit_tbl_index 0,
    NTRU_BIT3_TABLE.getD bit_tbl_index 0]

/-- Loop `for (i=start; i<end; )` of `ntru_to_sves`, with `n` an upper bound on the number of
iterations left. -/
def to_sves_loop (coeffs : Nat → Int) (end_ : Nat) :
    Nat → Nat → Mem → Nat → Nat → Status × Mem
  | 0, _, data, _, _ => (NTRU_SUCCESS, data)
  | n + 1, i, data, bit_index, byte_index =>
    if i < end_ then
      let coeff1 := coeffs i + 1
      let coeff2 := coeffs (i + 1) + 1
      if coeff1 = 0 ∧ coeff2 = 0 then (NTRU_ERR_INVALID_ENCODING, data)
      else
        let bit_tbl_index := (coeff1 * 3 + coeff2).toNat
        let r := to_sves_bits (sves_bits_of bit_tbl_index) data bit_index byte_index
        to_sves_loop coeffs end_ n (i + 2) r.1 r.2.1 r.2.2
    else (NTRU_SUCCESS, data)

/-- Number of bytes `ntru_to_sves` clears: `(num_bits+7)/8` with `num_bits = (N*3+1)/2` stored
in a `uint16_t`. -/
def sves_len (N : Nat) : Nat := ((N * 3 + 1) / 2 % 65536 + 7) / 8

/-- First and one-past-last coefficient index of `ntru_to_sves`:
`start = skip ? 1 : 0`, `end = skip ? (N-1)|1 : N/2*2`. -/
def sves_start (skip : Nat) : Nat := if skip ≠ 0 then 1 else 0

/-- For `N = 0` the `int` value `(N-1)|1` is `-1`, stored into the `uint16_t` as `65535`. -/
def sves_end (N skip : Nat) : Nat :=
  if skip ≠ 0 then (if N = 0 then 65535 else ((N - 1) ||| 1) % 65536) else N / 2 * 2

/-- The function `ntru_to_sves`: the status and the buffer `data` after the call; `data0` is what
`data` holds before the call. -/
def ntru_to_sves (poly : NtruIntPoly) (skip : Nat) (data0 : Mem) : Status × Mem :=
  let N := poly.N
  let data := fun k => if k < sves_len N then 0 else data0 k
  to_sves_loop poly.coeffs (sves_end N skip) (sves_end N skip) (sves_start skip) data 0 0

/-- Bit `k` of the encoding of the pairs of `coeffs` that start at index `start`. -/
def sves_bit (coeffs : Nat → Int) (start k : Nat) : Bool :=
  decide ((sves_bits_of ((coeffs (start + 2 * (k / 3)) + 1) * 3 +
    (coeffs (start + 2 * (k / 3) + 1) + 1)).toNat).getD (k % 3) 0 = 1)

/-- Table index that `ntru_from_sves` computes for the pair number `t` counted from the chunk
number `a`. -/
def chunk_idx (M : Mem) (a t : Nat) : Nat :=
  coeff_tbl_idx (read_chunk M (3 * (a + t / 8)) >>> (3 * (t % 8)))

/-- Coefficient that `ntru_from_sves` stores at index `x`, when the pair of index `ci` is the
first one taken from the chunk number `a`. -/
def dec_coeff (M : Mem) (a ci x : Nat) : Int :=
  if (x - ci) % 2 = 0 then NTRU_COEFF1_TABLE.getD (chunk_idx M a ((x - ci) / 2)) 0
  else NTRU_COEFF2_TABLE.getD (chunk_idx M a ((x - ci) / 2)) 0

/-- The three bits of the pair number `j` in the bit stream of `M`, first bit most significant. -/
def sves_idx (M : Mem) (j : Nat) : Nat :=
  4 * (getBit M (3 * j)).toNat + 2 * (getBit M (3 * j + 1)).toNat + (getBit M (3 * j + 2)).toNat

/-- Number of coefficient pairs `ntru_from_sves` decodes from `M`. -/
def sves_pairs (M_len N skip : Nat) : Nat := min (8 * (M_len / 3)) ((N - sves_start skip) / 2)

/-! ## Index generation function and ternary sampler -/

/-- Modelled from the spec: the struct `NtruIGFState` of `idxgen.h`, which `ntru.c` only uses
through `s->N` and `ntru_IGF_next`. The index generation function is a deterministic stream of
indices seeded from a byte string; the state holds `N` and the indices still to come, `idx 0`
being the next one. -/
structure NtruIGFState where
  N : Nat
  idx : Nat → Nat

/-- Modelled from the spec: `ntru_IGF_next(s, &idx)` of `idxgen.c` yields the next index of the
stream and advances the state. -/
def ntru_IGF_next (s : NtruIGFState) : Nat × NtruIGFState :=
  (s.idx 0, { s with idx := fun k => s.idx (k + 1) })

/-- The state reached from `s` after `m` calls of `ntru_IGF_next`. -/
def igf_shift (s : NtruIGFState) (m : Nat) : NtruIGFState :=
  { s with idx := fun k => s.idx (k + m) }

/-- The struct `NtruTernPoly`: `N`, the two counts and the two index arrays. -/
structure NtruTernPoly where
  N : Nat
  num_ones : Nat
  num_neg_ones : Nat
  ones : Nat → Nat
  neg_ones : Nat → Nat

/-- Either `while (t < df)` loop of `ntru_gen_tern_poly`; the state is the generator `s`, the
marks `r`, the counter `t` and the index array `a` being filled. The loop has no bound on its
iterations: `none` is returned when `fuel` calls of `ntru_IGF_next` were not enough. -/
def gen_tern_loop (df : Nat) :
    Nat → NtruIGFState → (Nat → Nat) → Nat → (Nat → Nat) →
      Option (NtruIGFState × (Nat → Nat) × (Nat → Nat))
  | 0, s, r, t, a => if t < df then none else some (s, r, a)
  | fuel + 1, s, r, t, a =>
    if t < df then
      let idx := (ntru_IGF_next s).1
      let s1 := (ntru_IGF_next s).2
      if r idx = 0 then gen_tern_loop df fuel s1 (store r idx 1) (t + 1) (store a t idx)
      else gen_tern_loop df fuel s1 r t a
    else some (s, r, a)

/-- The function `ntru_gen_tern_poly`: the polynomial written to `*p` and the generator state
after the call; `p0` is what `*p` holds before the call and `fuel` bounds the iterations of each
of the two loops. -/
def ntru_gen_tern_poly (fuel : Nat) (s : NtruIGFState) (df : Nat) (p0 : NtruTernPoly) :
    Option (NtruTernPoly × NtruIGFState) :=
  match gen_tern_loop df fuel s (fun _ => 0) 0 p0.neg_ones with
  | none => none
  | some (s1, r1, neg_ones) =>
    match gen_tern_loop df fuel s1 r1 0 p0.ones with
    | none => none
    | some (s2, _, ones) =>
      some ({ N := s.N, num_ones := df, num_neg_ones := df, ones := ones, neg_ones := neg_ones }, s2)

/-! ## Parameters, keys and the functions of the other source files -/

/-- The fields of the struct `NtruEncParams` that `ntru.c` reads. -/
structure NtruEncParams where
  N : Nat
  q : Nat
  prod_flag : Nat
  df1 : Nat
  df2 : Nat
  df3 : Nat
  dm0 : Nat
  maxm1 : Nat
  db : Nat
  pklen : Nat
  oid : Mem

/-- Modelled from the spec: `sizeof params->oid` for the array `oid` of the struct
`NtruEncParams` (`encparams.h`); the parameter identifier has 3 bytes. -/
def oid_len : Nat := 3

/-- The struct `NtruProdPoly`. -/
structure NtruProdPoly where
  N : Nat
  f1 : NtruTernPoly
  f2 : NtruTernPoly
  f3 : NtruTernPoly

/-- The struct `NtruPrivPoly`: the flag and the two members `poly.tern`, `poly.prod`. -/
structure NtruPrivPoly where
  prod_flag : Nat
  tern : NtruTernPoly
  prod : NtruProdPoly

/-- The struct `NtruEncPrivKey`. -/
structure NtruEncPrivKey where
  q : Nat
  t : NtruPrivPoly

/-- The struct `NtruEncPubKey`. -/
structure NtruEncPubKey where
  q : Nat
  h : NtruIntPoly

/-- The struct `NtruEncKeyPair`. -/
structure NtruEncKeyPair where
  priv : NtruEncPrivKey
  pub : NtruEncPubKey

/-- The functions that `ntru.c` calls and that are defined in `rand.c`, `poly.c`, `idxgen.c` and
`mgf.c`. `ρ` is the state of the random context. An input buffer passed with its length is a
list of bytes, an output buffer is the buffer after the call. `generate` returns whether it
succeeded, the bytes it wrote and the new state of the context. -/
structure Ext (ρ : Type) where
  generate : ρ → Nat → Bool × Mem × ρ
  ntru_to_arr : NtruIntPoly → Nat → Mem
  ntru_from_arr : Mem → Nat → Nat → NtruIntPoly
  ntru_to_arr4 : NtruIntPoly → Mem
  ntru_MGF : List Nat → NtruEncParams → NtruIntPoly
  ntru_IGF_init : List Nat → NtruEncParams → NtruIGFState
  ntru_mult_tern : NtruIntPoly → NtruTernPoly → Nat → NtruIntPoly
  ntru_mult_prod : NtruIntPoly → NtruProdPoly → Nat → NtruIntPoly
  ntru_mult_fac : NtruIntPoly → Int → NtruIntPoly
  ntru_add_int : NtruIntPoly → NtruIntPoly → NtruIntPoly
  ntru_add_int_mod : NtruIntPoly → NtruIntPoly → Nat → NtruIntPoly
  ntru_sub_int : NtruIntPoly → NtruIntPoly → NtruIntPoly
  ntru_mod : NtruIntPoly → Nat → NtruIntPoly
  ntru_mod3 : NtruIntPoly → NtruIntPoly
  ntru_mod_center : NtruIntPoly → Nat → NtruIntPoly
  ntru_sum_coeffs : NtruIntPoly → Int

/-- Modelled from the spec: `ntru_equals_int` of `poly.c`, equality of two polynomials: the same
`N` and the same `N` coefficients. -/
def ntru_equals_int (a b : NtruIntPoly) : Bool :=
  decide (a.N = b.N ∧ ∀ i, i < a.N → a.coeffs i = b.coeffs i)

/-- What the stack arrays and structs of `ntru_encrypt` and `ntru_decrypt` hold before they are
written: `M`, `mtrin`, `sdata`, `cM` and the ternary polynomials of `r` / `cr`. -/
structure Stack where
  M : Mem
  mtrin : Nat → Int
  sdata : Mem
  cM : Mem
  r : NtruTernPoly

/-- The call `memcpy(dst + off, src, n)`. -/
def memcpy (dst : Mem) (off : Nat) (src : Mem) (n : Nat) : Mem :=
  fun i => if off ≤ i ∧ i < off + n then src (i - off) else dst i

/-- The call `memset(dst + off, 0, n)`. -/
def memset0 (dst : Mem) (off n : Nat) : Mem :=
  fun i => if off ≤ i ∧ i < off + n then 0 else dst i

/-! ## Seed, blinding polynomial, repetition weight, maximum message length -/

/-- The function `ntru_get_seed`: the buffer `seed` after the call; `seed0` is what it holds
before. `htrunc` is the first `pklen/8` bytes of `bh = ntru_to_arr(h, q)`. -/
def ntru_get_seed {ρ : Type} (ext : Ext ρ) (msg : Mem) (msg_len : Nat) (h : NtruIntPoly) (b : Mem)
    (params : NtruEncParams) (seed0 : Mem) : Mem :=
  let pklen := params.pklen
  let bh := ext.ntru_to_arr h params.q
  let htrunc := memcpy (fun _ => 0) 0 bh (pklen / 8)
  let blen := params.db / 8
  let s1 := memcpy seed0 0 params.oid oid_len
  let s2 := memcpy s1 oid_len msg msg_len
  let s3 := memcpy s2 (oid_len + msg_len) b blen
  memcpy s3 (oid_len + msg_len + blen) htrunc (pklen / 8)

/-- The result of `ntru_gen_blind_poly`: the member of `r->poly` it fills (the build without
`NTRU_AVOID_HAMMING_WT_PATENT`). -/
inductive BlindPoly where
  | tern (p : NtruTernPoly)
  | prod (p : NtruProdPoly)

/-- The function `ntru_gen_blind_poly`; `r0` is what the ternary polynomials of `*r` hold
before the call, `fuel` bounds the iterations of each sampling loop. -/
def ntru_gen_blind_poly {ρ : Type} (ext : Ext ρ) (fuel : Nat) (seed : List Nat)
    (params : NtruEncParams) (r0 : NtruTernPoly) : Option BlindPoly :=
  let s := ext.ntru_IGF_init seed params
  if params.prod_flag ≠ 0 then
    match ntru_gen_tern_poly fuel s params.df1 r0 with
    | none => none
    | some (f1, s1) =>
      match ntru_gen_tern_poly fuel s1 params.df2 r0 with
      | none => none
      | some (f2, s2) =>
        match ntru_gen_tern_poly fuel s2 params.df3 r0 with
        | none => none
        | some (f3, _) => some (BlindPoly.prod { N := s.N, f1 := f1, f2 := f2, f3 := f3 })
  else
    match ntru_gen_tern_poly fuel s params.df1 r0 with
    | none => none
    | some (p, _) => some (BlindPoly.tern { p with N := s.N })

/-- Loop `for (i=0; i<p->N; i++) weights[p->coeffs[i]+1]++` of `ntru_check_rep_weight`, with `n`
iterations left; the counters are `uint16_t`. -/
def rep_weight_loop (coeffs : Nat → Int) : Nat → Nat → (Nat → Nat) → (Nat → Nat)
  | 0, _, weights => weights
  | n + 1, i, weights =>
    rep_weight_loop coeffs n (i + 1)
      (store weights (coeffs i + 1).toNat ((weights (coeffs i + 1).toNat + 1) % 65536))

/-- The function `ntru_check_rep_weight`. -/
def ntru_check_rep_weight (p : NtruIntPoly) (dm0 : Nat) : Bool :=
  let weights := rep_weight_loop p.coeffs p.N 0 (fun _ => 0)
  decide (weights 0 ≥ dm0 ∧ weights 1 ≥ dm0 ∧ weights 2 ≥ dm0)

/-- The value of the `int` expression assigned to `max_msg_len` in `ntru_max_msg_len`:
`(N-1)*3/2/8 - llen - db/8` if `maxm1 > 0`, else `N*3/2/8 - llen - db/8`, with the truncating
division of C. -/
def max_msg_len_formula (params : NtruEncParams) : Int :=
  let N : Int := params.N
  let llen : Int := 1
  let db : Int := params.db
  if params.maxm1 > 0 then (((N - 1) * 3).tdiv 2).tdiv 8 - llen - db.tdiv 8
  else ((N * 3).tdiv 2).tdiv 8 - llen - db.tdiv 8

/-- The function `ntru_max_msg_len`: the value is stored into the `uint16_t max_msg_len` and
returned as `uint8_t`. -/
def ntru_max_msg_len (params : NtruEncParams) : Nat :=
  ((max_msg_len_formula params % 65536) % 256).toNat

/-! ## Encryption -/

/-- How one pass through the body of the loop `for (;;)` of `ntru_encrypt` ends: with a `return`
or with a `continue`. -/
inductive EncStep (ρ : Type) where
  | ret (status : Status) (rand : ρ) (enc : Mem)
  | cont (rand : ρ)

/-- The padded record `M = b|octL|msg|p0` that `ntru_encrypt` builds in the stack array `M`. -/
def encrypt_M (params : NtruEncParams) (msg : Mem) (msg_len : Nat) (b : Mem) (M0 : Mem) : Mem :=
  let db := params.db
  let max_len_bytes := ntru_max_msg_len params
  let M1 := memcpy M0 0 b (db / 8)
  let M2 := store M1 (db / 8) (msg_len % 256)
  let M3 := memcpy M2 (db / 8 + 1) msg msg_len
  memset0 M3 (db / 8 + 1 + msg_len) (max_len_bytes + 1 - msg_len)

/-- The length `M_len = (buf_len_bits+7)/8` of `M`, with the `uint16_t`
`buf_len_bits = (N*3/2+7)/8*8 + 1`. -/
def encrypt_M_len (params : NtruEncParams) : Nat :=
  (((params.N * 3 / 2 + 7) / 8 * 8 + 1) % 65536 + 7) / 8

/-- The multiplication of `h` by the blinding polynomial: `ntru_mult_prod` if
`params->prod_flag`, else `ntru_mult_tern`. -/
def mult_blind {ρ : Type} (ext : Ext ρ) (h : NtruIntPoly) (r : BlindPoly) (q : Nat) : NtruIntPoly :=
  match r with
  | BlindPoly.prod p => ext.ntru_mult_prod h p q
  | BlindPoly.tern p => ext.ntru_mult_tern h p q

/-- The statement `mtrin.coeffs[0] = 0` of `ntru_encrypt`, executed if `maxm1 > 0`. -/
def encrypt_zero_const (maxm1 : Nat) (mtrin : NtruIntPoly) : NtruIntPoly :=
  if maxm1 > 0 then { mtrin with coeffs := store mtrin.coeffs 0 0 } else mtrin

/-- The body of the loop `for (;;)` of `ntru_encrypt`; `none` when a sampling loop of
`ntru_gen_blind_poly` did not end within `fuel` iterations. -/
def encrypt_body {ρ : Type} (ext : Ext ρ) (fuel : Nat) (msg : Mem) (msg_len : Nat)
    (pub : NtruEncPubKey) (params : NtruEncParams) (rand : ρ) (stk : Stack) (enc0 : Mem) :
    Option (EncStep ρ) :=
  let N := params.N
  let q := params.q
  let maxm1 := params.maxm1
  let db := params.db
  let dm0 := params.dm0
  let g := ext.generate rand (db / 8)
  if g.1 = false then some (EncStep.ret NTRU_ERR_PRNG g.2.2 enc0)
  else
    let b := g.2.1
    let M_len := encrypt_M_len params
    let M := encrypt_M params msg msg_len b stk.M
    let mtrin := ntru_from_sves M M_len N maxm1 stk.mtrin
    let blen := params.db / 8
    let sdata_len := (oid_len + msg_len + blen + blen) % 65536
    let sdata := ntru_get_seed ext msg msg_len pub.h b params stk.sdata
    match ntru_gen_blind_poly ext fuel (firstN sdata sdata_len) params stk.r with
    | none => none
    | some r =>
      let R := mult_blind ext pub.h r q
      let oR4_len := (N * 2 + 7) / 8 % 65536
      let oR4 := ext.ntru_to_arr4 R
      let mask := ext.ntru_MGF (firstN oR4 oR4_len) params
      let mtrin1 := ext.ntru_add_int mtrin mask
      if maxm1 > 0 ∧ ext.ntru_sum_coeffs mtrin1 > maxm1 then some (EncStep.cont g.2.2)
      else
        let mtrin2 := encrypt_zero_const maxm1 mtrin1
        let mtrin3 := ext.ntru_mod3 mtrin2
        if dm0 > 0 ∧ ntru_check_rep_weight mtrin3 dm0 = false then some (EncStep.cont g.2.2)
        else
          let R1 := ext.ntru_add_int_mod R mtrin3 q
          some (EncStep.ret NTRU_SUCCESS g.2.2 (ext.ntru_to_arr R1 q))

/-- The loop `for (;;)` of `ntru_encrypt`, which has no bound on its iterations: `none` when it
did not return within `n` passes. -/
def encrypt_loop {ρ : Type} (ext : Ext ρ) (fuel : Nat) (msg : Mem) (msg_len : Nat)
    (pub : NtruEncPubKey) (params : NtruEncParams) (stk : Stack) (enc0 : Mem) :
    Nat → ρ → Option (Status × ρ × Mem)
  | 0, _ => none
  | n + 1, rand =>
    match encrypt_body ext fuel msg msg_len pub params rand stk enc0 with
    | none => none
    | some (EncStep.ret status rand1 enc) => some (status, rand1, enc)
    | some (EncStep.cont rand1) => encrypt_loop ext fuel msg msg_len pub params stk enc0 n rand1

/-- The function `ntru_encrypt`: the status, the state of the random context and the buffer
`enc` after the call; `enc0` is what `enc` holds before the call. `fuel` bounds the passes
through the loop and the iterations of every sampling loop. -/
def ntru_encrypt {ρ : Type} (ext : Ext ρ) (fuel : Nat) (msg : Mem) (msg_len : Nat)
    (pub : NtruEncPubKey) (params : NtruEncParams) (rand : ρ) (stk : Stack) (enc0 : Mem) :
    Option (Status × ρ × Mem) :=
  let max_len_bytes := ntru_max_msg_len params
  if max_len_bytes > 255 then some (NTRU_ERR_INVALID_MAX_LEN, rand, enc0)
  else if msg_len > max_len_bytes then some (NTRU_ERR_MSG_TOO_LONG, rand, enc0)
  else encrypt_loop ext fuel msg msg_len pub params stk enc0 fuel rand

/-! ## Decryption -/

/-- The function `ntru_decrypt_poly`. -/
def ntru_decrypt_poly {ρ : Type} (ext : Ext ρ) (e : NtruIntPoly) (priv : NtruEncPrivKey) (q : Nat) :
    NtruIntPoly :=
  let d := if priv.t.prod_flag ≠ 0 then ext.ntru_mult_prod e priv.t.prod q
    else ext.ntru_mult_tern e priv.t.tern q
  let d1 := ext.ntru_mult_fac d 3
  let d2 := ext.ntru_add_int d1 e
  let d3 := ext.ntru_mod_center d2 q
  ext.ntru_mod3 d3

/-- The polynomial `ci` of `ntru_decrypt`. -/
def decrypt_ci {ρ : Type} (ext : Ext ρ) (enc : Mem) (kp : NtruEncKeyPair) (params : NtruEncParams) :
    NtruIntPoly :=
  ntru_decrypt_poly ext (ext.ntru_from_arr enc params.N params.q) kp.priv params.q

/-- The polynomial `cR = (e - ci) mod q` of `ntru_decrypt`. -/
def decrypt_cR {ρ : Type} (ext : Ext ρ) (enc : Mem) (kp : NtruEncKeyPair) (params : NtruEncParams) :
    NtruIntPoly :=
  ext.ntru_mod (ext.ntru_sub_int (ext.ntru_from_arr enc params.N params.q)
    (decrypt_ci ext enc kp params)) params.q

/-- The polynomial `cmtrin = mod3(ci - mask)` of `ntru_decrypt`. -/
def decrypt_cmtrin {ρ : Type} (ext : Ext ρ) (enc : Mem) (kp : NtruEncKeyPair)
    (params : NtruEncParams) : NtruIntPoly :=
  let coR4_len := (params.N * 2 + 7) / 8 % 65536
  let coR4 := ext.ntru_to_arr4 (decrypt_cR ext enc kp params)
  let mask := ext.ntru_MGF (firstN coR4 coR4_len) params
  ext.ntru_mod3 (ext.ntru_sub_int (decrypt_ci ext enc kp params) mask)

/-- The array `cM` of `ntru_decrypt` after the call of `ntru_to_sves`, whose return value
`ntru_decrypt` does not read. -/
def decrypt_cM {ρ : Type} (ext : Ext ρ) (enc : Mem) (kp : NtruEncKeyPair) (params : NtruEncParams)
    (stk : Stack) : Mem :=
  (ntru_to_sves (decrypt_cmtrin ext enc kp params) params.maxm1 stk.cM).2

/-- The length byte `cl = *cM_head` read at `cM + blen`. -/
def decrypt_cl {ρ : Type} (ext : Ext ρ) (enc : Mem) (kp : NtruEncKeyPair) (params : NtruEncParams)
    (stk : Stack) : Nat :=
  decrypt_cM ext enc kp params stk (params.db / 8) % 256

/-- The buffer `dec` after `memcpy(dec, cM_head, cl)`. -/
def decrypt_dec {ρ : Type} (ext : Ext ρ) (enc : Mem) (kp : NtruEncKeyPair) (params : NtruEncParams)
    (stk : Stack) (dec0 : Mem) : Mem :=
  memcpy dec0 0 (fun i => decrypt_cM ext enc kp params stk (params.db / 8 + 1 + i))
    (decrypt_cl ext enc kp params stk)

/-- Loop `for (i=cM_head; i<cM+cM_len_bytes; i++) if (*i) return NTRU_ERR_NO_ZERO_PAD` of
`ntru_decrypt`, with `n` iterations left: whether it ends without the `return`. -/
def zero_pad_loop (cM : Mem) : Nat → Nat → Bool
  | 0, _ => true
  | n + 1, i => if cM i ≠ 0 then false else zero_pad_loop cM n (i + 1)

/-- Whether the zero padding check of `ntru_decrypt` passes. -/
def decrypt_zero_pad {ρ : Type} (ext : Ext ρ) (enc : Mem) (kp : NtruEncKeyPair)
    (params : NtruEncParams) (stk : Stack) : Bool :=
  let cM_len_bits := (params.N * 3 + 1) / 2 % 65536
  let cM_len_bytes := (cM_len_bits + 7) / 8
  let cM_head := params.db / 8 + 1 + decrypt_cl ext enc kp params stk
  zero_pad_loop (decrypt_cM ext enc kp params stk) (cM_len_bytes - cM_head) cM_head

/-- The seed `sdata` of length `sdata_len` that `ntru_decrypt` passes to `ntru_gen_blind_poly`. -/
def decrypt_seed {ρ : Type} (ext : Ext ρ) (enc : Mem) (kp : NtruEncKeyPair) (params : NtruEncParams)
    (stk : Stack) (dec0 : Mem) : List Nat :=
  let blen := params.db / 8
  let cl := decrypt_cl ext enc kp params stk
  let cb := memcpy (fun _ => 0) 0 (decrypt_cM ext enc kp params stk) blen
  let sdata_len := (oid_len + cl + blen + params.db / 8) % 65536
  firstN (ntru_get_seed ext (decrypt_dec ext enc kp params stk dec0) cl kp.pub.h cb params stk.sdata)
    sdata_len

/-- The function `ntru_decrypt`: the status, the buffer `dec` and the value of `*dec_len` after
the call; `dec0` and `dec_len0` are what they hold before. `none` when a sampling loop of
`ntru_gen_blind_poly` did not end within `fuel` iterations. -/
def ntru_decrypt {ρ : Type} (ext : Ext ρ) (fuel : Nat) (enc : Mem) (kp : NtruEncKeyPair)
    (params : NtruEncParams) (stk : Stack) (dec0 : Mem) (dec_len0 : Nat) :
    Option (Status × Mem × Nat) :=
  let q := params.q
  let max_len_bytes := ntru_max_msg_len params
  let dm0 := params.dm0
  if max_len_bytes > 255 then some (NTRU_ERR_INVALID_MAX_LEN, dec0, dec_len0)
  else
    let ci := decrypt_ci ext enc kp params
    if dm0 > 0 ∧ ntru_check_rep_weight ci dm0 = false then
      some (NTRU_ERR_DM0_VIOLATION, dec0, dec_len0)
    else
      let cR := decrypt_cR ext enc kp params
      let cl := decrypt_cl ext enc kp params stk
      if cl > max_len_bytes then some (NTRU_ERR_MSG_TOO_LONG, dec0, dec_len0)
      else
        let dec := decrypt_dec ext enc kp params stk dec0
        if decrypt_zero_pad ext enc kp params stk = false then
          some (NTRU_ERR_NO_ZERO_PAD, dec, dec_len0)
        else
          match ntru_gen_blind_poly ext fuel (decrypt_seed ext enc kp params stk dec0) params
            stk.r with
          | none => none
          | some cr =>
            let cR_prime := mult_blind ext kp.pub.h cr q
            if ntru_equals_int cR_prime cR = false then
              some (NTRU_ERR_INVALID_ENCODING, dec, dec_len0)
            else some (NTRU_SUCCESS, dec, cl)

/-! ## A concrete instance of the external functions

Ring arithmetic in `Z[x]/(x^N - 1)` as the interface of `poly.c` describes it, one byte per
coefficient for `ntru_to_arr` / `ntru_from_arr` (the packing for `q = 256`), the all-zero mask and
the index stream `k ↦ (k + sum of the seed bytes) mod N`. It is used to run the envelope on
concrete inputs. -/

/-- Coefficient-wise combination of two polynomials. -/
def poly_zip (f : Int → Int → Int) (a b : NtruIntPoly) : NtruIntPoly :=
  { N := a.N, coeffs := fun i => f (a.coeffs i) (b.coeffs i) }

/-- Coefficient-wise image of a polynomial. -/
def poly_map (f : Int → Int) (a : NtruIntPoly) : NtruIntPoly :=
  { N := a.N, coeffs := fun i => f (a.coeffs i) }

/-- Sum of `f 0, ..., f (n-1)`. -/
def sum_upto (f : Nat → Int) : Nat → Int
  | 0 => 0
  | n + 1 => sum_upto f n + f n

/-- The product `a * t mod q` with `t` given by the index arrays of a `NtruTernPoly`. -/
def mult_tern_ref (a : NtruIntPoly) (t : NtruTernPoly) (q : Nat) : NtruIntPoly :=
  { N := a.N,
    coeffs := fun k =>
      (sum_upto (fun i => a.coeffs ((k + a.N - t.ones i % a.N) % a.N)) t.num_ones -
        sum_upto (fun i => a.coeffs ((k + a.N - t.neg_ones i % a.N) % a.N)) t.num_neg_ones) % q }

/-- The representative of `x` modulo 3 in `{-1, 0, 1}`. -/
def mod3_ref (x : Int) : Int := if x % 3 = 2 then -1 else x % 3

/-- The representative of `x` modulo `q` in `(-q/2, q/2]`. -/
def center_ref (q : Nat) (x : Int) : Int := if 2 * (x % q) > q then x % q - q else x % q

/-- The concrete instance. -/
def refExt : Ext Unit where
  generate := fun r _ => (true, fun _ => 0, r)
  ntru_to_arr := fun p q => fun i => if i < p.N then (p.coeffs i % q).toNat % 256 else 0
  ntru_from_arr := fun a N q => { N := N, coeffs := fun i => if i < N then (a i : Int) % q else 0 }
  ntru_to_arr4 := fun p => fun i => (p.coeffs i % 4).toNat
  ntru_MGF := fun _ params => { N := params.N, coeffs := fun _ => 0 }
  ntru_IGF_init := fun seed params => { N := params.N, idx := fun k => (k + seed.sum) % params.N }
  ntru_mult_tern := mult_tern_ref
  ntru_mult_prod := fun a p q =>
    poly_zip (fun x y => (x + y) % q) (mult_tern_ref (mult_tern_ref a p.f1 q) p.f2 q)
      (mult_tern_ref a p.f3 q)
  ntru_mult_fac := fun a c => poly_map (fun x => x * c) a
  ntru_add_int := poly_zip (fun x y => x + y)
  ntru_add_int_mod := fun a b q => poly_zip (fun x y => (x + y) % q) a b
  ntru_sub_int := poly_zip (fun x y => x - y)
  ntru_mod := fun a q => poly_map (fun x => x % q) a
  ntru_mod3 := poly_map mod3_ref
  ntru_mod_center := fun a q => poly_map (center_ref q) a
  ntru_sum_coeffs := fun a => sum_upto a.coeffs a.N

/-- A parameter set with `N = 11`, `q = 256`, no salt, one-byte messages. -/
def params11 : NtruEncParams :=
  { N := 11, q := 256, prod_flag := 0, df1 := 2, df2 := 0, df3 := 0, dm0 := 0, maxm1 := 0, db := 0,
    pklen := 0, oid := ofBytes [0, 2, 4] }

/-- The zero ternary polynomial. -/
def tern0 : NtruTernPoly :=
  { N := 11, num_ones := 0, num_neg_ones := 0, ones := fun _ => 0, neg_ones := fun _ => 0 }

/-- A key pair for `params11`: `t = 0` (so `f = 1`), `g = 1` and `h = 3 * g * f^(-1) = 3`. -/
def kp11 : NtruEncKeyPair :=
  { priv := { q := 256, t := { prod_flag := 0, tern := tern0, prod := ⟨11, tern0, tern0, tern0⟩ } },
    pub := { q := 256, h := { N := 11, coeffs := ofCoeffs [3] } } }

/-- Stack contents before the calls. -/
def stk0 : Stack := { M := fun _ => 170, mtrin := fun _ => 7, sdata := fun _ => 85, cM := fun _ => 204, r := tern0 }

/-- A parameter set with `N = 2001` and no salt: the expression `N*3/2/8 - llen - db/8` is `374`. -/
def params2001 : NtruEncParams :=
  { N := 2001, q := 2048, prod_flag := 0, df1 := 2, df2 := 0, df3 := 0, dm0 := 0, maxm1 := 0, db := 0,
    pklen := 0, oid := ofBytes [0, 2, 4] }

/-- The ciphertext of the one-byte message `5` under `kp11` and `params11`. -/
def enc5 : Mem := ofBytes [254, 254, 3, 3, 0, 1, 0, 255, 0, 0, 0]

/-- The ciphertext `enc5` with `1` subtracted modulo `q` from the coefficients 8 and 9, which
turns the pair `(0,0)` of the message polynomial into `(-1,-1)`. -/
def enc5_bad : Mem := ofBytes [254, 254, 3, 3, 0, 1, 0, 255, 255, 255, 0]

/-- Number of the `N` coefficients of `p` that are equal to `v`. -/
def coeff_count (p : NtruIntPoly) (v : Int) : Nat :=
  (List.range p.N).countP (fun i => decide (p.coeffs i = v))

/-- A ciphertext for `kp11` and `params11` whose decoded record has the length byte `2`. -/
def enc_long : Mem := ofBytes [0, 255, 0, 0, 0, 0, 0, 0, 0, 0, 0]

/-- A ciphertext for `kp11` and `params11` whose decoded record is `[0, 2, 0]`: length byte `0`
followed by a non-zero byte. -/
def enc_pad : Mem := ofBytes [0, 0, 0, 0, 0, 0, 1, 1, 0, 0, 0]

/-- A ciphertext for `kp11` and `params11` whose decoded record is `[1, 0, 0]`, the record of the
one-byte message `0`, but which does not pass the re-encryption check. -/
def enc_forged : Mem := ofBytes [1, 1, 0, 0, 0, 0, 0, 0, 0, 0, 0]

/-- The seed `sdata` of length `sdata_len` that `ntru_encrypt` passes to `ntru_gen_blind_poly` in a
pass of its loop that drew the salt `b`. -/
def encrypt_seed {ρ : Type} (ext : Ext ρ) (msg : Mem) (msg_len : Nat) (pub : NtruEncPubKey)
    (params : NtruEncParams) (b : Mem) (stk : Stack) : List Nat :=
  let blen := params.db / 8
  let sdata_len := (oid_len + msg_len + blen + blen) % 65536
  firstN (ntru_get_seed ext msg msg_len pub.h b params stk.sdata) sdata_len

/-- The polynomial `mtrin` of `ntru_encrypt` after `ntru_add_int(&mtrin, &mask)`, in a pass that
drew the salt `b` and generated the blinding polynomial `r`. -/
def encrypt_mtrin {ρ : Type} (ext : Ext ρ) (msg : Mem) (msg_len : Nat) (pub : NtruEncPubKey)
    (params : NtruEncParams) (b : Mem) (stk : Stack) (r : BlindPoly) : NtruIntPoly :=
  let mtrin := ntru_from_sves (encrypt_M params msg msg_len b stk.M) (encrypt_M_len params)
    params.N params.maxm1 stk.mtrin
  let R := mult_blind ext pub.h r params.q
  let oR4_len := (params.N * 2 + 7) / 8 % 65536
  let mask := ext.ntru_MGF (firstN (ext.ntru_to_arr4 R) oR4_len) params
  ext.ntru_add_int mtrin mask

/-- The buffer `enc` written by a pass of the loop of `ntru_encrypt` that returns
`NTRU_SUCCESS`: `ntru_to_arr` of `R + mod3(mtrin)` modulo `q`, with the constant coefficient of
`mtrin` set to zero before if `maxm1 > 0`. -/
def encrypt_enc {ρ : Type} (ext : Ext ρ) (msg : Mem) (msg_len : Nat) (pub : NtruEncPubKey)
    (params : NtruEncParams) (b : Mem) (stk : Stack) (r : BlindPoly) : Mem :=
  ext.ntru_to_arr
    (ext.ntru_add_int_mod (mult_blind ext pub.h r params.q)
      (ext.ntru_mod3 (encrypt_zero_const params.maxm1
        (encrypt_mtrin ext msg msg_len pub params b stk r))) params.q) params.q

/-- The parameter set `params11` with `maxm1 = 10`. -/
def params11m : NtruEncParams := { params11 with maxm1 := 10 }

/-- The parameter set `params11` with 8 bits of salt and `pklen = 0`. -/
def params_db8 : NtruEncParams := { params11 with db := 8, pklen := 0 }

/-! ## Key generation -/

/-- The seed as the specification words it for the re-encryption in `ntru_decrypt`:
`oid | pt | cb | htrunc`, with `pt` the `cl` recovered plaintext bytes, `cb` the `db/8` recovered
salt bytes and `htrunc` the first `pklen/8` bytes of `ntru_to_arr(h, q)`. -/
def decrypt_seed_spec {ρ : Type} (ext : Ext ρ) (enc : Mem) (kp : NtruEncKeyPair)
    (params : NtruEncParams) (stk : Stack) (dec0 : Mem) : List Nat :=
  firstN params.oid oid_len ++
    firstN (decrypt_dec ext enc kp params stk dec0) (decrypt_cl ext enc kp params stk) ++
    firstN (decrypt_cM ext enc kp params stk) (params.db / 8) ++
    firstN (ext.ntru_to_arr kp.pub.h params.q) (params.pklen / 8)

/-- A ciphertext for `kp11` and `params_db8` whose decoded record is the salt byte `0`, the length
byte `0` and zero padding. -/
def enc_stale : Mem := ofBytes [0, 0, 0, 253, 253, 3, 3, 0, 0, 0, 0]

/-- The stack contents `stk0` with `86` in place of `85` in the array `sdata`. -/
def stk86 : Stack := { stk0 with sdata := fun _ => 86 }

theorem to_sves_loop_status (coeffs : Nat → Int) (e : Nat) :
    ∀ (n i : Nat) (data : Mem) (bi by_ : Nat), e ≤ i + 2 * n →
      (((to_sves_loop coeffs e n i data bi by_).1 = NTRU_ERR_INVALID_ENCODING ↔
        ∃ j, i + 2 * j < e ∧ coeffs (i + 2 * j) = -1 ∧ coeffs (i + 2 * j + 1) = -1) ∧
      ((to_sves_loop coeffs e n i data bi by_).1 = NTRU_SUCCESS ∨
        (to_sves_loop coeffs e n i data bi by_).1 = NTRU_ERR_INVALID_ENCODING)) := by
  intro n
  induction n with
  | zero =>
    intro i data bi by_ h
    simp only [to_sves_loop, reduceCtorEq, false_iff, or_false, and_true, not_exists]
    rintro j ⟨hj, _⟩
    omega
  | succ n ih =>
    intro i data bi by_ h
    simp only [to_sves_loop]
    by_cases hi : i < e
    · simp only [hi, if_true]
      by_cases hc : coeffs i + 1 = 0 ∧ coeffs (i + 1) + 1 = 0
      · simp only [hc, and_self, if_true, true_iff, or_true, and_true]
        exact ⟨0, by simpa using hi, by have := hc.1; simp; omega, by have := hc.2; simp; omega⟩
      · simp only [hc, if_false]
        have ih' := ih (i + 2) (to_sves_bits (sves_bits_of ((coeffs i + 1) * 3 + (coeffs (i + 1) + 1)).toNat) data bi by_).1
          (to_sves_bits (sves_bits_of ((coeffs i + 1) * 3 + (coeffs (i + 1) + 1)).toNat) data bi by_).2.1
          (to_sves_bits (sves_bits_of ((coeffs i + 1) * 3 + (coeffs (i + 1) + 1)).toNat) data bi by_).2.2 (by omega)
        refine ⟨ih'.1.trans ⟨?_, ?_⟩, ih'.2⟩
        · rintro ⟨j, hj, h1, h2⟩
          exact ⟨j + 1, by omega, by rw [← h1]; congr 1; omega, by rw [← h2]; congr 1; omega⟩
        · rintro ⟨j, hj, h1, h2⟩
          cases j with
          | zero => exact absurd ⟨by simpa using (by simp at h1; omega : coeffs i + 1 = 0), by simp at h2; omega⟩ hc
          | succ j => exact ⟨j, by omega, by rw [← h1]; congr 1; omega, by rw [← h2]; congr 1; omega⟩
    · simp only [hi, if_false, reduceCtorEq, false_iff, or_false, and_true, not_exists]
      rintro j ⟨hj, _⟩
      omega

theorem testBit_le_one (b m : Nat) (hb : b ≤ 1) : b.testBit m = (decide (b = 1) && decide (m = 0)) := by
  interval_cases b
  · simp
  · cases m with
    | zero => simp
    | succ m => simp [Nat.testBit_add_one]

theorem getBit_store_or (data : Mem) (P b k : Nat) (hb : b ≤ 1) :
    getBit (store data (P / 8) ((data (P / 8) ||| (b <<< (P % 8))) % 256)) k =
      (getBit data k || (decide (k = P) && decide (b = 1))) := by
  unfold getBit store
  by_cases h : k / 8 = P / 8
  · simp only [h, if_true]
    have h8 : k % 8 < 8 := Nat.mod_lt _ (by norm_num)
    rw [show (256 : Nat) = 2 ^ 8 from rfl, Nat.testBit_mod_two_pow, Nat.testBit_or,
      Nat.testBit_shiftLeft, testBit_le_one b _ hb]
    simp only [h8, decide_True, Bool.true_and]
    by_cases hk : k = P
    · subst hk; simp
    · have : ¬ (k % 8 ≥ P % 8 ∧ k % 8 - P % 8 = 0) := by omega
      by_cases h1 : k % 8 ≥ P % 8 <;> by_cases h2 : k % 8 - P % 8 = 0 <;> simp [h1, h2, hk]
      omega
  · have hk : k ≠ P := by rintro rfl; exact h rfl
    simp [h, hk]

theorem to_sves_bits_spec : ∀ (bs : List Nat) (data : Mem) (P : Nat),
    (P + bs.length) / 8 < 65536 → (∀ b ∈ bs, b ≤ 1) →
    (to_sves_bits bs data (P % 8) (P / 8)).2.1 = (P + bs.length) % 8 ∧
    (to_sves_bits bs data (P % 8) (P / 8)).2.2 = (P + bs.length) / 8 ∧
    ∀ k, getBit (to_sves_bits bs data (P % 8) (P / 8)).1 k =
      (getBit data k || (decide (P ≤ k ∧ k < P + bs.length) && decide (bs.getD (k - P) 0 = 1))) := by
  intro bs
  induction bs with
  | nil => intro data P _ _; simp [to_sves_bits]
  | cons b bs ih =>
    intro data P hP hb
    have hb1 : b ≤ 1 := hb b (List.mem_cons_self _ _)
    have hbs : ∀ b ∈ bs, b ≤ 1 := fun x hx => hb x (List.mem_cons_of_mem _ hx)
    simp only [List.length_cons] at hP ⊢
    have key := ih (store data (P / 8) ((data (P / 8) ||| (b <<< (P % 8))) % 256)) (P + 1)
      (by omega) hbs
    have hstate : to_sves_bits (b :: bs) data (P % 8) (P / 8) =
        to_sves_bits bs (store data (P / 8) ((data (P / 8) ||| (b <<< (P % 8))) % 256))
          ((P + 1) % 8) ((P + 1) / 8) := by
      simp only [to_sves_bits]
      by_cases h7 : P % 8 = 7
      · simp only [h7, if_true]
        have e1 : (P + 1) % 8 = 0 := by omega
        have e2 : (P / 8 + 1) % 65536 = (P + 1) / 8 := by omega
        rw [e1, e2]
      · simp only [h7, if_false]
        have e1 : (P + 1) % 8 = P % 8 + 1 := by omega
        have e2 : (P + 1) / 8 = P / 8 := by omega
        rw [e1, e2]
    rw [hstate]
    refine ⟨by rw [key.1]; congr 1; omega, by rw [key.2.1]; congr 1; omega, ?_⟩
    intro k
    rw [key.2.2 k, getBit_store_or data P b k hb1]
    by_cases hk : k = P
    · subst hk
      simp
    · by_cases hk2 : P + 1 ≤ k
      · have : k - P = (k - (P + 1)) + 1 := by omega
        rw [this, List.getD_cons_succ]
        have e : (P ≤ k ∧ k < P + (bs.length + 1)) ↔ (P + 1 ≤ k ∧ k < P + 1 + bs.length) := by omega
        simp [hk, e]
      · have e1 : ¬ (P ≤ k ∧ k < P + (bs.length + 1)) := by omega
        have e2 : ¬ (P + 1 ≤ k ∧ k < P + 1 + bs.length) := by omega
        simp [hk, e1, e2]

theorem bit_table_le_one (idx : Nat) :
    NTRU_BIT1_TABLE.getD idx 0 ≤ 1 ∧ NTRU_BIT2_TABLE.getD idx 0 ≤ 1 ∧ NTRU_BIT3_TABLE.getD idx 0 ≤ 1 := by
  by_cases h : idx < 9
  · interval_cases idx <;> decide
  · have h1 : NTRU_BIT1_TABLE.length ≤ idx := by simp [NTRU_BIT1_TABLE]; omega
    have h2 : NTRU_BIT2_TABLE.length ≤ idx := by simp [NTRU_BIT2_TABLE]; omega
    have h3 : NTRU_BIT3_TABLE.length ≤ idx := by simp [NTRU_BIT3_TABLE]; omega
    rw [List.getD_eq_default _ _ h1, List.getD_eq_default _ _ h2, List.getD_eq_default _ _ h3]
    omega

theorem sves_bits_of_le_one (idx : Nat) : ∀ b ∈ sves_bits_of idx, b ≤ 1 := by
  intro b hb
  have := bit_table_le_one idx
  simp only [sves_bits_of, List.mem_cons, List.mem_singleton, List.not_mem_nil, or_false] at hb
  rcases hb with rfl | rfl | rfl
  · exact this.1
  · exact this.2.1
  · exact this.2.2

theorem to_sves_bits_triple (idx : Nat) (data : Mem) (P : Nat) (hP : (P + 3) / 8 < 65536) :
    (to_sves_bits (sves_bits_of idx) data (P % 8) (P / 8)).2.1 = (P + 3) % 8 ∧
    (to_sves_bits (sves_bits_of idx) data (P % 8) (P / 8)).2.2 = (P + 3) / 8 ∧
    ∀ k, getBit (to_sves_bits (sves_bits_of idx) data (P % 8) (P / 8)).1 k =
      (getBit data k || (decide (P ≤ k ∧ k < P + 3) && decide ((sves_bits_of idx).getD (k - P) 0 = 1))) :=
  to_sves_bits_spec (sves_bits_of idx) data P hP (sves_bits_of_le_one idx)

theorem to_sves_loop_bits (coeffs : Nat → Int) (e s : Nat) (he : 3 * ((e - s + 1) / 2) < 8 * 65536) :
    ∀ (n m : Nat) (data : Mem), e ≤ s + 2 * m + 2 * n →
      (to_sves_loop coeffs e n (s + 2 * m) data (3 * m % 8) (3 * m / 8)).1 = NTRU_SUCCESS →
      ∀ k, getBit (to_sves_loop coeffs e n (s + 2 * m) data (3 * m % 8) (3 * m / 8)).2 k =
        (getBit data k || (decide (3 * m ≤ k ∧ k < 3 * ((e - s + 1) / 2)) && sves_bit coeffs s k)) := by
  intro n
  induction n with
  | zero =>
    intro m data h _ k
    have : ¬ (3 * m ≤ k ∧ k < 3 * ((e - s + 1) / 2)) := by omega
    simp [to_sves_loop, this]
  | succ n ih =>
    intro m data h
    simp only [to_sves_loop]
    by_cases hi : s + 2 * m < e
    · simp only [hi, if_true]
      by_cases hc : coeffs (s + 2 * m) + 1 = 0 ∧ coeffs (s + 2 * m + 1) + 1 = 0
      · simp [hc]
      · simp only [hc, if_false]
        have hb := to_sves_bits_triple ((coeffs (s + 2 * m) + 1) * 3 + (coeffs (s + 2 * m + 1) + 1)).toNat
          data (3 * m) (by omega)
        rw [hb.1, hb.2.1, show 3 * m + 3 = 3 * (m + 1) by ring,
          show s + 2 * m + 2 = s + 2 * (m + 1) by ring]
        intro hs k
        rw [ih (m + 1) _ (by omega) hs k, hb.2.2 k]
        by_cases h1 : 3 * m ≤ k ∧ k < 3 * m + 3
        · have e1 : k / 3 = m := by omega
          have e2 : k - 3 * m = k % 3 := by omega
          have e3 : 3 * m ≤ k ∧ k < 3 * ((e - s + 1) / 2) := by omega
          have e4 : ¬ (3 * (m + 1) ≤ k ∧ k < 3 * ((e - s + 1) / 2)) := by omega
          have hBC : decide ((sves_bits_of ((coeffs (s + 2 * m) + 1) * 3 +
              (coeffs (s + 2 * m + 1) + 1)).toNat).getD (k - 3 * m) 0 = 1) = sves_bit coeffs s k := by
            unfold sves_bit
            rw [e1, e2]
          rw [hBC]
          generalize sves_bit coeffs s k = C
          generalize getBit data k = A
          rw [decide_eq_true h1, decide_eq_true e3, decide_eq_false e4]
          cases A <;> cases C <;> rfl
        · generalize decide ((sves_bits_of ((coeffs (s + 2 * m) + 1) * 3 +
              (coeffs (s + 2 * m + 1) + 1)).toNat).getD (k - 3 * m) 0 = 1) = B
          generalize sves_bit coeffs s k = C
          generalize getBit data k = A
          by_cases h2 : 3 * (m + 1) ≤ k ∧ k < 3 * ((e - s + 1) / 2)
          · have e3 : 3 * m ≤ k ∧ k < 3 * ((e - s + 1) / 2) := by omega
            rw [decide_eq_false h1, decide_eq_true h2, decide_eq_true e3]
            cases A <;> cases C <;> rfl
          · have e3 : ¬ (3 * m ≤ k ∧ k < 3 * ((e - s + 1) / 2)) := by omega
            rw [decide_eq_false h1, decide_eq_false h2, decide_eq_false e3]
            cases A <;> cases C <;> rfl
    · simp only [hi, if_false]
      intro _ k
      have : ¬ (3 * m ≤ k ∧ k < 3 * ((e - s + 1) / 2)) := by omega
      simp [this]

theorem from_sves_inner_spec (N : Nat) : ∀ (n chunk ci : Nat) (c : Nat → Int),
    (from_sves_inner N n chunk ci c).1 = ci + 2 * min n ((N - ci) / 2) ∧
    ∀ x, (from_sves_inner N n chunk ci c).2 x =
      if ci ≤ x ∧ x < ci + 2 * min n ((N - ci) / 2) then
        (if (x - ci) % 2 = 0 then NTRU_COEFF1_TABLE.getD (coeff_tbl_idx (chunk >>> (3 * ((x - ci) / 2)))) 0
         else NTRU_COEFF2_TABLE.getD (coeff_tbl_idx (chunk >>> (3 * ((x - ci) / 2)))) 0)
      else c x := by
  intro n
  induction n with
  | zero =>
    intro chunk ci c
    refine ⟨by simp [from_sves_inner], fun x => ?_⟩
    rw [if_neg (by omega)]
    rfl
  | succ n ih =>
    intro chunk ci c
    simp only [from_sves_inner]
    by_cases h : (ci : Int) < (N : Int) - 1
    · simp only [h, if_true]
      have hN : ci + 1 < N := by omega
      have hmin : min (n + 1) ((N - ci) / 2) = min n ((N - (ci + 2)) / 2) + 1 := by omega
      obtain ⟨i1, i2⟩ := ih (chunk >>> 3) (ci + 2)
        (store (store c ci (NTRU_COEFF1_TABLE.getD (coeff_tbl_idx chunk) 0)) (ci + 1)
          (NTRU_COEFF2_TABLE.getD (coeff_tbl_idx chunk) 0))
      refine ⟨by rw [i1, hmin]; ring, ?_⟩
      intro x
      rw [i2 x, hmin]
      by_cases hx : ci + 2 ≤ x ∧ x < ci + 2 + 2 * min n ((N - (ci + 2)) / 2)
      · have hx' : ci ≤ x ∧ x < ci + 2 * (min n ((N - (ci + 2)) / 2) + 1) := by omega
        rw [if_pos hx, if_pos hx']
        have e1 : (x - (ci + 2)) % 2 = (x - ci) % 2 := by omega
        have e2 : (chunk >>> 3) >>> (3 * ((x - (ci + 2)) / 2)) = chunk >>> (3 * ((x - ci) / 2)) := by
          rw [← Nat.shiftRight_add]
          congr 1
          omega
        rw [e1, e2]
      · rw [if_neg hx]
        by_cases hx' : ci ≤ x ∧ x < ci + 2 * (min n ((N - (ci + 2)) / 2) + 1)
        · rw [if_pos hx']
          have hx2 : x = ci ∨ x = ci + 1 := by omega
          rcases hx2 with rfl | rfl
          · simp [store]
          · simp [store]
        · rw [if_neg hx']
          have h1 : x ≠ ci := by omega
          have h2 : x ≠ ci + 1 := by omega
          simp [store, h1, h2]
    · simp only [h, if_false]
      have hmin : min (n + 1) ((N - ci) / 2) = 0 := by omega
      refine ⟨by rw [hmin]; rfl, fun x => ?_⟩
      rw [if_neg (by omega)]

theorem from_sves_outer_spec (M : Mem) (N : Nat) : ∀ (n a ci : Nat) (c : Nat → Int),
    (from_sves_outer M N n (3 * a) ci c).1 = ci + 2 * min (8 * n) ((N - ci) / 2) ∧
    ∀ x, (from_sves_outer M N n (3 * a) ci c).2 x =
      if ci ≤ x ∧ x < ci + 2 * min (8 * n) ((N - ci) / 2) then dec_coeff M a ci x else c x := by
  intro n
  induction n with
  | zero =>
    intro a ci c
    refine ⟨by simp [from_sves_outer], fun x => ?_⟩
    rw [if_neg (by omega)]
    rfl
  | succ n ih =>
    intro a ci c
    simp only [from_sves_outer]
    by_cases h : (ci : Int) < (N : Int) - 1
    · simp only [h, if_true]
      obtain ⟨j1, j2⟩ := from_sves_inner_spec N 8 (read_chunk M (3 * a)) ci c
      rw [j1]
      have ih' := ih (a + 1) (ci + 2 * min 8 ((N - ci) / 2))
        (from_sves_inner N 8 (read_chunk M (3 * a)) ci c).2
      rw [show 3 * (a + 1) = 3 * a + 3 by ring] at ih'
      obtain ⟨i1, i2⟩ := ih'
      refine ⟨by rw [i1]; omega, ?_⟩
      intro x
      rw [i2 x, j2 x]
      by_cases hx : ci + 2 * min 8 ((N - ci) / 2) ≤ x ∧
          x < ci + 2 * min 8 ((N - ci) / 2) + 2 * min (8 * n) ((N - (ci + 2 * min 8 ((N - ci) / 2))) / 2)
      · have hx' : ci ≤ x ∧ x < ci + 2 * min (8 * (n + 1)) ((N - ci) / 2) := by omega
        rw [if_pos hx, if_pos hx']
        have h8 : min 8 ((N - ci) / 2) = 8 := by omega
        rw [h8]
        unfold dec_coeff chunk_idx
        have e1 : (x - (ci + 2 * 8)) % 2 = (x - ci) % 2 := by omega
        have e2 : a + 1 + (x - (ci + 2 * 8)) / 2 / 8 = a + (x - ci) / 2 / 8 := by omega
        have e3 : (x - (ci + 2 * 8)) / 2 % 8 = (x - ci) / 2 % 8 := by omega
        rw [e1, e2, e3]
      · rw [if_neg hx]
        by_cases hx1 : ci ≤ x ∧ x < ci + 2 * min 8 ((N - ci) / 2)
        · have hx' : ci ≤ x ∧ x < ci + 2 * min (8 * (n + 1)) ((N - ci) / 2) := by omega
          rw [if_pos hx1, if_pos hx']
          unfold dec_coeff chunk_idx
          have e2 : a + (x - ci) / 2 / 8 = a := by omega
          have e3 : (x - ci) / 2 % 8 = (x - ci) / 2 := by omega
          rw [e2, e3]
        · have hx' : ¬ (ci ≤ x ∧ x < ci + 2 * min (8 * (n + 1)) ((N - ci) / 2)) := by omega
          rw [if_neg hx1, if_neg hx']
    · simp only [h, if_false]
      have hmin : min (8 * (n + 1)) ((N - ci) / 2) = 0 := by omega
      refine ⟨by rw [hmin]; rfl, fun x => ?_⟩
      rw [if_neg (by omega)]

theorem from_sves_fill_spec : ∀ (n ci : Nat) (c : Nat → Int) (x : Nat),
    from_sves_fill n ci c x = if ci ≤ x ∧ x < ci + n then 0 else c x := by
  intro n
  induction n with
  | zero =>
    intro ci c x
    rw [if_neg (by omega)]
    rfl
  | succ n ih =>
    intro ci c x
    simp only [from_sves_fill]
    rw [ih]
    by_cases h1 : ci + 1 ≤ x ∧ x < ci + 1 + n
    · have h2 : ci ≤ x ∧ x < ci + (n + 1) := by omega
      rw [if_pos h1, if_pos h2]
    · rw [if_neg h1]
      by_cases h2 : ci ≤ x ∧ x < ci + (n + 1)
      · have : x = ci := by omega
        rw [if_pos h2]; simp [store, this]
      · have : x ≠ ci := by omega
        rw [if_neg h2]; simp [store, this]

/-- The coefficients written by `ntru_from_sves`. -/
theorem ntru_from_sves_coeffs (M : Mem) (M_len N skip : Nat) (poly0 : Nat → Int) (x : Nat) :
    (ntru_from_sves M M_len N skip poly0).coeffs x =
      if sves_start skip ≤ x ∧ x < sves_start skip + 2 * sves_pairs M_len N skip then
        dec_coeff M 0 (sves_start skip) x
      else if sves_start skip ≤ x ∧ x < N then 0 else poly0 x := by
  unfold ntru_from_sves
  simp only []
  obtain ⟨h1, h2⟩ := from_sves_outer_spec M N (M_len / 3) 0 (sves_start skip) poly0
  simp only [Nat.mul_zero] at h1 h2
  have hs : (if skip ≠ 0 then 1 else 0) = sves_start skip := rfl
  rw [hs, from_sves_fill_spec, h1, h2 x]
  unfold sves_pairs
  by_cases hx : sves_start skip ≤ x ∧ x < sves_start skip + 2 * min (8 * (M_len / 3)) ((N - sves_start skip) / 2)
  · have hx' : ¬ (sves_start skip + 2 * min (8 * (M_len / 3)) ((N - sves_start skip) / 2) ≤ x ∧
        x < sves_start skip + 2 * min (8 * (M_len / 3)) ((N - sves_start skip) / 2) +
          (N - (sves_start skip + 2 * min (8 * (M_len / 3)) ((N - sves_start skip) / 2)))) := by omega
    simp only [if_neg hx', if_pos hx]
  · rw [if_neg hx]
    by_cases hx2 : sves_start skip ≤ x ∧ x < N
    · have hx' : (sves_start skip + 2 * min (8 * (M_len / 3)) ((N - sves_start skip) / 2) ≤ x ∧
        x < sves_start skip + 2 * min (8 * (M_len / 3)) ((N - sves_start skip) / 2) +
          (N - (sves_start skip + 2 * min (8 * (M_len / 3)) ((N - sves_start skip) / 2)))) := by omega
      simp only [if_pos hx', if_pos hx2, if_neg hx]
    · have hx' : ¬ (sves_start skip + 2 * min (8 * (M_len / 3)) ((N - sves_start skip) / 2) ≤ x ∧
        x < sves_start skip + 2 * min (8 * (M_len / 3)) ((N - sves_start skip) / 2) +
          (N - (sves_start skip + 2 * min (8 * (M_len / 3)) ((N - sves_start skip) / 2)))) := by omega
      simp only [if_neg hx', if_neg hx2, if_neg hx]

theorem or_one_eq (x : Nat) : x ||| 1 = 2 * (x / 2) + 1 := by
  have h1 : (x ||| 1) % 2 = 1 := Nat.or_mod_two_eq_one.mpr (Or.inr rfl)
  have h2 : (x ||| 1) / 2 = x / 2 := by rw [Nat.or_div_two]; simp
  omega

/-- For a `uint16_t` value `N ≥ 1` the bound `end` of `ntru_to_sves` is `start` plus twice the
number of pairs, and it does not exceed `N`. -/
theorem sves_end_eq (N skip : Nat) (hN : 1 ≤ N) (hN16 : N < 65536) :
    sves_end N skip = sves_start skip + 2 * ((N - sves_start skip) / 2) ∧ sves_end N skip ≤ N := by
  unfold sves_end sves_start
  by_cases hs : skip ≠ 0
  · have h0 : N ≠ 0 := by omega
    rw [if_pos hs, if_neg h0, if_pos hs, or_one_eq]
    omega
  · rw [if_neg hs, if_neg hs]
    omega

theorem coeff_tbl_idx_eq (x : Nat) :
    coeff_tbl_idx x = 4 * (x.testBit 0).toNat + 2 * (x.testBit 1).toNat + (x.testBit 2).toNat := by
  have h0 := Nat.and_two_pow x 0
  have h1 := Nat.and_two_pow x 1
  have h2 := Nat.and_two_pow x 2
  simp only [pow_zero, pow_one, mul_one] at h0 h1
  norm_num at h2
  unfold coeff_tbl_idx
  rw [h0, h1, h2, Nat.shiftLeft_eq, Nat.shiftRight_eq_div_pow]
  cases x.testBit 0 <;> cases x.testBit 1 <;> cases x.testBit 2 <;> simp

theorem read_chunk_testBit (M : Mem) (i u : Nat) (hu : u < 24) :
    (read_chunk M i).testBit u = (M (i + u / 8)).testBit (u % 8) := by
  have e : read_chunk M i = 2 ^ 8 * (2 ^ 8 * (M (i + 2) % 256) + M (i + 1) % 256) + M i % 256 := by
    unfold read_chunk
    simp only [Nat.shiftLeft_eq]
    ring
  have b0 : M i % 256 < 2 ^ 8 := Nat.mod_lt _ (by norm_num)
  have b1 : M (i + 1) % 256 < 2 ^ 8 := Nat.mod_lt _ (by norm_num)
  rw [e, Nat.testBit_mul_pow_two_add _ b0]
  by_cases h0 : u < 8
  · have e1 : u / 8 = 0 := by omega
    have e2 : u % 8 = u := by omega
    rw [if_pos h0, e1, e2, show (256 : Nat) = 2 ^ 8 from rfl, Nat.testBit_mod_two_pow]
    simp [h0]
  · rw [if_neg h0, Nat.testBit_mul_pow_two_add _ b1]
    by_cases h1 : u - 8 < 8
    · have e1 : u / 8 = 1 := by omega
      have e2 : u % 8 = u - 8 := by omega
      rw [if_pos h1, e1, e2, show (256 : Nat) = 2 ^ 8 from rfl, Nat.testBit_mod_two_pow]
      simp [h1]
    · have e1 : u / 8 = 2 := by omega
      have e2 : u % 8 = u - 8 - 8 := by omega
      have h2 : u - 8 - 8 < 8 := by omega
      rw [if_neg h1, e1, e2, show (256 : Nat) = 2 ^ 8 from rfl, Nat.testBit_mod_two_pow]
      simp [h2]

theorem chunk_idx_eq (M : Mem) (a t : Nat) : chunk_idx M a t = sves_idx M (8 * a + t) := by
  unfold chunk_idx sves_idx getBit
  rw [coeff_tbl_idx_eq]
  simp only [Nat.testBit_shiftRight]
  rw [read_chunk_testBit M _ _ (by omega), read_chunk_testBit M _ _ (by omega),
    read_chunk_testBit M _ _ (by omega)]
  have a0 : 3 * (a + t / 8) + (3 * (t % 8) + 0) / 8 = 3 * (8 * a + t) / 8 := by omega
  have a1 : 3 * (a + t / 8) + (3 * (t % 8) + 1) / 8 = (3 * (8 * a + t) + 1) / 8 := by omega
  have a2 : 3 * (a + t / 8) + (3 * (t % 8) + 2) / 8 = (3 * (8 * a + t) + 2) / 8 := by omega
  have c0 : (3 * (t % 8) + 0) % 8 = 3 * (8 * a + t) % 8 := by omega
  have c1 : (3 * (t % 8) + 1) % 8 = (3 * (8 * a + t) + 1) % 8 := by omega
  have c2 : (3 * (t % 8) + 2) % 8 = (3 * (8 * a + t) + 2) % 8 := by omega
  rw [a0, a1, a2, c0, c1, c2]

theorem sves_idx_lt (M : Mem) (j : Nat) : sves_idx M j < 8 := by
  unfold sves_idx
  cases getBit M (3 * j) <;> cases getBit M (3 * j + 1) <;> cases getBit M (3 * j + 2) <;> simp

/-- The bits `ntru_to_sves` writes for the pair that `ntru_from_sves` decodes from the table
index `k` are the three bits of `k`. -/
theorem bits_of_coeffs (k : Nat) (hk : k < 8) :
    sves_bits_of ((NTRU_COEFF1_TABLE.getD k 0 + 1) * 3 + (NTRU_COEFF2_TABLE.getD k 0 + 1)).toNat =
      [k / 4 % 2, k / 2 % 2, k % 2] ∧
    ¬ (NTRU_COEFF1_TABLE.getD k 0 = -1 ∧ NTRU_COEFF2_TABLE.getD k 0 = -1) := by
  interval_cases k <;> decide

/-- C4. SVES rejection: for a polynomial of `N ≥ 1` ternary coefficients (`N` a `uint16_t`),
`ntru_to_sves` returns `NTRU_ERR_INVALID_ENCODING` if and only if some processed pair
`(c[i], c[i+1])`, `i = start, start+2, ... < end`, equals `(-1,-1)`, and it returns
`NTRU_SUCCESS` otherwise; here `start = 1` if `skip` else `0` and `end = (N-1)|1` if `skip`
else `(N/2)*2`. -/
theorem ntru_to_sves_invalid_iff (p : NtruIntPoly) (skip : Nat) (data0 : Mem)
    (hN : 1 ≤ p.N) (hN16 : p.N < 65536)
    (_hT : ∀ i, i < p.N → p.coeffs i = -1 ∨ p.coeffs i = 0 ∨ p.coeffs i = 1) :
    sves_start skip = (if skip ≠ 0 then 1 else 0) ∧
    sves_end p.N skip = (if skip ≠ 0 then (p.N - 1) ||| 1 else p.N / 2 * 2) ∧
    ((ntru_to_sves p skip data0).1 = NTRU_ERR_INVALID_ENCODING ↔
      ∃ j, sves_start skip + 2 * j < sves_end p.N skip ∧
        p.coeffs (sves_start skip + 2 * j) = -1 ∧ p.coeffs (sves_start skip + 2 * j + 1) = -1) ∧
    ((ntru_to_sves p skip data0).1 = NTRU_SUCCESS ↔
      ¬ ∃ j, sves_start skip + 2 * j < sves_end p.N skip ∧
        p.coeffs (sves_start skip + 2 * j) = -1 ∧ p.coeffs (sves_start skip + 2 * j + 1) = -1) := by
  have hend : sves_end p.N skip = (if skip ≠ 0 then (p.N - 1) ||| 1 else p.N / 2 * 2) := by
    unfold sves_end
    by_cases hs : skip ≠ 0
    · have h0 : p.N ≠ 0 := by omega
      have hlt : (p.N - 1) ||| 1 < 2 ^ 16 := Nat.or_lt_two_pow (by norm_num; omega) (by norm_num)
      rw [if_pos hs, if_neg h0, if_pos hs]
      exact Nat.mod_eq_of_lt hlt
    · rw [if_neg hs, if_neg hs]
  have key := to_sves_loop_status p.coeffs (sves_end p.N skip) (sves_end p.N skip) (sves_start skip)
    (fun k => if k < sves_len p.N then 0 else data0 k) 0 0 (by omega)
  refine ⟨rfl, hend, key.1, ?_⟩
  have e : ntru_to_sves p skip data0 = to_sves_loop p.coeffs (sves_end p.N skip) (sves_end p.N skip)
    (sves_start skip) (fun k => if k < sves_len p.N then 0 else data0 k) 0 0 := rfl
  rw [e, ← key.1]
  rcases key.2 with h | h
  · rw [h]; simp
  · rw [h]; simp

theorem ntru_to_sves_invalid_iff_witness :
    (ntru_to_sves ⟨6, ofCoeffs [-1, -1, 0, 0, 0, 0]⟩ 0 (fun _ => 0)).1 = NTRU_ERR_INVALID_ENCODING :=
  (ntru_to_sves_invalid_iff ⟨6, ofCoeffs [-1, -1, 0, 0, 0, 0]⟩ 0 (fun _ => 0) (by decide) (by decide)
    (by decide)).2.2.1.mpr ⟨0, by decide, by decide, by decide⟩

theorem sves_bit_of_dec (c : Nat → Int) (M : Mem) (s k : Nat)
    (h1 : c (s + 2 * (k / 3)) = NTRU_COEFF1_TABLE.getD (sves_idx M (k / 3)) 0)
    (h2 : c (s + 2 * (k / 3) + 1) = NTRU_COEFF2_TABLE.getD (sves_idx M (k / 3)) 0) :
    sves_bit c s k = getBit M k := by
  unfold sves_bit
  rw [h1, h2, (bits_of_coeffs _ (sves_idx_lt M (k / 3))).1]
  unfold sves_idx
  have hr : k % 3 = 0 ∨ k % 3 = 1 ∨ k % 3 = 2 := by omega
  rcases hr with hr | hr | hr
  · have hk : k = 3 * (k / 3) := by omega
    rw [hr]
    conv_rhs => rw [hk]
    cases getBit M (3 * (k / 3)) <;> cases getBit M (3 * (k / 3) + 1) <;>
      cases getBit M (3 * (k / 3) + 2) <;> decide
  · have hk : k = 3 * (k / 3) + 1 := by omega
    rw [hr]
    conv_rhs => rw [hk]
    cases getBit M (3 * (k / 3)) <;> cases getBit M (3 * (k / 3) + 1) <;>
      cases getBit M (3 * (k / 3) + 2) <;> decide
  · have hk : k = 3 * (k / 3) + 2 := by omega
    rw [hr]
    conv_rhs => rw [hk]
    cases getBit M (3 * (k / 3)) <;> cases getBit M (3 * (k / 3) + 1) <;>
      cases getBit M (3 * (k / 3) + 2) <;> decide

theorem sves_bit_of_zero (c : Nat → Int) (s k : Nat)
    (h1 : c (s + 2 * (k / 3)) = 0) (h2 : c (s + 2 * (k / 3) + 1) = 0) : sves_bit c s k = false := by
  unfold sves_bit
  rw [h1, h2]
  have hr : k % 3 = 0 ∨ k % 3 = 1 ∨ k % 3 = 2 := by omega
  rcases hr with hr | hr | hr <;> rw [hr] <;> decide

/-- The pair number `j < D` that `ntru_from_sves` decodes holds the table entries of the three
bits `3j, 3j+1, 3j+2` of `M`; the pairs past `D` that lie below `N` are zero. -/
theorem ntru_from_sves_pair (M : Mem) (M_len N skip : Nat) (poly0 : Nat → Int) (j : Nat) :
    (j < sves_pairs M_len N skip →
      (ntru_from_sves M M_len N skip poly0).coeffs (sves_start skip + 2 * j) =
        NTRU_COEFF1_TABLE.getD (sves_idx M j) 0 ∧
      (ntru_from_sves M M_len N skip poly0).coeffs (sves_start skip + 2 * j + 1) =
        NTRU_COEFF2_TABLE.getD (sves_idx M j) 0) ∧
    (sves_pairs M_len N skip ≤ j → sves_start skip + 2 * j + 1 < N →
      (ntru_from_sves M M_len N skip poly0).coeffs (sves_start skip + 2 * j) = 0 ∧
      (ntru_from_sves M M_len N skip poly0).coeffs (sves_start skip + 2 * j + 1) = 0) := by
  constructor
  · intro hj
    have r1 : sves_start skip ≤ sves_start skip + 2 * j ∧
        sves_start skip + 2 * j < sves_start skip + 2 * sves_pairs M_len N skip := by omega
    have r2 : sves_start skip ≤ sves_start skip + 2 * j + 1 ∧
        sves_start skip + 2 * j + 1 < sves_start skip + 2 * sves_pairs M_len N skip := by omega
    rw [ntru_from_sves_coeffs, ntru_from_sves_coeffs]
    simp only [if_pos r1, if_pos r2]
    unfold dec_coeff
    have e1 : (sves_start skip + 2 * j - sves_start skip) % 2 = 0 := by omega
    have e2 : (sves_start skip + 2 * j - sves_start skip) / 2 = j := by omega
    have e3 : ¬ (sves_start skip + 2 * j + 1 - sves_start skip) % 2 = 0 := by omega
    have e4 : (sves_start skip + 2 * j + 1 - sves_start skip) / 2 = j := by omega
    rw [if_pos e1, if_neg e3, e2, e4, chunk_idx_eq, Nat.mul_zero, Nat.zero_add]
    exact ⟨rfl, rfl⟩
  · intro hj hN
    have r1 : ¬ (sves_start skip ≤ sves_start skip + 2 * j ∧
        sves_start skip + 2 * j < sves_start skip + 2 * sves_pairs M_len N skip) := by omega
    have r2 : ¬ (sves_start skip ≤ sves_start skip + 2 * j + 1 ∧
        sves_start skip + 2 * j + 1 < sves_start skip + 2 * sves_pairs M_len N skip) := by omega
    have r3 : sves_start skip ≤ sves_start skip + 2 * j ∧ sves_start skip + 2 * j < N := by omega
    have r4 : sves_start skip ≤ sves_start skip + 2 * j + 1 ∧ sves_start skip + 2 * j + 1 < N := by
      omega
    rw [ntru_from_sves_coeffs, ntru_from_sves_coeffs]
    simp only [if_neg r1, if_neg r2, if_pos r3, if_pos r4, and_self]

/-- The bits of the buffer cleared and filled by a successful `ntru_to_sves`. -/
theorem ntru_to_sves_bits (p : NtruIntPoly) (skip : Nat) (data0 : Mem)
    (hN : 1 ≤ p.N) (hbits : (p.N * 3 + 1) / 2 < 65536)
    (hs : (ntru_to_sves p skip data0).1 = NTRU_SUCCESS) (k : Nat) (hk : k < 8 * sves_len p.N) :
    getBit (ntru_to_sves p skip data0).2 k =
      (decide (k < 3 * ((p.N - sves_start skip) / 2)) && sves_bit p.coeffs (sves_start skip) k) := by
  obtain ⟨he, hle⟩ := sves_end_eq p.N skip hN (by omega)
  have hT : (sves_end p.N skip - sves_start skip + 1) / 2 = (p.N - sves_start skip) / 2 := by omega
  have hb := to_sves_loop_bits p.coeffs (sves_end p.N skip) (sves_start skip) (by omega)
    (sves_end p.N skip) 0 (fun k => if k < sves_len p.N then 0 else data0 k) (by omega)
  simp only [Nat.mul_zero, Nat.add_zero, Nat.zero_mod, Nat.zero_div] at hb
  have e : ntru_to_sves p skip data0 = to_sves_loop p.coeffs (sves_end p.N skip) (sves_end p.N skip)
    (sves_start skip) (fun k => if k < sves_len p.N then 0 else data0 k) 0 0 := rfl
  rw [e] at hs ⊢
  rw [hb hs k, hT]
  have hz : getBit (fun k => if k < sves_len p.N then 0 else data0 k) k = false := by
    unfold getBit
    have : k / 8 < sves_len p.N := by omega
    simp [this]
  rw [hz]
  simp

/-- C6. SVES round-trip law (bytes to polynomial to bytes): for a byte array `M` (its length a
`uint16_t`) and `N ≥ 1` with `num_bits = (N*3+1)/2` in the range of its `uint16_t`,
`ntru_to_sves` applied to the polynomial written by `ntru_from_sves(M, |M|, N, skip)` returns
`NTRU_SUCCESS`, no processed pair of that polynomial is `(-1,-1)`, and bit `k` of the
`(num_bits+7)/8` output bytes is bit `k` of `M` for `k < 3*D` and zero for every other `k`,
where `D` is the number of pairs decoded (`coeff_idx` ends the decoding loop at `start + 2*D`). -/
theorem ntru_to_sves_from_sves (M : List Nat) (N skip : Nat) (poly0 : Nat → Int) (data0 : Mem)
    (hN : 1 ≤ N) (hbits : (N * 3 + 1) / 2 < 65536) (_hM : M.length < 65536) :
    (from_sves_outer (ofBytes M) N (M.length / 3) 0 (sves_start skip) poly0).1 =
      sves_start skip + 2 * sves_pairs M.length N skip ∧
    (ntru_to_sves (ntru_from_sves (ofBytes M) M.length N skip poly0) skip data0).1 = NTRU_SUCCESS ∧
    (∀ j, sves_start skip + 2 * j < sves_end N skip →
      ¬ ((ntru_from_sves (ofBytes M) M.length N skip poly0).coeffs (sves_start skip + 2 * j) = -1 ∧
         (ntru_from_sves (ofBytes M) M.length N skip poly0).coeffs (sves_start skip + 2 * j + 1) = -1)) ∧
    3 * sves_pairs M.length N skip ≤ 8 * M.length ∧
    3 * sves_pairs M.length N skip ≤ 8 * sves_len N ∧
    ∀ k, k < 8 * sves_len N →
      getBit (ntru_to_sves (ntru_from_sves (ofBytes M) M.length N skip poly0) skip data0).2 k =
        (decide (k < 3 * sves_pairs M.length N skip) && getBit (ofBytes M) k) := by
  obtain ⟨he, hle⟩ := sves_end_eq N skip hN (by omega)
  have hpairs : ∀ j, sves_start skip + 2 * j < sves_end N skip →
      ¬ ((ntru_from_sves (ofBytes M) M.length N skip poly0).coeffs (sves_start skip + 2 * j) = -1 ∧
         (ntru_from_sves (ofBytes M) M.length N skip poly0).coeffs (sves_start skip + 2 * j + 1) = -1) := by
    intro j hj
    have hp := ntru_from_sves_pair (ofBytes M) M.length N skip poly0 j
    by_cases hD : j < sves_pairs M.length N skip
    · obtain ⟨h1, h2⟩ := hp.1 hD
      rw [h1, h2]
      exact (bits_of_coeffs _ (sves_idx_lt _ j)).2
    · obtain ⟨h1, h2⟩ := hp.2 (by omega) (by omega)
      rw [h1, h2]
      decide
  have hst : (ntru_to_sves (ntru_from_sves (ofBytes M) M.length N skip poly0) skip data0).1 =
      NTRU_SUCCESS := by
    have key := to_sves_loop_status (ntru_from_sves (ofBytes M) M.length N skip poly0).coeffs
      (sves_end N skip) (sves_end N skip) (sves_start skip)
      (fun k => if k < sves_len N then 0 else data0 k) 0 0 (by omega)
    have e : ntru_to_sves (ntru_from_sves (ofBytes M) M.length N skip poly0) skip data0 =
      to_sves_loop (ntru_from_sves (ofBytes M) M.length N skip poly0).coeffs (sves_end N skip)
        (sves_end N skip) (sves_start skip) (fun k => if k < sves_len N then 0 else data0 k) 0 0 := rfl
    rw [e]
    rcases key.2 with h | h
    · exact h
    · obtain ⟨j, hj, h1, h2⟩ := key.1.mp h
      exact absurd ⟨h1, h2⟩ (hpairs j hj)
  have hD1 : 3 * sves_pairs M.length N skip ≤ 8 * M.length := by
    unfold sves_pairs; omega
  have hDT : sves_pairs M.length N skip ≤ (N - sves_start skip) / 2 := by
    unfold sves_pairs; omega
  have hD2 : 3 * sves_pairs M.length N skip ≤ 8 * sves_len N := by
    unfold sves_len
    rw [Nat.mod_eq_of_lt hbits]
    omega
  refine ⟨(from_sves_outer_spec (ofBytes M) N (M.length / 3) 0 (sves_start skip) poly0).1, hst,
    hpairs, hD1, hD2, ?_⟩
  intro k hk
  have hN' : (ntru_from_sves (ofBytes M) M.length N skip poly0).N = N := rfl
  rw [ntru_to_sves_bits _ skip data0 (by rw [hN']; exact hN) (by rw [hN']; exact hbits) hst k
    (by rw [hN']; exact hk), hN']
  have hp := ntru_from_sves_pair (ofBytes M) M.length N skip poly0 (k / 3)
  by_cases h1 : k < 3 * sves_pairs M.length N skip
  · obtain ⟨c1, c2⟩ := hp.1 (by omega)
    rw [sves_bit_of_dec _ (ofBytes M) _ k c1 c2, decide_eq_true h1,
      decide_eq_true (show k < 3 * ((N - sves_start skip) / 2) by omega)]
  · rw [decide_eq_false h1]
    by_cases h2 : k < 3 * ((N - sves_start skip) / 2)
    · obtain ⟨c1, c2⟩ := hp.2 (by omega) (by omega)
      rw [sves_bit_of_zero _ _ k c1 c2]
      simp
    · rw [decide_eq_false h2]
      simp

theorem ntru_to_sves_from_sves_witness :
    (ntru_to_sves (ntru_from_sves (ofBytes [1, 128, 0]) 3 11 0 (fun _ => 7)) 0 (fun _ => 9)).1 =
      NTRU_SUCCESS :=
  (ntru_to_sves_from_sves [1, 128, 0] 11 0 (fun _ => 7) (fun _ => 9) (by decide) (by decide)
    (by decide)).2.1

/-- C5. The polynomial `[1,0,0,0,0,0]` (`N = 6`, no skipping) has no pair `(-1,-1)` and
`ntru_to_sves` encodes it into `(num_bits+7)/8 = 2` bytes with `NTRU_SUCCESS`; decoding these
bytes with `ntru_from_sves` and `M_len = 2` runs the chunk loop `i < M_len/3*3 = 0` not at all and
gives the coefficient `0` at index `0`, which `ntru_to_sves` processed and where the polynomial
holds `1`. -/
theorem ntru_from_sves_to_sves_short_input (data0 : Mem) (poly0 : Nat → Int) :
    (ntru_to_sves ⟨6, ofCoeffs [1, 0, 0, 0, 0, 0]⟩ 0 data0).1 = NTRU_SUCCESS ∧
    sves_len 6 = 2 ∧ sves_start 0 = 0 ∧ sves_end 6 0 = 6 ∧
    (ntru_from_sves (ntru_to_sves ⟨6, ofCoeffs [1, 0, 0, 0, 0, 0]⟩ 0 data0).2 (sves_len 6) 6 0
      poly0).coeffs 0 = 0 ∧
    ofCoeffs [1, 0, 0, 0, 0, 0] 0 = 1 := by
  refine ⟨rfl, rfl, rfl, rfl, ?_, rfl⟩
  rw [ntru_from_sves_coeffs, if_neg (by decide), if_pos (by decide)]

/-- C7. When `skip` is set `ntru_from_sves` never writes the constant coefficient: after the
call it holds what the output polynomial held before. Every coefficient of index `1 ≤ i < N`
lies in `{-1,0,1}`, and is `0` past the last decoded pair. -/
theorem ntru_from_sves_skip_constant_coeff (M : Mem) (M_len N skip : Nat) (poly0 : Nat → Int)
    (hs : skip ≠ 0) :
    (ntru_from_sves M M_len N skip poly0).N = N ∧
    (ntru_from_sves M M_len N skip poly0).coeffs 0 = poly0 0 ∧
    ∀ i, 1 ≤ i → i < N →
      ((ntru_from_sves M M_len N skip poly0).coeffs i = -1 ∨
        (ntru_from_sves M M_len N skip poly0).coeffs i = 0 ∨
        (ntru_from_sves M M_len N skip poly0).coeffs i = 1) ∧
      (1 + 2 * sves_pairs M_len N skip ≤ i → (ntru_from_sves M M_len N skip poly0).coeffs i = 0) := by
  have h1 : sves_start skip = 1 := by unfold sves_start; rw [if_pos hs]
  refine ⟨rfl, ?_, ?_⟩
  · rw [ntru_from_sves_coeffs, h1, if_neg (by omega), if_neg (by omega)]
  · intro i hi hiN
    rw [ntru_from_sves_coeffs, h1]
    by_cases hD : 1 ≤ i ∧ i < 1 + 2 * sves_pairs M_len N skip
    · rw [if_pos hD]
      refine ⟨?_, fun h => by omega⟩
      unfold dec_coeff
      rw [chunk_idx_eq]
      have hlt := sves_idx_lt M (8 * 0 + (i - 1) / 2)
      generalize sves_idx M (8 * 0 + (i - 1) / 2) = k at hlt
      split <;> interval_cases k <;> decide
    · rw [if_neg hD, if_pos ⟨hi, hiN⟩]
      exact ⟨Or.inr (Or.inl rfl), fun _ => rfl⟩

theorem ntru_from_sves_skip_constant_coeff_witness :
    (ntru_from_sves (ofBytes []) 0 3 1 (fun _ => 7)).coeffs 0 = 7 :=
  (ntru_from_sves_skip_constant_coeff (ofBytes []) 0 3 1 (fun _ => 7) (by decide)).2.1

theorem gen_tern_loop_inv (df : Nat) : ∀ (fuel : Nat) (s : NtruIGFState) (r : Nat → Nat) (t : Nat)
    (a : Nat → Nat) (s' : NtruIGFState) (r' a' : Nat → Nat),
    gen_tern_loop df fuel s r t a = some (s', r', a') →
    ∃ m, m ≤ fuel ∧ s' = igf_shift s m ∧
      (∀ v, r' v ≠ 0 ↔ (r v ≠ 0 ∨ ∃ k, k < m ∧ s.idx k = v)) ∧
      (∀ v, r' v ≠ 0 → r v ≠ 0 ∨ ∃ i, t ≤ i ∧ i < df ∧ a' i = v) ∧
      (∀ i, i < t ∨ df ≤ i → a' i = a i) ∧
      (∀ i, t ≤ i → i < df → r (a' i) = 0 ∧ ∃ k, k < m ∧ s.idx k = a' i) ∧
      (∀ i j, t ≤ i → i < j → j < df → a' i ≠ a' j) := by
  intro fuel
  induction fuel with
  | zero =>
    intro s r t a s' r' a' h
    simp only [gen_tern_loop] at h
    by_cases ht : t < df
    · simp [ht] at h
    · simp only [ht, if_false, Option.some.injEq, Prod.mk.injEq] at h
      obtain ⟨rfl, rfl, rfl⟩ := h
      refine ⟨0, le_refl _, rfl, fun v => by simp, fun v hv => Or.inl hv, fun _ _ => rfl,
        fun i h1 h2 => by omega, fun i j _ _ _ => by omega⟩
  | succ fuel ih =>
    intro s r t a s' r' a' h
    simp only [gen_tern_loop] at h
    by_cases ht : t < df
    · simp only [ht, if_true] at h
      by_cases hr : r (ntru_IGF_next s).1 = 0
      · simp only [hr, if_true] at h
        obtain ⟨m, hm, hs, h1, h2, h3, h4, h5⟩ := ih _ _ _ _ _ _ _ h
        have hidx : (ntru_IGF_next s).1 = s.idx 0 := rfl
        have hat : a' t = s.idx 0 := by
          rw [h3 t (Or.inl (by omega))]; simp [store, hidx]
        refine ⟨m + 1, by omega, ?_, ?_, ?_, ?_, ?_, ?_⟩
        · rw [hs]; rfl
        · intro v
          rw [h1 v]
          constructor
          · rintro (hv | ⟨k, hk, hv⟩)
            · by_cases hv' : v = s.idx 0
              · exact Or.inr ⟨0, by omega, hv'.symm⟩
              · left; simpa [store, hidx, hv'] using hv
            · exact Or.inr ⟨k + 1, by omega, hv⟩
          · rintro (hv | ⟨k, hk, hv⟩)
            · left
              by_cases hv' : v = s.idx 0
              · simp [store, hidx, hv']
              · simpa [store, hidx, hv'] using hv
            · cases k with
              | zero => left; simp [store, hidx, hv.symm]
              | succ k => exact Or.inr ⟨k, by omega, hv⟩
        · intro v hv
          rcases h2 v hv with hv1 | ⟨i, hi1, hi2, hi3⟩
          · by_cases hv' : v = s.idx 0
            · exact Or.inr ⟨t, le_refl _, ht, by rw [hat, hv']⟩
            · left; simpa [store, hidx, hv'] using hv1
          · exact Or.inr ⟨i, by omega, hi2, hi3⟩
        · intro i hi
          rw [h3 i (by omega)]
          have : i ≠ t := by omega
          simp [store, this]
        · intro i hi1 hi2
          by_cases hit : i = t
          · subst hit
            rw [hat]
            exact ⟨by rw [← hidx]; exact hr, 0, by omega, rfl⟩
          · obtain ⟨q1, k, hk, q2⟩ := h4 i (by omega) hi2
            refine ⟨?_, k + 1, by omega, q2⟩
            by_cases hv' : a' i = s.idx 0
            · simp [store, hidx, hv'] at q1
            · simpa [store, hidx, hv'] using q1
        · intro i j hi hij hj
          by_cases hit : i = t
          · subst hit
            rw [hat]
            intro hc
            have := (h4 j (by omega) hj).1
            simp [store, hidx, ← hc] at this
          · exact h5 i j (by omega) hij hj
      · simp only [hr, if_false] at h
        obtain ⟨m, hm, hs, h1, h2, h3, h4, h5⟩ := ih _ _ _ _ _ _ _ h
        have hidx : (ntru_IGF_next s).1 = s.idx 0 := rfl
        refine ⟨m + 1, by omega, ?_, ?_, h2, h3, ?_, h5⟩
        · rw [hs]; rfl
        · intro v
          rw [h1 v]
          constructor
          · rintro (hv | ⟨k, hk, hv⟩)
            · exact Or.inl hv
            · exact Or.inr ⟨k + 1, by omega, hv⟩
          · rintro (hv | ⟨k, hk, hv⟩)
            · exact Or.inl hv
            · cases k with
              | zero => left; rw [← hv, ← hidx]; exact hr
              | succ k => exact Or.inr ⟨k, by omega, hv⟩
        · intro i hi1 hi2
          obtain ⟨q1, k, hk, q2⟩ := h4 i hi1 hi2
          exact ⟨q1, k + 1, by omega, q2⟩
    · simp only [ht, if_false, Option.some.injEq, Prod.mk.injEq] at h
      obtain ⟨rfl, rfl, rfl⟩ := h
      refine ⟨0, by omega, rfl, fun v => by simp, fun v hv => Or.inl hv, fun _ _ => rfl,
        fun i h1 h2 => by omega, fun i j _ _ _ => by omega⟩

theorem gen_tern_loop_succ (df : Nat) : ∀ (fuel : Nat) (s : NtruIGFState) (r : Nat → Nat) (t : Nat)
    (a : Nat → Nat) (res : NtruIGFState × (Nat → Nat) × (Nat → Nat)),
    gen_tern_loop df fuel s r t a = some res → gen_tern_loop df (fuel + 1) s r t a = some res := by
  intro fuel
  induction fuel with
  | zero =>
    intro s r t a res h
    simp only [gen_tern_loop] at h ⊢
    by_cases ht : t < df
    · simp [ht] at h
    · simpa [ht] using h
  | succ fuel ih =>
    intro s r t a res h
    rw [gen_tern_loop] at h ⊢
    by_cases ht : t < df
    · simp only [ht, if_true] at h ⊢
      by_cases hr : r (ntru_IGF_next s).1 = 0
      · simp only [hr, if_true] at h ⊢
        exact ih _ _ _ _ _ h
      · simp only [hr, if_false] at h ⊢
        exact ih _ _ _ _ _ h
    · simpa [ht] using h

theorem gen_tern_loop_mono (df fuel fuel' : Nat) (hf : fuel ≤ fuel') (s : NtruIGFState)
    (r : Nat → Nat) (t : Nat) (a : Nat → Nat) (res : NtruIGFState × (Nat → Nat) × (Nat → Nat))
    (h : gen_tern_loop df fuel s r t a = some res) : gen_tern_loop df fuel' s r t a = some res := by
  induction hf with
  | refl => exact h
  | step _ ih => exact gen_tern_loop_succ df _ s r t a res ih

theorem gen_tern_loop_some (df : Nat) : ∀ (fuel : Nat) (s : NtruIGFState) (r : Nat → Nat) (t : Nat)
    (a : Nat → Nat),
    df - t ≤ (((List.range fuel).map s.idx).toFinset.filter (fun v => r v = 0)).card →
    ∃ res, gen_tern_loop df fuel s r t a = some res := by
  intro fuel
  induction fuel with
  | zero =>
    intro s r t a h
    simp only [List.range_zero, List.map_nil, List.toFinset_nil, Finset.filter_empty,
      Finset.card_empty, Nat.le_zero_eq] at h
    have ht : ¬ t < df := by omega
    exact ⟨(s, r, a), by simp [gen_tern_loop, ht]⟩
  | succ fuel ih =>
    intro s r t a h
    rw [gen_tern_loop]
    by_cases ht : t < df
    · simp only [ht, if_true]
      have hset : ((List.range (fuel + 1)).map s.idx).toFinset =
          insert (s.idx 0) ((List.range fuel).map (ntru_IGF_next s).2.idx).toFinset := by
        rw [List.range_succ_eq_map]
        simp [ntru_IGF_next, List.map_map, Function.comp_def]
      rw [hset, Finset.filter_insert] at h
      by_cases hr : r (ntru_IGF_next s).1 = 0
      · simp only [hr, if_true]
        apply ih
        have hr0 : r (s.idx 0) = 0 := hr
        rw [if_pos hr0] at h
        have hfil : ((List.range fuel).map (ntru_IGF_next s).2.idx).toFinset.filter
            (fun v => store r (ntru_IGF_next s).1 1 v = 0) =
            (((List.range fuel).map (ntru_IGF_next s).2.idx).toFinset.filter
              (fun v => r v = 0)).erase (s.idx 0) := by
          ext v
          simp only [Finset.mem_filter, Finset.mem_erase, store]
          have hidx : (ntru_IGF_next s).1 = s.idx 0 := rfl
          rw [hidx]
          by_cases hv : v = s.idx 0
          · simp [hv]
          · simp [hv]
        rw [hfil]
        have hc := Finset.card_erase_add_one (Finset.mem_insert_self (s.idx 0)
          (((List.range fuel).map (ntru_IGF_next s).2.idx).toFinset.filter (fun v => r v = 0)))
        rw [Finset.erase_insert_eq_erase] at hc
        omega
      · simp only [hr, if_false]
        apply ih
        have hr0 : ¬ r (s.idx 0) = 0 := hr
        rw [if_neg hr0] at h
        exact h
    · simp [ht]

theorem gen_tern_loop_indep (df : Nat) : ∀ (fuel : Nat) (s : NtruIGFState) (r : Nat → Nat) (t : Nat)
    (a b : Nat → Nat) (s' : NtruIGFState) (r' a' : Nat → Nat),
    gen_tern_loop df fuel s r t a = some (s', r', a') →
    ∃ b', gen_tern_loop df fuel s r t b = some (s', r', b') ∧
      ∀ i, t ≤ i → i < df → b' i = a' i := by
  intro fuel
  induction fuel with
  | zero =>
    intro s r t a b s' r' a' h
    simp only [gen_tern_loop] at h ⊢
    by_cases ht : t < df
    · simp [ht] at h
    · simp only [ht, if_false, Option.some.injEq, Prod.mk.injEq] at h ⊢
      obtain ⟨rfl, rfl, rfl⟩ := h
      exact ⟨b, ⟨rfl, rfl, rfl⟩, fun i h1 h2 => by omega⟩
  | succ fuel ih =>
    intro s r t a b s' r' a' h
    rw [gen_tern_loop] at h ⊢
    by_cases ht : t < df
    · simp only [ht, if_true] at h ⊢
      by_cases hr : r (ntru_IGF_next s).1 = 0
      · simp only [hr, if_true] at h ⊢
        obtain ⟨b', hb, hag⟩ := ih _ _ _ _ (store b t (ntru_IGF_next s).1) _ _ _ h
        refine ⟨b', hb, ?_⟩
        intro i hi1 hi2
        by_cases hit : i = t
        · subst hit
          obtain ⟨_, _, _, _, _, ha3, _, _⟩ := gen_tern_loop_inv df _ _ _ _ _ _ _ _ h
          obtain ⟨_, _, _, _, _, hb3, _, _⟩ := gen_tern_loop_inv df _ _ _ _ _ _ _ _ hb
          rw [ha3 i (Or.inl (by omega)), hb3 i (Or.inl (by omega))]
          simp [store]
        · exact hag i (by omega) hi2
      · simp only [hr, if_false] at h ⊢
        exact ih _ _ _ _ b _ _ _ h
    · simp only [ht, if_false, Option.some.injEq, Prod.mk.injEq] at h ⊢
      obtain ⟨rfl, rfl, rfl⟩ := h
      exact ⟨b, ⟨rfl, rfl, rfl⟩, fun i h1 h2 => by omega⟩

/-- C8. Ternary sampler correctness: let the index stream of the generator state `s` have all
its values below `N` and yield at least `2*df` distinct indices among its first `n`. Then
`ntru_gen_tern_poly` terminates (`n` iterations per loop are enough, and more change nothing) with a
`NtruTernPoly` that has `num_ones = num_neg_ones = df` and whose `df` entries of `ones` and `df`
entries of `neg_ones` are all `< N` and pairwise distinct across both arrays; these fields and
the generator state after the call do not depend on what the output struct held before. -/
theorem ntru_gen_tern_poly_correct (s : NtruIGFState) (df n : Nat) (p0 : NtruTernPoly)
    (hs : ∀ k, s.idx k < s.N)
    (hd : 2 * df ≤ ((List.range n).map s.idx).toFinset.card) :
    ∃ p s', ntru_gen_tern_poly n s df p0 = some (p, s') ∧
      (∀ fuel, n ≤ fuel → ntru_gen_tern_poly fuel s df p0 = some (p, s')) ∧
      p.N = s.N ∧ p.num_ones = df ∧ p.num_neg_ones = df ∧
      (∀ i, i < df → p.ones i < s.N ∧ p.neg_ones i < s.N) ∧
      (∀ i j, i < df → j < df → p.ones i = p.ones j → i = j) ∧
      (∀ i j, i < df → j < df → p.neg_ones i = p.neg_ones j → i = j) ∧
      (∀ i j, i < df → j < df → p.ones i ≠ p.neg_ones j) ∧
      (∀ q0 : NtruTernPoly, ∃ q, ntru_gen_tern_poly n s df q0 = some (q, s') ∧
        q.N = p.N ∧ q.num_ones = p.num_ones ∧ q.num_neg_ones = p.num_neg_ones ∧
        ∀ i, i < df → q.ones i = p.ones i ∧ q.neg_ones i = p.neg_ones i) := by
  -- first loop
  obtain ⟨⟨s1, r1, a1⟩, e1⟩ := gen_tern_loop_some df n s (fun _ => 0) 0 p0.neg_ones (by
    simp only [Finset.filter_True, Nat.sub_zero]; omega)
  obtain ⟨m1, hm1, hs1, u1, u2, u3, u4, u5⟩ := gen_tern_loop_inv df _ _ _ _ _ _ _ _ e1
  -- second loop
  have hcard : df ≤ (((List.range n).map s1.idx).toFinset.filter (fun v => r1 v = 0)).card := by
    have hsplit := Finset.filter_card_add_filter_neg_card_eq_card
      (s := ((List.range n).map s.idx).toFinset) (fun v => r1 v = 0)
    have hmarked : (((List.range n).map s.idx).toFinset.filter (fun v => ¬ r1 v = 0)).card ≤ df := by
      calc (((List.range n).map s.idx).toFinset.filter (fun v => ¬ r1 v = 0)).card
          ≤ ((Finset.range df).image a1).card := by
            apply Finset.card_le_card
            intro v hv
            simp only [Finset.mem_filter] at hv
            rcases u2 v hv.2 with h0 | ⟨i, _, hi, hiv⟩
            · exact absurd rfl h0
            · exact Finset.mem_image.mpr ⟨i, Finset.mem_range.mpr hi, hiv⟩
        _ ≤ (Finset.range df).card := Finset.card_image_le
        _ = df := Finset.card_range df
    have hsub : ((List.range n).map s.idx).toFinset.filter (fun v => r1 v = 0) ⊆
        ((List.range n).map s1.idx).toFinset.filter (fun v => r1 v = 0) := by
      intro v hv
      simp only [Finset.mem_filter, List.mem_toFinset, List.mem_map, List.mem_range] at hv ⊢
      obtain ⟨⟨k, hk, hkv⟩, hr⟩ := hv
      refine ⟨⟨k - m1, by omega, ?_⟩, hr⟩
      have hkm : m1 ≤ k := by
        by_contra hlt
        exact ((u1 v).mpr (Or.inr ⟨k, by omega, hkv⟩)) hr
      rw [hs1]
      show s.idx (k - m1 + m1) = v
      rw [Nat.sub_add_cancel hkm]
      exact hkv
    have := Finset.card_le_card hsub
    omega
  obtain ⟨⟨s2, r2, a2⟩, e2⟩ := gen_tern_loop_some df n s1 r1 0 p0.ones (by omega)
  obtain ⟨m2, hm2, hs2, v1, v2, v3, v4, v5⟩ := gen_tern_loop_inv df _ _ _ _ _ _ _ _ e2
  have hres : ∀ fuel, n ≤ fuel → ntru_gen_tern_poly fuel s df p0 =
      some ({ N := s.N, num_ones := df, num_neg_ones := df, ones := a2, neg_ones := a1 }, s2) := by
    intro fuel hf
    unfold ntru_gen_tern_poly
    rw [gen_tern_loop_mono df n fuel hf _ _ _ _ _ e1]
    simp only []
    rw [gen_tern_loop_mono df n fuel hf _ _ _ _ _ e2]
  refine ⟨_, s2, hres n (le_refl _), hres, rfl, rfl, rfl, ?_, ?_, ?_, ?_, ?_⟩
  · intro i hi
    obtain ⟨_, k, _, hk⟩ := v4 i (by omega) hi
    obtain ⟨_, k', _, hk'⟩ := u4 i (by omega) hi
    constructor
    · show a2 i < s.N
      rw [← hk, hs1]
      exact hs _
    · show a1 i < s.N
      rw [← hk']
      exact hs _
  · intro i j hi hj hij
    by_contra hne
    rcases Nat.lt_or_gt_of_ne hne with h | h
    · exact v5 i j (by omega) h hj hij
    · exact v5 j i (by omega) h hi hij.symm
  · intro i j hi hj hij
    by_contra hne
    rcases Nat.lt_or_gt_of_ne hne with h | h
    · exact u5 i j (by omega) h hj hij
    · exact u5 j i (by omega) h hi hij.symm
  · intro i j hi hj hij
    obtain ⟨hz, _⟩ := v4 i (by omega) hi
    obtain ⟨_, k', hk1, hk'⟩ := u4 j (by omega) hj
    have hmark : r1 (a1 j) ≠ 0 := (u1 (a1 j)).mpr (Or.inr ⟨k', hk1, hk'⟩)
    apply hmark
    have hij' : a2 i = a1 j := hij
    rw [← hij']
    exact hz
  · intro q0
    obtain ⟨b1, hb1, hag1⟩ := gen_tern_loop_indep df n s (fun _ => 0) 0 p0.neg_ones q0.neg_ones _ _ _ e1
    obtain ⟨b2, hb2, hag2⟩ := gen_tern_loop_indep df n s1 r1 0 p0.ones q0.ones _ _ _ e2
    refine ⟨{ N := s.N, num_ones := df, num_neg_ones := df, ones := b2, neg_ones := b1 }, ?_, rfl,
      rfl, rfl, fun i hi => ⟨hag2 i (by omega) hi, hag1 i (by omega) hi⟩⟩
    unfold ntru_gen_tern_poly
    rw [hb1]
    simp only []
    rw [hb2]

theorem ntru_max_msg_len_lt (params : NtruEncParams) : ntru_max_msg_len params < 256 := by
  unfold ntru_max_msg_len
  omega

theorem encrypt_body_status {ρ : Type} (ext : Ext ρ) (fuel : Nat) (msg : Mem) (msg_len : Nat)
    (pub : NtruEncPubKey) (params : NtruEncParams) (rand : ρ) (stk : Stack) (enc0 : Mem)
    (status : Status) (rand1 : ρ) (enc : Mem)
    (h : encrypt_body ext fuel msg msg_len pub params rand stk enc0 =
      some (EncStep.ret status rand1 enc)) :
    status = NTRU_ERR_PRNG ∨ status = NTRU_SUCCESS := by
  unfold encrypt_body at h
  simp only [] at h
  split at h
  · simp only [Option.some.injEq, EncStep.ret.injEq] at h
    exact Or.inl h.1.symm
  · split at h
    · exact absurd h (by simp)
    · split at h
      · exact absurd h (by simp)
      · split at h
        · exact absurd h (by simp)
        · simp only [Option.some.injEq, EncStep.ret.injEq] at h
          exact Or.inr h.1.symm

theorem encrypt_loop_status {ρ : Type} (ext : Ext ρ) (fuel : Nat) (msg : Mem) (msg_len : Nat)
    (pub : NtruEncPubKey) (params : NtruEncParams) (stk : Stack) (enc0 : Mem) :
    ∀ (n : Nat) (rand : ρ) (res : Status × ρ × Mem),
      encrypt_loop ext fuel msg msg_len pub params stk enc0 n rand = some res →
      res.1 = NTRU_ERR_PRNG ∨ res.1 = NTRU_SUCCESS := by
  intro n
  induction n with
  | zero => intro rand res h; simp [encrypt_loop] at h
  | succ n ih =>
    intro rand res h
    rw [encrypt_loop] at h
    split at h
    · exact absurd h (by simp)
    · rename_i status rand1 enc hb
      simp only [Option.some.injEq] at h
      rw [← h]
      exact encrypt_body_status ext fuel msg msg_len pub params rand stk enc0 status rand1 enc hb
    · exact ih _ _ h

/-- C9. Message-length boundary of `ntru_encrypt`: the status is `NTRU_ERR_MSG_TOO_LONG` if and only
if `msg_len > ntru_max_msg_len(params)`; then the call returns before the loop that draws the
salt, with the random context and `enc` as they were. In particular `msg_len = max_msg_len` is
not rejected and `msg_len = max_msg_len + 1` is. -/
theorem ntru_encrypt_msg_too_long_iff {ρ : Type} (ext : Ext ρ) (fuel : Nat) (msg : Mem)
    (msg_len : Nat) (pub : NtruEncPubKey) (params : NtruEncParams) (rand : ρ) (stk : Stack)
    (enc0 : Mem) :
    ((ntru_encrypt ext fuel msg msg_len pub params rand stk enc0).map Prod.fst =
        some NTRU_ERR_MSG_TOO_LONG ↔ msg_len > ntru_max_msg_len params) ∧
    (msg_len > ntru_max_msg_len params →
      ntru_encrypt ext fuel msg msg_len pub params rand stk enc0 =
        some (NTRU_ERR_MSG_TOO_LONG, rand, enc0)) ∧
    (ntru_encrypt ext fuel msg (ntru_max_msg_len params) pub params rand stk enc0).map Prod.fst ≠
      some NTRU_ERR_MSG_TOO_LONG ∧
    ntru_encrypt ext fuel msg (ntru_max_msg_len params + 1) pub params rand stk enc0 =
      some (NTRU_ERR_MSG_TOO_LONG, rand, enc0) := by
  have hlt := ntru_max_msg_len_lt params
  have hrej : ∀ len, len > ntru_max_msg_len params →
      ntru_encrypt ext fuel msg len pub params rand stk enc0 =
        some (NTRU_ERR_MSG_TOO_LONG, rand, enc0) := by
    intro len hlen
    unfold ntru_encrypt
    simp only []
    rw [if_neg (by omega), if_pos hlen]
  have hacc : ∀ len, ¬ len > ntru_max_msg_len params →
      (ntru_encrypt ext fuel msg len pub params rand stk enc0).map Prod.fst ≠
        some NTRU_ERR_MSG_TOO_LONG := by
    intro len hlen hc
    unfold ntru_encrypt at hc
    simp only [] at hc
    rw [if_neg (by omega), if_neg hlen] at hc
    cases hl : encrypt_loop ext fuel msg len pub params stk enc0 fuel rand with
    | none => rw [hl] at hc; simp at hc
    | some res =>
      rw [hl] at hc
      simp only [Option.map_some', Option.some.injEq] at hc
      rcases encrypt_loop_status ext fuel msg len pub params stk enc0 fuel rand res hl with h | h
      · rw [h] at hc; cases hc
      · rw [h] at hc; cases hc
  refine ⟨⟨?_, fun h => by rw [hrej _ h]; rfl⟩, hrej _, hacc _ (by omega), hrej _ (by omega)⟩
  intro h
  by_contra hle
  exact hacc _ hle h

/-- C10. `ntru_encrypt` never returns `NTRU_ERR_INVALID_MAX_LEN`: the value that
`ntru_max_msg_len` returns is a `uint8_t`, so the test `max_len_bytes > 255` is never true. For
the parameter set `params2001` the expression `N*3/2/8 - llen - db/8` has the value `374 > 255`
and `ntru_max_msg_len` returns `374 - 256 = 118`. -/
theorem ntru_encrypt_never_invalid_max_len {ρ : Type} (ext : Ext ρ) (fuel : Nat) (msg : Mem)
    (msg_len : Nat) (pub : NtruEncPubKey) (params : NtruEncParams) (rand : ρ) (stk : Stack)
    (enc0 : Mem) :
    ntru_max_msg_len params ≤ 255 ∧
    (ntru_encrypt ext fuel msg msg_len pub params rand stk enc0).map Prod.fst ≠
      some NTRU_ERR_INVALID_MAX_LEN ∧
    max_msg_len_formula params2001 = 374 ∧ ntru_max_msg_len params2001 = 118 ∧
    (ntru_encrypt ext fuel msg msg_len pub params2001 rand stk enc0).map Prod.fst ≠
      some NTRU_ERR_INVALID_MAX_LEN := by
  have key : ∀ p : NtruEncParams,
      (ntru_encrypt ext fuel msg msg_len pub p rand stk enc0).map Prod.fst ≠
        some NTRU_ERR_INVALID_MAX_LEN := by
    intro p hc
    have hlt := ntru_max_msg_len_lt p
    unfold ntru_encrypt at hc
    simp only [] at hc
    rw [if_neg (by omega)] at hc
    split at hc
    · simp at hc
    · cases hl : encrypt_loop ext fuel msg msg_len pub p stk enc0 fuel rand with
      | none => rw [hl] at hc; simp at hc
      | some res =>
        rw [hl] at hc
        simp only [Option.map_some', Option.some.injEq] at hc
        rcases encrypt_loop_status ext fuel msg msg_len pub p stk enc0 fuel rand res hl with h | h
        · rw [h] at hc; cases hc
        · rw [h] at hc; cases hc
  have hlt := ntru_max_msg_len_lt params
  exact ⟨by omega, key params, by decide, by decide, key params2001⟩

/-- What `ntru_decrypt` returns once the checks before the re-encryption have passed. -/
theorem ntru_decrypt_final {ρ : Type} (ext : Ext ρ) (fuel : Nat) (enc : Mem) (kp : NtruEncKeyPair)
    (params : NtruEncParams) (stk : Stack) (dec0 : Mem) (dec_len0 : Nat)
    (hdm0 : ¬ (params.dm0 > 0 ∧
      ntru_check_rep_weight (decrypt_ci ext enc kp params) params.dm0 = false))
    (hcl : decrypt_cl ext enc kp params stk ≤ ntru_max_msg_len params)
    (hpad : decrypt_zero_pad ext enc kp params stk = true) :
    ntru_decrypt ext fuel enc kp params stk dec0 dec_len0 =
      match ntru_gen_blind_poly ext fuel (decrypt_seed ext enc kp params stk dec0) params stk.r with
      | none => none
      | some cr =>
        if ntru_equals_int (mult_blind ext kp.pub.h cr params.q) (decrypt_cR ext enc kp params) = false
        then some (NTRU_ERR_INVALID_ENCODING, decrypt_dec ext enc kp params stk dec0, dec_len0)
        else some (NTRU_SUCCESS, decrypt_dec ext enc kp params stk dec0,
          decrypt_cl ext enc kp params stk) := by
  have hlt := ntru_max_msg_len_lt params
  unfold ntru_decrypt
  simp only []
  rw [if_neg (by omega), if_neg hdm0, if_neg (by omega), if_neg (by rw [hpad]; simp)]

/-- A successful `ntru_decrypt` has passed every check. -/
theorem ntru_decrypt_success_inv {ρ : Type} (ext : Ext ρ) (fuel : Nat) (enc : Mem)
    (kp : NtruEncKeyPair) (params : NtruEncParams) (stk : Stack) (dec0 : Mem) (dec_len0 : Nat)
    (h : (ntru_decrypt ext fuel enc kp params stk dec0 dec_len0).map Prod.fst = some NTRU_SUCCESS) :
    ntru_decrypt ext fuel enc kp params stk dec0 dec_len0 =
      some (NTRU_SUCCESS, decrypt_dec ext enc kp params stk dec0, decrypt_cl ext enc kp params stk) ∧
    ¬ (params.dm0 > 0 ∧ ntru_check_rep_weight (decrypt_ci ext enc kp params) params.dm0 = false) ∧
    decrypt_cl ext enc kp params stk ≤ ntru_max_msg_len params ∧
    decrypt_zero_pad ext enc kp params stk = true ∧
    ∃ cr, ntru_gen_blind_poly ext fuel (decrypt_seed ext enc kp params stk dec0) params stk.r =
        some cr ∧
      ntru_equals_int (mult_blind ext kp.pub.h cr params.q) (decrypt_cR ext enc kp params) = true := by
  have hlt := ntru_max_msg_len_lt params
  by_cases hdm0 : params.dm0 > 0 ∧
      ntru_check_rep_weight (decrypt_ci ext enc kp params) params.dm0 = false
  · exfalso
    unfold ntru_decrypt at h
    simp only [] at h
    rw [if_neg (by omega), if_pos hdm0] at h
    simp at h
  by_cases hcl : decrypt_cl ext enc kp params stk > ntru_max_msg_len params
  · exfalso
    unfold ntru_decrypt at h
    simp only [] at h
    rw [if_neg (by omega), if_neg hdm0, if_pos hcl] at h
    simp at h
  by_cases hpad : decrypt_zero_pad ext enc kp params stk = false
  · exfalso
    unfold ntru_decrypt at h
    simp only [] at h
    rw [if_neg (by omega), if_neg hdm0, if_neg hcl, if_pos hpad] at h
    simp at h
  have hpad' : decrypt_zero_pad ext enc kp params stk = true := by
    cases hz : decrypt_zero_pad ext enc kp params stk
    · exact absurd hz hpad
    · rfl
  have hfin := ntru_decrypt_final ext fuel enc kp params stk dec0 dec_len0 hdm0 (by omega) hpad'
  rw [hfin] at h ⊢
  cases hg : ntru_gen_blind_poly ext fuel (decrypt_seed ext enc kp params stk dec0) params stk.r with
  | none => rw [hg] at h; simp at h
  | some cr =>
    rw [hg] at h
    simp only [] at h ⊢
    by_cases heq : ntru_equals_int (mult_blind ext kp.pub.h cr params.q)
        (decrypt_cR ext enc kp params) = false
    · rw [if_pos heq] at h
      simp at h
    · rw [if_neg heq]
      refine ⟨rfl, hdm0, by omega, hpad', cr, rfl, ?_⟩
      cases hz : ntru_equals_int (mult_blind ext kp.pub.h cr params.q) (decrypt_cR ext enc kp params)
      · exact absurd hz heq
      · rfl

/-- Re-encryption check in `ntru_decrypt`, on the seed as the code builds it: if the status is `NTRU_SUCCESS` then
`ntru_gen_blind_poly` returned a polynomial `cr` for the seed rebuilt from the recovered
plaintext and salt, and `cR' = h * cr` equals `cR = (e - ci) mod q` (same `N`, same `N`
coefficients); and when the checks before it pass (repetition weight, `cl <= max_len_bytes`,
zero padding), `ntru_gen_blind_poly` returns `cr` and `cR'` differs from `cR`, `ntru_decrypt`
returns `NTRU_ERR_INVALID_ENCODING`. -/
theorem ntru_decrypt_reencryption_check {ρ : Type} (ext : Ext ρ) (fuel : Nat) (enc : Mem)
    (kp : NtruEncKeyPair) (params : NtruEncParams) (stk : Stack) (dec0 : Mem) (dec_len0 : Nat) :
    ((ntru_decrypt ext fuel enc kp params stk dec0 dec_len0).map Prod.fst = some NTRU_SUCCESS →
      ∃ cr, ntru_gen_blind_poly ext fuel (decrypt_seed ext enc kp params stk dec0) params stk.r =
          some cr ∧
        (mult_blind ext kp.pub.h cr params.q).N = (decrypt_cR ext enc kp params).N ∧
        ∀ i, i < (decrypt_cR ext enc kp params).N →
          (mult_blind ext kp.pub.h cr params.q).coeffs i = (decrypt_cR ext enc kp params).coeffs i) ∧
    (∀ cr, ¬ (params.dm0 > 0 ∧
          ntru_check_rep_weight (decrypt_ci ext enc kp params) params.dm0 = false) →
      decrypt_cl ext enc kp params stk ≤ ntru_max_msg_len params →
      decrypt_zero_pad ext enc kp params stk = true →
      ntru_gen_blind_poly ext fuel (decrypt_seed ext enc kp params stk dec0) params stk.r = some cr →
      ¬ ((mult_blind ext kp.pub.h cr params.q).N = (decrypt_cR ext enc kp params).N ∧
        ∀ i, i < (decrypt_cR ext enc kp params).N →
          (mult_blind ext kp.pub.h cr params.q).coeffs i = (decrypt_cR ext enc kp params).coeffs i) →
      ntru_decrypt ext fuel enc kp params stk dec0 dec_len0 =
        some (NTRU_ERR_INVALID_ENCODING, decrypt_dec ext enc kp params stk dec0, dec_len0)) := by
  constructor
  · intro h
    obtain ⟨_, _, _, _, cr, hcr, heq⟩ :=
      ntru_decrypt_success_inv ext fuel enc kp params stk dec0 dec_len0 h
    refine ⟨cr, hcr, ?_⟩
    unfold ntru_equals_int at heq
    have heq' := of_decide_eq_true heq
    refine ⟨heq'.1, fun i hi => heq'.2 i (by rw [heq'.1]; exact hi)⟩
  · intro cr hdm0 hcl hpad hcr hne
    rw [ntru_decrypt_final ext fuel enc kp params stk dec0 dec_len0 hdm0 hcl hpad, hcr]
    simp only []
    rw [if_pos]
    unfold ntru_equals_int
    apply decide_eq_false
    intro hc
    exact hne ⟨hc.1, fun i hi => hc.2 i (by rw [← hc.1] at hi; exact hi)⟩

/-- C3. `ntru_decrypt` does not read the status of `ntru_to_sves`: when `ntru_to_sves` returns
`NTRU_ERR_INVALID_ENCODING` for `cmtrin` (some processed pair is `(-1,-1)`) and the other checks
pass on the bytes written before the pair was met (repetition weight, `cl <= max_len_bytes`,
zero padding, re-encryption), `ntru_decrypt` returns `NTRU_SUCCESS`, not
`NTRU_ERR_INVALID_ENCODING`. -/
theorem ntru_decrypt_to_sves_status_unread {ρ : Type} (ext : Ext ρ) (fuel : Nat) (enc : Mem)
    (kp : NtruEncKeyPair) (params : NtruEncParams) (stk : Stack) (dec0 : Mem) (dec_len0 : Nat)
    (_hfail : (ntru_to_sves (decrypt_cmtrin ext enc kp params) params.maxm1 stk.cM).1 =
      NTRU_ERR_INVALID_ENCODING)
    (hdm0 : ¬ (params.dm0 > 0 ∧
      ntru_check_rep_weight (decrypt_ci ext enc kp params) params.dm0 = false))
    (hcl : decrypt_cl ext enc kp params stk ≤ ntru_max_msg_len params)
    (hpad : decrypt_zero_pad ext enc kp params stk = true)
    (hre : (ntru_gen_blind_poly ext fuel (decrypt_seed ext enc kp params stk dec0) params stk.r).map
      (fun cr => ntru_equals_int (mult_blind ext kp.pub.h cr params.q)
        (decrypt_cR ext enc kp params)) = some true) :
    ntru_decrypt ext fuel enc kp params stk dec0 dec_len0 =
      some (NTRU_SUCCESS, decrypt_dec ext enc kp params stk dec0,
        decrypt_cl ext enc kp params stk) := by
  rw [ntru_decrypt_final ext fuel enc kp params stk dec0 dec_len0 hdm0 hcl hpad]
  cases hg : ntru_gen_blind_poly ext fuel (decrypt_seed ext enc kp params stk dec0) params stk.r with
  | none => rw [hg] at hre; simp at hre
  | some cr =>
    rw [hg] at hre
    simp only [Option.map_some', Option.some.injEq] at hre
    simp only [hre]
    rfl

set_option maxRecDepth 100000 in
theorem ntru_decrypt_to_sves_status_unread_witness :
    (ntru_to_sves (decrypt_cmtrin refExt enc5_bad kp11 params11) params11.maxm1 stk0.cM).1 =
      NTRU_ERR_INVALID_ENCODING ∧
    ntru_decrypt refExt 3 enc5_bad kp11 params11 stk0 (fun _ => 9) 77 =
      some (NTRU_SUCCESS, decrypt_dec refExt enc5_bad kp11 params11 stk0 (fun _ => 9),
        decrypt_cl refExt enc5_bad kp11 params11 stk0) ∧
    decrypt_cl refExt enc5_bad kp11 params11 stk0 = 1 ∧
    decrypt_dec refExt enc5_bad kp11 params11 stk0 (fun _ => 9) 0 = 5 :=
  ⟨by decide,
    ntru_decrypt_to_sves_status_unread refExt 3 enc5_bad kp11 params11 stk0 (fun _ => 9) 77
      (by decide) (by decide) (by decide) (by decide) (by decide),
    by decide, by decide⟩

/-- Whatever its status, the loop of `ntru_to_sves` leaves the bits past the last pair alone. -/
theorem to_sves_loop_high (coeffs : Nat → Int) (e s : Nat) (he : 3 * ((e - s + 1) / 2) < 8 * 65536)
    (k : Nat) (hk : 3 * ((e - s + 1) / 2) ≤ k) :
    ∀ (n m : Nat) (data : Mem), e ≤ s + 2 * m + 2 * n →
      getBit (to_sves_loop coeffs e n (s + 2 * m) data (3 * m % 8) (3 * m / 8)).2 k =
        getBit data k := by
  intro n
  induction n with
  | zero => intro m data _; rfl
  | succ n ih =>
    intro m data h
    simp only [to_sves_loop]
    by_cases hi : s + 2 * m < e
    · simp only [hi, if_true]
      by_cases hc : coeffs (s + 2 * m) + 1 = 0 ∧ coeffs (s + 2 * m + 1) + 1 = 0
      · simp only [hc, and_self, if_true]
      · simp only [hc, if_false]
        have hb := to_sves_bits_triple ((coeffs (s + 2 * m) + 1) * 3 + (coeffs (s + 2 * m + 1) + 1)).toNat
          data (3 * m) (by omega)
        rw [hb.1, hb.2.1, show 3 * m + 3 = 3 * (m + 1) by ring,
          show s + 2 * m + 2 = s + 2 * (m + 1) by ring]
        rw [ih (m + 1) _ (by omega), hb.2.2 k]
        have hr : ¬ (3 * m ≤ k ∧ k < 3 * m + 3) := by omega
        rw [decide_eq_false hr]
        simp
    · simp only [hi, if_false]

/-- The bits past the last pair of the buffer cleared by `ntru_to_sves` are zero, whatever the
status. -/
theorem ntru_to_sves_high (p : NtruIntPoly) (skip : Nat) (data0 : Mem)
    (hN : 1 ≤ p.N) (hN16 : p.N < 65536) (k : Nat)
    (hk : 3 * ((p.N - sves_start skip) / 2) ≤ k) (hlen : k < 8 * sves_len p.N) :
    getBit (ntru_to_sves p skip data0).2 k = false := by
  obtain ⟨he, hle⟩ := sves_end_eq p.N skip hN hN16
  have hT : (sves_end p.N skip - sves_start skip + 1) / 2 = (p.N - sves_start skip) / 2 := by omega
  have hb := to_sves_loop_high p.coeffs (sves_end p.N skip) (sves_start skip) (by omega) k
    (by omega) (sves_end p.N skip) 0 (fun k => if k < sves_len p.N then 0 else data0 k) (by omega)
  simp only [Nat.mul_zero, Nat.add_zero, Nat.zero_mod, Nat.zero_div] at hb
  have e : ntru_to_sves p skip data0 = to_sves_loop p.coeffs (sves_end p.N skip) (sves_end p.N skip)
    (sves_start skip) (fun k => if k < sves_len p.N then 0 else data0 k) 0 0 := rfl
  rw [e, hb]
  unfold getBit
  have : k / 8 < sves_len p.N := by omega
  simp [this]

/-- C1. The round trip fails for `N = 11`, `db = 0`, `maxm1 = 0`, `dm0 = 0` (so that
`ntru_max_msg_len` is `1`) and the one-byte message `0x80`: `ntru_encrypt` returns
`NTRU_SUCCESS` as soon as the random source does not fail and the sampling ends, but for no
ciphertext and no key pair does `ntru_decrypt` return `NTRU_SUCCESS` with length `1` and the
byte `0x80`. The record `b|octL|msg` has 16 bits, the 5 coefficient pairs that
`ntru_from_sves` and `ntru_to_sves` process carry 15, and bit 7 of the message byte is lost.
`ext` is assumed to keep `N` in the polynomial `cmtrin`. -/
theorem ntru_decrypt_encrypt_top_bit_lost {ρ : Type} (ext : Ext ρ) (fuel : Nat) (msg : Mem)
    (pub : NtruEncPubKey) (kp : NtruEncKeyPair) (params : NtruEncParams) (rand : ρ) (stk : Stack)
    (enc0 dec0 : Mem) (dec_len0 : Nat)
    (hN : params.N = 11) (hdb : params.db = 0) (hm1 : params.maxm1 = 0) (hdm0 : params.dm0 = 0)
    (hmsg : msg 0 = 128)
    (hgen : (ext.generate rand 0).1 = true)
    (hterm : (ntru_encrypt ext fuel msg 1 pub params rand stk enc0).isSome = true)
    (hcm : ∀ enc, (decrypt_cmtrin ext enc kp params).N = 11) :
    ntru_max_msg_len params = 1 ∧
    (∃ rand1 enc, ntru_encrypt ext fuel msg 1 pub params rand stk enc0 =
      some (NTRU_SUCCESS, rand1, enc)) ∧
    ∀ enc dec, ntru_decrypt ext fuel enc kp params stk dec0 dec_len0 ≠ some (NTRU_SUCCESS, dec, 1) ∨
      dec 0 ≠ msg 0 := by
  have hmax : ntru_max_msg_len params = 1 := by
    unfold ntru_max_msg_len max_msg_len_formula
    simp only [hN, hdb, hm1]
    decide
  refine ⟨hmax, ?_, ?_⟩
  · unfold ntru_encrypt at hterm ⊢
    simp only [] at hterm ⊢
    rw [hmax] at hterm ⊢
    rw [if_neg (by omega), if_neg (by omega)] at hterm ⊢
    cases fuel with
    | zero => simp [encrypt_loop] at hterm
    | succ n =>
      rw [encrypt_loop] at hterm ⊢
      unfold encrypt_body at hterm ⊢
      simp only [hdb, hm1, hdm0, Nat.zero_div, hgen] at hterm ⊢
      cases hg : ntru_gen_blind_poly ext (n + 1)
          (firstN (ntru_get_seed ext msg 1 pub.h (ext.generate rand 0).2.1 params stk.sdata)
            ((oid_len + 1 + 0 + 0) % 65536)) params stk.r with
      | none => rw [hg] at hterm; simp at hterm
      | some r =>
        simp only [Nat.lt_irrefl, false_and, if_false, gt_iff_lt, Bool.true_eq_false]
        exact ⟨_, _, rfl⟩
  · intro enc dec
    by_cases hd : ntru_decrypt ext fuel enc kp params stk dec0 dec_len0 = some (NTRU_SUCCESS, dec, 1)
    · right
      have hs : (ntru_decrypt ext fuel enc kp params stk dec0 dec_len0).map Prod.fst =
          some NTRU_SUCCESS := by rw [hd]; rfl
      obtain ⟨hres, _⟩ := ntru_decrypt_success_inv ext fuel enc kp params stk dec0 dec_len0 hs
      rw [hres] at hd
      simp only [Option.some.injEq, Prod.mk.injEq, true_and] at hd
      obtain ⟨hdec, hcl⟩ := hd
      have hbit : getBit (decrypt_cM ext enc kp params stk) 15 = false := by
        unfold decrypt_cM
        apply ntru_to_sves_high
        · rw [hcm]; decide
        · rw [hcm]; decide
        · rw [hcm, hm1]; decide
        · rw [hcm]; decide
      have hbyte : dec 0 = decrypt_cM ext enc kp params stk 1 := by
        rw [← hdec]
        unfold decrypt_dec memcpy
        simp only [hcl, hdb]
        rfl
      rw [hbyte, hmsg]
      intro hc
      unfold getBit at hbit
      simp only [show 15 / 8 = 1 from rfl, show 15 % 8 = 7 from rfl] at hbit
      rw [hc] at hbit
      exact absurd hbit (by decide)
    · exact Or.inl hd

set_option maxRecDepth 100000 in
theorem ntru_decrypt_encrypt_top_bit_lost_witness :
    (∃ rand1 enc, ntru_encrypt refExt 3 (ofBytes [128]) 1 kp11.pub params11 () stk0 (fun _ => 0) =
      some (NTRU_SUCCESS, rand1, enc)) ∧
    ∀ enc dec, ntru_decrypt refExt 3 enc kp11 params11 stk0 (fun _ => 9) 77 ≠
      some (NTRU_SUCCESS, dec, 1) ∨ dec 0 ≠ 128 :=
  (ntru_decrypt_encrypt_top_bit_lost refExt 3 (ofBytes [128]) kp11.pub kp11 params11 () stk0
    (fun _ => 0) (fun _ => 9) 77 rfl rfl rfl rfl rfl rfl (by decide) (fun _ => rfl)).2

theorem ntru_gen_tern_poly_correct_witness :
    ∃ p s', ntru_gen_tern_poly 4 ⟨5, fun k => k % 5⟩ 2 tern0 = some (p, s') ∧
      p.num_ones = 2 ∧ p.num_neg_ones = 2 :=
  let ⟨p, s', h, _, _, h1, h2, _⟩ :=
    ntru_gen_tern_poly_correct ⟨5, fun k => k % 5⟩ 2 4 tern0 (fun k => Nat.mod_lt k (by decide))
      (by decide)
  ⟨p, s', h, h1, h2⟩

/-- The table entries of `ntru_from_sves` at the index formed by the three bits that
`ntru_to_sves` writes for a ternary pair other than `(-1,-1)` are the pair itself. -/
theorem coeffs_of_bits (c1 c2 : Int) (h1 : c1 = -1 ∨ c1 = 0 ∨ c1 = 1) (h2 : c2 = -1 ∨ c2 = 0 ∨ c2 = 1)
    (hne : ¬ (c1 = -1 ∧ c2 = -1)) :
    NTRU_COEFF1_TABLE.getD
      (4 * (decide ((sves_bits_of ((c1 + 1) * 3 + (c2 + 1)).toNat).getD 0 0 = 1)).toNat +
        2 * (decide ((sves_bits_of ((c1 + 1) * 3 + (c2 + 1)).toNat).getD 1 0 = 1)).toNat +
        (decide ((sves_bits_of ((c1 + 1) * 3 + (c2 + 1)).toNat).getD 2 0 = 1)).toNat) 0 = c1 ∧
    NTRU_COEFF2_TABLE.getD
      (4 * (decide ((sves_bits_of ((c1 + 1) * 3 + (c2 + 1)).toNat).getD 0 0 = 1)).toNat +
        2 * (decide ((sves_bits_of ((c1 + 1) * 3 + (c2 + 1)).toNat).getD 1 0 = 1)).toNat +
        (decide ((sves_bits_of ((c1 + 1) * 3 + (c2 + 1)).toNat).getD 2 0 = 1)).toNat) 0 = c2 := by
  rcases h1 with rfl | rfl | rfl <;> rcases h2 with rfl | rfl | rfl <;>
    first
    | decide
    | exact absurd ⟨rfl, rfl⟩ hne

/-- Decoding the bytes of a successful `ntru_to_sves` with `ntru_from_sves` and the full length
gives back the coefficients of the pairs that lie in whole 3-byte chunks, that is the indices
`start <= i < start + 2 * min (8 * (M_len / 3)) ((N - start) / 2)`. -/
theorem ntru_from_sves_to_sves_covered (p : NtruIntPoly) (skip : Nat) (data0 : Mem)
    (poly0 : Nat → Int) (hN : 1 ≤ p.N) (hbits : (p.N * 3 + 1) / 2 < 65536)
    (hT : ∀ i, i < p.N → p.coeffs i = -1 ∨ p.coeffs i = 0 ∨ p.coeffs i = 1)
    (hs : (ntru_to_sves p skip data0).1 = NTRU_SUCCESS) (i : Nat)
    (h1 : sves_start skip ≤ i)
    (h2 : i < sves_start skip + 2 * sves_pairs (sves_len p.N) p.N skip) :
    (ntru_from_sves (ntru_to_sves p skip data0).2 (sves_len p.N) p.N skip poly0).coeffs i =
      p.coeffs i := by
  obtain ⟨he, hle⟩ := sves_end_eq p.N skip hN (by omega)
  have hDT : sves_pairs (sves_len p.N) p.N skip ≤ (p.N - sves_start skip) / 2 := by
    unfold sves_pairs; omega
  have hlen : 3 * ((p.N - sves_start skip) / 2) ≤ 8 * sves_len p.N := by
    unfold sves_len
    rw [Nat.mod_eq_of_lt hbits]
    omega
  -- the pair that holds index `i`
  have hj : (i - sves_start skip) / 2 < sves_pairs (sves_len p.N) p.N skip := by omega
  obtain ⟨c1, c2⟩ := (ntru_from_sves_pair (ntru_to_sves p skip data0).2 (sves_len p.N) p.N skip poly0
    ((i - sves_start skip) / 2)).1 hj
  -- no processed pair is (-1,-1)
  have hpair : ¬ (p.coeffs (sves_start skip + 2 * ((i - sves_start skip) / 2)) = -1 ∧
      p.coeffs (sves_start skip + 2 * ((i - sves_start skip) / 2) + 1) = -1) := by
    intro hc
    have key := to_sves_loop_status p.coeffs (sves_end p.N skip) (sves_end p.N skip)
      (sves_start skip) (fun k => if k < sves_len p.N then 0 else data0 k) 0 0 (by omega)
    have hinv : (ntru_to_sves p skip data0).1 = NTRU_ERR_INVALID_ENCODING :=
      key.1.mpr ⟨(i - sves_start skip) / 2, by omega, hc.1, hc.2⟩
    rw [hs] at hinv
    cases hinv
  -- the bits of the pair in the encoded buffer
  have hbit : ∀ r, r < 3 →
      getBit (ntru_to_sves p skip data0).2 (3 * ((i - sves_start skip) / 2) + r) =
        decide ((sves_bits_of ((p.coeffs (sves_start skip + 2 * ((i - sves_start skip) / 2)) + 1) * 3 +
          (p.coeffs (sves_start skip + 2 * ((i - sves_start skip) / 2) + 1) + 1)).toNat).getD r 0 = 1) := by
    intro r hr
    rw [ntru_to_sves_bits p skip data0 hN hbits hs _ (by omega),
      decide_eq_true (show 3 * ((i - sves_start skip) / 2) + r < 3 * ((p.N - sves_start skip) / 2) by
        omega), Bool.true_and]
    unfold sves_bit
    have e1 : (3 * ((i - sves_start skip) / 2) + r) / 3 = (i - sves_start skip) / 2 := by omega
    have e2 : (3 * ((i - sves_start skip) / 2) + r) % 3 = r := by omega
    rw [e1, e2]
  have hidx : sves_idx (ntru_to_sves p skip data0).2 ((i - sves_start skip) / 2) =
      4 * (decide ((sves_bits_of ((p.coeffs (sves_start skip + 2 * ((i - sves_start skip) / 2)) + 1) * 3 +
          (p.coeffs (sves_start skip + 2 * ((i - sves_start skip) / 2) + 1) + 1)).toNat).getD 0 0 = 1)).toNat +
      2 * (decide ((sves_bits_of ((p.coeffs (sves_start skip + 2 * ((i - sves_start skip) / 2)) + 1) * 3 +
          (p.coeffs (sves_start skip + 2 * ((i - sves_start skip) / 2) + 1) + 1)).toNat).getD 1 0 = 1)).toNat +
      (decide ((sves_bits_of ((p.coeffs (sves_start skip + 2 * ((i - sves_start skip) / 2)) + 1) * 3 +
          (p.coeffs (sves_start skip + 2 * ((i - sves_start skip) / 2) + 1) + 1)).toNat).getD 2 0 = 1)).toNat := by
    unfold sves_idx
    have b0 := hbit 0 (by omega)
    rw [Nat.add_zero] at b0
    rw [b0, hbit 1 (by omega), hbit 2 (by omega)]
  obtain ⟨t1, t2⟩ := coeffs_of_bits _ _ (hT _ (by omega)) (hT _ (by omega)) hpair
  rw [hidx] at c1 c2
  rw [t1] at c1
  rw [t2] at c2
  rcases Nat.mod_two_eq_zero_or_one (i - sves_start skip) with hpar | hpar
  · have ei : i = sves_start skip + 2 * ((i - sves_start skip) / 2) := by omega
    rw [ei]
    exact c1
  · have ei : i = sves_start skip + 2 * ((i - sves_start skip) / 2) + 1 := by omega
    rw [ei]
    exact c2

/-- C11. `max_msg_len` formula: if the value `v` of `(N-1)*3/2/8 - 1 - db/8` (when `maxm1 > 0`) or
of `N*3/2/8 - 1 - db/8` (when `maxm1 = 0`), with the truncating division of C, satisfies
`0 <= v <= 255`, then `ntru_max_msg_len(params)` returns exactly `v`. -/
theorem ntru_max_msg_len_eq_formula (params : NtruEncParams)
    (h0 : 0 ≤ (if params.maxm1 > 0 then
        ((((params.N : Int) - 1) * 3).tdiv 2).tdiv 8 - 1 - (params.db : Int).tdiv 8
      else (((params.N : Int) * 3).tdiv 2).tdiv 8 - 1 - (params.db : Int).tdiv 8))
    (h1 : (if params.maxm1 > 0 then
        ((((params.N : Int) - 1) * 3).tdiv 2).tdiv 8 - 1 - (params.db : Int).tdiv 8
      else (((params.N : Int) * 3).tdiv 2).tdiv 8 - 1 - (params.db : Int).tdiv 8) ≤ 255) :
    (ntru_max_msg_len params : Int) =
      (if params.maxm1 > 0 then
        ((((params.N : Int) - 1) * 3).tdiv 2).tdiv 8 - 1 - (params.db : Int).tdiv 8
      else (((params.N : Int) * 3).tdiv 2).tdiv 8 - 1 - (params.db : Int).tdiv 8) := by
  have e : max_msg_len_formula params =
      (if params.maxm1 > 0 then
        ((((params.N : Int) - 1) * 3).tdiv 2).tdiv 8 - 1 - (params.db : Int).tdiv 8
      else (((params.N : Int) * 3).tdiv 2).tdiv 8 - 1 - (params.db : Int).tdiv 8) := rfl
  rw [← e] at h0 h1 ⊢
  unfold ntru_max_msg_len
  omega

theorem ntru_max_msg_len_eq_formula_witness : (ntru_max_msg_len params11 : Int) = 1 :=
  ntru_max_msg_len_eq_formula params11 (by decide) (by decide)

theorem rep_weight_loop_spec (c : Nat → Int) : ∀ (n i : Nat) (w : Nat → Nat) (k : Nat),
    (∀ j, j < n → c (i + j) = -1 ∨ c (i + j) = 0 ∨ c (i + j) = 1) → k < 3 →
    w k + n < 65536 →
    rep_weight_loop c n i w k =
      w k + (List.range n).countP (fun j => decide (c (i + j) = (k : Int) - 1)) := by
  intro n
  induction n with
  | zero => intro i w k _ _ _; simp [rep_weight_loop]
  | succ n ih =>
    intro i w k hT hk hw
    have h0 := hT 0 (by omega)
    rw [Nat.add_zero] at h0
    have hT' : ∀ j, j < n → c (i + 1 + j) = -1 ∨ c (i + 1 + j) = 0 ∨ c (i + 1 + j) = 1 := by
      intro j hj
      have := hT (j + 1) (by omega)
      rwa [show i + (j + 1) = i + 1 + j by omega] at this
    have hfun : ((fun j => decide (c (i + j) = (k : Int) - 1)) ∘ Nat.succ) =
        (fun j => decide (c (i + 1 + j) = (k : Int) - 1)) := by
      funext j
      simp only [Function.comp, Nat.succ_eq_add_one]
      rw [show i + (j + 1) = i + 1 + j by omega]
    have hstore : store w (c i + 1).toNat ((w (c i + 1).toNat + 1) % 65536) k =
        w k + (if c i = (k : Int) - 1 then 1 else 0) := by
      unfold store
      by_cases hik : k = (c i + 1).toNat
      · have hc : c i = (k : Int) - 1 := by omega
        rw [if_pos hik, if_pos hc, ← hik, Nat.mod_eq_of_lt (by omega)]
      · have hc : ¬ c i = (k : Int) - 1 := by omega
        rw [if_neg hik, if_neg hc, Nat.add_zero]
    rw [rep_weight_loop, ih (i + 1) _ k hT' hk (by rw [hstore]; split <;> omega), hstore,
      List.range_succ_eq_map, List.countP_cons, List.countP_map, hfun, Nat.add_zero]
    by_cases hc : c i = (k : Int) - 1
    · rw [if_pos hc, if_pos (by simp [hc])]
      omega
    · rw [if_neg hc, if_neg (by simp [hc])]
      omega

theorem coeff_count_sum (c : Nat → Int) : ∀ n : Nat,
    (∀ i, i < n → c i = -1 ∨ c i = 0 ∨ c i = 1) →
    (List.range n).countP (fun i => decide (c i = -1)) +
      (List.range n).countP (fun i => decide (c i = 0)) +
      (List.range n).countP (fun i => decide (c i = 1)) = n := by
  intro n
  induction n with
  | zero => intro _; rfl
  | succ n ih =>
    intro hT
    have ih' := ih (fun i hi => hT i (by omega))
    rw [List.range_succ, List.countP_append, List.countP_append, List.countP_append]
    simp only [List.countP_cons, List.countP_nil, Nat.zero_add]
    rcases hT n (by omega) with h | h | h <;> simp [h] <;> omega

/-- C14. Repetition weight check: for a polynomial with `N` coefficients in `{-1,0,1}` (`N` a
`uint16_t`), `ntru_check_rep_weight(p, dm0)` passes if and only if the number of coefficients
equal to `-1`, the number equal to `0` and the number equal to `+1` are each `>= dm0`; the three
numbers add up to `N`, so the check passes for `dm0 = 0` and fails when `3*dm0 > N`. -/
theorem ntru_check_rep_weight_iff (p : NtruIntPoly) (dm0 : Nat) (hN : p.N < 65536)
    (hT : ∀ i, i < p.N → p.coeffs i = -1 ∨ p.coeffs i = 0 ∨ p.coeffs i = 1) :
    (ntru_check_rep_weight p dm0 = true ↔
      dm0 ≤ coeff_count p (-1) ∧ dm0 ≤ coeff_count p 0 ∧ dm0 ≤ coeff_count p 1) ∧
    coeff_count p (-1) + coeff_count p 0 + coeff_count p 1 = p.N ∧
    (dm0 = 0 → ntru_check_rep_weight p dm0 = true) ∧
    (3 * dm0 > p.N → ntru_check_rep_weight p dm0 = false) := by
  have hw : ∀ k, k < 3 → rep_weight_loop p.coeffs p.N 0 (fun _ => 0) k =
      (List.range p.N).countP (fun j => decide (p.coeffs j = (k : Int) - 1)) := by
    intro k hk
    rw [rep_weight_loop_spec p.coeffs p.N 0 (fun _ => 0) k
      (fun j hj => by rw [Nat.zero_add]; exact hT j hj) hk (by show 0 + p.N < 65536; omega)]
    simp only [Nat.zero_add]
  have h0 := hw 0 (by omega)
  have h1 := hw 1 (by omega)
  have h2 := hw 2 (by omega)
  simp only [Nat.cast_zero, Nat.cast_one, Nat.cast_ofNat, zero_sub, sub_self] at h0 h1
  rw [show ((2 : Nat) : Int) - 1 = 1 by norm_num] at h2
  have hsum := coeff_count_sum p.coeffs p.N hT
  have hiff : ntru_check_rep_weight p dm0 = true ↔
      dm0 ≤ coeff_count p (-1) ∧ dm0 ≤ coeff_count p 0 ∧ dm0 ≤ coeff_count p 1 := by
    unfold ntru_check_rep_weight coeff_count
    simp only [decide_eq_true_eq, ge_iff_le]
    rw [h0, h1, h2]
  refine ⟨hiff, hsum, fun hd => hiff.mpr (by omega), fun hd => ?_⟩
  cases hc : ntru_check_rep_weight p dm0
  · rfl
  · have := hiff.mp hc
    unfold coeff_count at this
    omega

theorem ntru_check_rep_weight_iff_witness :
    ntru_check_rep_weight ⟨6, ofCoeffs [1, -1, 0, 0, 1, -1]⟩ 2 = true :=
  ((ntru_check_rep_weight_iff ⟨6, ofCoeffs [1, -1, 0, 0, 1, -1]⟩ 2 (by decide) (by decide)).1).mpr
    (by decide)

theorem zero_pad_loop_false_iff (cM : Mem) : ∀ (n i : Nat),
    zero_pad_loop cM n i = false ↔ ∃ j, j < n ∧ cM (i + j) ≠ 0 := by
  intro n
  induction n with
  | zero => intro i; simp [zero_pad_loop]
  | succ n ih =>
    intro i
    rw [zero_pad_loop]
    by_cases h : cM i ≠ 0
    · rw [if_pos h]
      exact ⟨fun _ => ⟨0, by omega, h⟩, fun _ => rfl⟩
    · rw [if_neg h, ih (i + 1)]
      constructor
      · rintro ⟨j, hj, hc⟩
        exact ⟨j + 1, by omega, by rwa [show i + (j + 1) = i + 1 + j by omega]⟩
      · rintro ⟨j, hj, hc⟩
        cases j with
        | zero => exact absurd hc h
        | succ j => exact ⟨j, by omega, by rwa [show i + 1 + j = i + (j + 1) by omega]⟩

/-- The function `ntru_decrypt` without the test `max_len_bytes > 255`, which never holds. -/
theorem ntru_decrypt_cases {ρ : Type} (ext : Ext ρ) (fuel : Nat) (enc : Mem) (kp : NtruEncKeyPair)
    (params : NtruEncParams) (stk : Stack) (dec0 : Mem) (dec_len0 : Nat) :
    ntru_decrypt ext fuel enc kp params stk dec0 dec_len0 =
      if params.dm0 > 0 ∧ ntru_check_rep_weight (decrypt_ci ext enc kp params) params.dm0 = false then
        some (NTRU_ERR_DM0_VIOLATION, dec0, dec_len0)
      else if decrypt_cl ext enc kp params stk > ntru_max_msg_len params then
        some (NTRU_ERR_MSG_TOO_LONG, dec0, dec_len0)
      else if decrypt_zero_pad ext enc kp params stk = false then
        some (NTRU_ERR_NO_ZERO_PAD, decrypt_dec ext enc kp params stk dec0, dec_len0)
      else
        match ntru_gen_blind_poly ext fuel (decrypt_seed ext enc kp params stk dec0) params stk.r with
        | none => none
        | some cr =>
          if ntru_equals_int (mult_blind ext kp.pub.h cr params.q) (decrypt_cR ext enc kp params) = false
          then some (NTRU_ERR_INVALID_ENCODING, decrypt_dec ext enc kp params stk dec0, dec_len0)
          else some (NTRU_SUCCESS, decrypt_dec ext enc kp params stk dec0,
            decrypt_cl ext enc kp params stk) := by
  have hlt := ntru_max_msg_len_lt params
  unfold ntru_decrypt
  simp only []
  rw [if_neg (by omega)]

/-- C12. Parsing of the decoded record `cM = cb|cl|pt|zeros` in `ntru_decrypt`: for a ciphertext
that passes the repetition weight check, if the length byte `cl = cM[db/8]` exceeds
`ntru_max_msg_len(params)` the result is `NTRU_ERR_MSG_TOO_LONG`; otherwise, if some byte of the
`cM_len_bytes` bytes of `cM` at a position `>= db/8 + 1 + cl` is non-zero, the result is
`NTRU_ERR_NO_ZERO_PAD`. -/
theorem ntru_decrypt_parse {ρ : Type} (ext : Ext ρ) (fuel : Nat) (enc : Mem) (kp : NtruEncKeyPair)
    (params : NtruEncParams) (stk : Stack) (dec0 : Mem) (dec_len0 : Nat)
    (hdm0 : ¬ (params.dm0 > 0 ∧
      ntru_check_rep_weight (decrypt_ci ext enc kp params) params.dm0 = false)) :
    decrypt_cl ext enc kp params stk = decrypt_cM ext enc kp params stk (params.db / 8) % 256 ∧
    (decrypt_cl ext enc kp params stk > ntru_max_msg_len params →
      ntru_decrypt ext fuel enc kp params stk dec0 dec_len0 =
        some (NTRU_ERR_MSG_TOO_LONG, dec0, dec_len0)) ∧
    (decrypt_cl ext enc kp params stk ≤ ntru_max_msg_len params →
      (∃ i, params.db / 8 + 1 + decrypt_cl ext enc kp params stk ≤ i ∧
        i < ((params.N * 3 + 1) / 2 % 65536 + 7) / 8 ∧ decrypt_cM ext enc kp params stk i ≠ 0) →
      ntru_decrypt ext fuel enc kp params stk dec0 dec_len0 =
        some (NTRU_ERR_NO_ZERO_PAD, decrypt_dec ext enc kp params stk dec0, dec_len0)) := by
  refine ⟨rfl, ?_, ?_⟩
  · intro hcl
    rw [ntru_decrypt_cases, if_neg hdm0, if_pos hcl]
  · intro hcl ⟨i, hi1, hi2, hi3⟩
    have hpad : decrypt_zero_pad ext enc kp params stk = false := by
      unfold decrypt_zero_pad
      simp only []
      rw [zero_pad_loop_false_iff]
      refine ⟨i - (params.db / 8 + 1 + decrypt_cl ext enc kp params stk), by omega, ?_⟩
      rw [Nat.add_sub_cancel' hi1]
      exact hi3
    rw [ntru_decrypt_cases, if_neg hdm0, if_neg (by omega), if_pos hpad]

set_option maxRecDepth 100000 in
theorem ntru_decrypt_parse_witness :
    ntru_decrypt refExt 3 enc_long kp11 params11 stk0 (fun _ => 9) 77 =
      some (NTRU_ERR_MSG_TOO_LONG, fun _ => 9, 77) ∧
    ntru_decrypt refExt 3 enc_pad kp11 params11 stk0 (fun _ => 9) 77 =
      some (NTRU_ERR_NO_ZERO_PAD, decrypt_dec refExt enc_pad kp11 params11 stk0 (fun _ => 9), 77) :=
  ⟨(ntru_decrypt_parse refExt 3 enc_long kp11 params11 stk0 (fun _ => 9) 77 (by decide)).2.1
      (by decide),
    (ntru_decrypt_parse refExt 3 enc_pad kp11 params11 stk0 (fun _ => 9) 77 (by decide)).2.2
      (by decide) ⟨1, by decide, by decide, by decide⟩⟩

/-- C19 (counterexample). For the ciphertext `enc_forged`, `ntru_decrypt` returns
`NTRU_ERR_INVALID_ENCODING` and the first byte of the caller's buffer `dec`, which held `9` before
the call, holds `0` after it. -/
theorem ntru_decrypt_writes_dec_on_error :
    (ntru_decrypt refExt 3 enc_forged kp11 params11 stk0 (fun _ => 9) 77).map
      (fun r => (r.1, r.2.1 0, r.2.2)) = some (NTRU_ERR_INVALID_ENCODING, 0, 77) ∧
    (fun _ => 9 : Mem) 0 ≠ 0 := by
  decide

/-- C19. Frame of `ntru_decrypt`, by status `st` of the call. `*dec_len` is written only when the
status is `NTRU_SUCCESS`. The buffer `dec` is left as it was when the status is
`NTRU_ERR_DM0_VIOLATION` or `NTRU_ERR_MSG_TOO_LONG`; when it is `NTRU_ERR_NO_ZERO_PAD`,
`NTRU_ERR_INVALID_ENCODING` or `NTRU_SUCCESS`, the `cl` bytes `cM[db/8+1 ..]` have been copied to
the start of `dec` (before the zero padding check) and the bytes of `dec` from index `cl` on are
as they were. No other status is returned (`NTRU_ERR_INVALID_MAX_LEN` never is). -/
theorem ntru_decrypt_frame {ρ : Type} (ext : Ext ρ) (fuel : Nat) (enc : Mem) (kp : NtruEncKeyPair)
    (params : NtruEncParams) (stk : Stack) (dec0 : Mem) (dec_len0 : Nat) (st : Status)
    (hst : (ntru_decrypt ext fuel enc kp params stk dec0 dec_len0).map Prod.fst = some st) :
    ((st = NTRU_ERR_DM0_VIOLATION ∨ st = NTRU_ERR_MSG_TOO_LONG) ∧
        ntru_decrypt ext fuel enc kp params stk dec0 dec_len0 = some (st, dec0, dec_len0) ∨
      (st = NTRU_ERR_NO_ZERO_PAD ∨ st = NTRU_ERR_INVALID_ENCODING) ∧
        ntru_decrypt ext fuel enc kp params stk dec0 dec_len0 =
          some (st, decrypt_dec ext enc kp params stk dec0, dec_len0) ∨
      st = NTRU_SUCCESS ∧
        ntru_decrypt ext fuel enc kp params stk dec0 dec_len0 =
          some (st, decrypt_dec ext enc kp params stk dec0, decrypt_cl ext enc kp params stk)) ∧
    (∀ i, i < decrypt_cl ext enc kp params stk →
      decrypt_dec ext enc kp params stk dec0 i =
        decrypt_cM ext enc kp params stk (params.db / 8 + 1 + i)) ∧
    (∀ i, decrypt_cl ext enc kp params stk ≤ i →
      decrypt_dec ext enc kp params stk dec0 i = dec0 i) := by
  refine ⟨?_, ?_, ?_⟩
  · rw [ntru_decrypt_cases] at hst ⊢
    split at hst
    · rename_i h
      rw [if_pos h]
      simp only [Option.map_some', Option.some.injEq] at hst
      subst hst
      exact Or.inl ⟨Or.inl rfl, rfl⟩
    · rename_i h
      rw [if_neg h]
      split at hst
      · rename_i h2
        rw [if_pos h2]
        simp only [Option.map_some', Option.some.injEq] at hst
        subst hst
        exact Or.inl ⟨Or.inr rfl, rfl⟩
      · rename_i h2
        rw [if_neg h2]
        split at hst
        · rename_i h3
          rw [if_pos h3]
          simp only [Option.map_some', Option.some.injEq] at hst
          subst hst
          exact Or.inr (Or.inl ⟨Or.inl rfl, rfl⟩)
        · rename_i h3
          rw [if_neg h3]
          cases hg : ntru_gen_blind_poly ext fuel (decrypt_seed ext enc kp params stk dec0) params
              stk.r with
          | none => rw [hg] at hst; simp at hst
          | some cr =>
            rw [hg] at hst
            simp only [] at hst ⊢
            split at hst
            · rename_i h4
              rw [if_pos h4]
              simp only [Option.map_some', Option.some.injEq] at hst
              subst hst
              exact Or.inr (Or.inl ⟨Or.inr rfl, rfl⟩)
            · rename_i h4
              rw [if_neg h4]
              simp only [Option.map_some', Option.some.injEq] at hst
              subst hst
              exact Or.inr (Or.inr ⟨rfl, rfl⟩)
  · intro i hi
    unfold decrypt_dec memcpy
    rw [if_pos ⟨by omega, by omega⟩]
    rfl
  · intro i hi
    unfold decrypt_dec memcpy
    rw [if_neg (by omega)]

set_option maxRecDepth 100000 in
theorem ntru_decrypt_frame_witness :
    ntru_decrypt refExt 3 enc_forged kp11 params11 stk0 (fun _ => 9) 77 =
      some (NTRU_ERR_INVALID_ENCODING, decrypt_dec refExt enc_forged kp11 params11 stk0 (fun _ => 9),
        77) := by
  have h := (ntru_decrypt_frame refExt 3 enc_forged kp11 params11 stk0 (fun _ => 9) 77
    NTRU_ERR_INVALID_ENCODING (by decide)).1
  rcases h with ⟨h1, _⟩ | ⟨_, h2⟩ | ⟨h3, _⟩
  · rcases h1 with h | h <;> cases h
  · exact h2
  · cases h3

/-- The body of the loop of `ntru_encrypt` in terms of the seed, of `mtrin` and of the output. -/
theorem encrypt_body_eq {ρ : Type} (ext : Ext ρ) (fuel : Nat) (msg : Mem) (msg_len : Nat)
    (pub : NtruEncPubKey) (params : NtruEncParams) (rand : ρ) (stk : Stack) (enc0 : Mem) :
    encrypt_body ext fuel msg msg_len pub params rand stk enc0 =
      if (ext.generate rand (params.db / 8)).1 = false then
        some (EncStep.ret NTRU_ERR_PRNG (ext.generate rand (params.db / 8)).2.2 enc0)
      else
        match ntru_gen_blind_poly ext fuel
          (encrypt_seed ext msg msg_len pub params (ext.generate rand (params.db / 8)).2.1 stk)
          params stk.r with
        | none => none
        | some r =>
          if params.maxm1 > 0 ∧
              ext.ntru_sum_coeffs (encrypt_mtrin ext msg msg_len pub params
                (ext.generate rand (params.db / 8)).2.1 stk r) > params.maxm1 then
            some (EncStep.cont (ext.generate rand (params.db / 8)).2.2)
          else if params.dm0 > 0 ∧
              ntru_check_rep_weight (ext.ntru_mod3 (encrypt_zero_const params.maxm1
                (encrypt_mtrin ext msg msg_len pub params
                  (ext.generate rand (params.db / 8)).2.1 stk r))) params.dm0 = false then
            some (EncStep.cont (ext.generate rand (params.db / 8)).2.2)
          else
            some (EncStep.ret NTRU_SUCCESS (ext.generate rand (params.db / 8)).2.2
              (encrypt_enc ext msg msg_len pub params (ext.generate rand (params.db / 8)).2.1 stk r)) :=
  rfl

theorem firstN_length {α : Type} (a : Nat → α) (n : Nat) : (firstN a n).length = n := by
  simp [firstN]

theorem firstN_memcpy_add (dst : Mem) (off : Nat) (src : Mem) (n : Nat) :
    firstN (memcpy dst off src n) (off + n) = firstN dst off ++ firstN src n := by
  unfold firstN
  rw [List.range_add, List.map_append, List.map_map]
  congr 1
  · apply List.map_congr_left
    intro i hi
    have := List.mem_range.mp hi
    unfold memcpy
    rw [if_neg (by omega)]
  · apply List.map_congr_left
    intro i hi
    have := List.mem_range.mp hi
    simp only [Function.comp, memcpy]
    rw [if_pos ⟨by omega, by omega⟩, Nat.add_sub_cancel_left]

theorem firstN_memcpy_le (dst : Mem) (off : Nat) (src : Mem) (n m : Nat) (hm : m ≤ off) :
    firstN (memcpy dst off src n) m = firstN dst m := by
  unfold firstN
  apply List.map_congr_left
  intro i hi
  have := List.mem_range.mp hi
  unfold memcpy
  rw [if_neg (by omega)]

theorem firstN_zero {α : Type} (a : Nat → α) : firstN a 0 = [] := rfl

/-- The first `3 + msg_len + db/8 + pklen/8` bytes that `ntru_get_seed` writes are
`oid | msg | b | htrunc`. -/
theorem ntru_get_seed_layout {ρ : Type} (ext : Ext ρ) (msg : Mem) (msg_len : Nat) (h : NtruIntPoly)
    (b : Mem) (params : NtruEncParams) (seed0 : Mem) :
    firstN (ntru_get_seed ext msg msg_len h b params seed0)
        (oid_len + msg_len + params.db / 8 + params.pklen / 8) =
      firstN params.oid oid_len ++ firstN msg msg_len ++ firstN b (params.db / 8) ++
        firstN (ext.ntru_to_arr h params.q) (params.pklen / 8) := by
  unfold ntru_get_seed
  simp only []
  rw [firstN_memcpy_add, firstN_memcpy_add, firstN_memcpy_add]
  have h1 := firstN_memcpy_add seed0 0 params.oid oid_len
  have h2 := firstN_memcpy_add (fun _ => 0) 0 (ext.ntru_to_arr h params.q) (params.pklen / 8)
  rw [Nat.zero_add, firstN_zero, List.nil_append] at h1 h2
  rw [h1, h2]

/-- The bytes past the `3 + msg_len + db/8 + pklen/8` written ones are those of `seed0`. -/
theorem ntru_get_seed_rest {ρ : Type} (ext : Ext ρ) (msg : Mem) (msg_len : Nat) (h : NtruIntPoly)
    (b : Mem) (params : NtruEncParams) (seed0 : Mem) (i : Nat)
    (hi : oid_len + msg_len + params.db / 8 + params.pklen / 8 ≤ i) :
    ntru_get_seed ext msg msg_len h b params seed0 i = seed0 i := by
  unfold ntru_get_seed memcpy
  simp only []
  rw [if_neg (by omega), if_neg (by omega), if_neg (by omega), if_neg (by omega)]

/-- C13 (code differs from the claim when `pklen/8 ≠ db/8`): the byte string that
`ntru_encrypt` passes to `ntru_gen_blind_poly` has the length `3 + msg_len + db/8 + db/8`
(as `uint16_t`), not `3 + msg_len + db/8 + pklen/8`. When `pklen/8 = db/8` it is exactly
`oid | msg | b | htrunc`; when `pklen/8 < db/8` it is `oid | msg | b | htrunc` followed by
`db/8 - pklen/8` bytes of the stack array `sdata` that `ntru_get_seed` never wrote; when
`pklen/8 > db/8` it is only a proper initial part of `oid | msg | b | htrunc`. With `db = 8`,
`pklen = 0`, an empty message and the salt byte `9` the string is `0 2 4 9 85`, whose last byte
`85` is the prior content of the stack. -/
theorem ntru_encrypt_seed_layout :
    (∀ (ρ : Type) (ext : Ext ρ) (msg : Mem) (msg_len : Nat) (pub : NtruEncPubKey)
       (params : NtruEncParams) (b : Mem) (stk : Stack),
      (encrypt_seed ext msg msg_len pub params b stk).length
          = (oid_len + msg_len + params.db / 8 + params.db / 8) % 65536 ∧
      (oid_len + msg_len + params.db / 8 + params.db / 8 < 65536 →
        (params.pklen / 8 = params.db / 8 →
          encrypt_seed ext msg msg_len pub params b stk =
            firstN params.oid oid_len ++ firstN msg msg_len ++ firstN b (params.db / 8) ++
              firstN (ext.ntru_to_arr pub.h params.q) (params.pklen / 8)) ∧
        (params.pklen / 8 < params.db / 8 →
          encrypt_seed ext msg msg_len pub params b stk =
            firstN params.oid oid_len ++ firstN msg msg_len ++ firstN b (params.db / 8) ++
              firstN (ext.ntru_to_arr pub.h params.q) (params.pklen / 8) ++
              (List.range (params.db / 8 - params.pklen / 8)).map
                (fun j => stk.sdata (oid_len + msg_len + params.db / 8 + params.pklen / 8 + j))) ∧
        (params.db / 8 < params.pklen / 8 →
          encrypt_seed ext msg msg_len pub params b stk =
            (firstN params.oid oid_len ++ firstN msg msg_len ++ firstN b (params.db / 8) ++
              firstN (ext.ntru_to_arr pub.h params.q) (params.pklen / 8)).take
                (oid_len + msg_len + params.db / 8 + params.db / 8)))) ∧
    encrypt_seed refExt (ofBytes []) 0 kp11.pub params_db8 (ofBytes [9]) stk0 = [0, 2, 4, 9, 85] ∧
    firstN params_db8.oid oid_len ++ firstN (ofBytes []) 0 ++ firstN (ofBytes [9]) (params_db8.db / 8)
        ++ firstN (refExt.ntru_to_arr kp11.pub.h params_db8.q) (params_db8.pklen / 8)
      = [0, 2, 4, 9] := by
  refine ⟨?_, by decide, by decide⟩
  intro ρ ext msg msg_len pub params b stk
  refine ⟨by simp [encrypt_seed, firstN_length], ?_⟩
  intro hlt
  have hL := ntru_get_seed_layout ext msg msg_len pub.h b params stk.sdata
  refine ⟨?_, ?_, ?_⟩
  · intro he
    unfold encrypt_seed
    simp only []
    rw [Nat.mod_eq_of_lt hlt, ← hL, he]
  · intro hl
    unfold encrypt_seed
    simp only []
    rw [Nat.mod_eq_of_lt hlt, ← hL]
    have hsplit : oid_len + msg_len + params.db / 8 + params.db / 8 =
        (oid_len + msg_len + params.db / 8 + params.pklen / 8) +
          (params.db / 8 - params.pklen / 8) := by omega
    rw [hsplit]
    unfold firstN
    rw [List.range_add, List.map_append, List.map_map]
    congr 1
    apply List.map_congr_left
    intro j _
    simp only [Function.comp]
    exact ntru_get_seed_rest ext msg msg_len pub.h b params stk.sdata _ (by omega)
  · intro hl
    unfold encrypt_seed
    simp only []
    rw [Nat.mod_eq_of_lt hlt, ← hL]
    unfold firstN
    rw [← List.map_take, List.take_range, Nat.min_eq_left (by omega)]

/-- A pass of the loop of `ntru_encrypt` that returns `NTRU_SUCCESS`. -/
theorem encrypt_body_success_inv {ρ : Type} (ext : Ext ρ) (fuel : Nat) (msg : Mem) (msg_len : Nat)
    (pub : NtruEncPubKey) (params : NtruEncParams) (rand : ρ) (stk : Stack) (enc0 : Mem)
    (rand1 : ρ) (enc : Mem)
    (h : encrypt_body ext fuel msg msg_len pub params rand stk enc0 =
      some (EncStep.ret NTRU_SUCCESS rand1 enc)) :
    (ext.generate rand (params.db / 8)).1 = true ∧
    ∃ r, ntru_gen_blind_poly ext fuel
        (encrypt_seed ext msg msg_len pub params (ext.generate rand (params.db / 8)).2.1 stk)
        params stk.r = some r ∧
      ¬ (params.maxm1 > 0 ∧
          ext.ntru_sum_coeffs (encrypt_mtrin ext msg msg_len pub params
            (ext.generate rand (params.db / 8)).2.1 stk r) > params.maxm1) ∧
      ¬ (params.dm0 > 0 ∧
          ntru_check_rep_weight (ext.ntru_mod3 (encrypt_zero_const params.maxm1
            (encrypt_mtrin ext msg msg_len pub params
              (ext.generate rand (params.db / 8)).2.1 stk r))) params.dm0 = false) ∧
      rand1 = (ext.generate rand (params.db / 8)).2.2 ∧
      enc = encrypt_enc ext msg msg_len pub params (ext.generate rand (params.db / 8)).2.1 stk r := by
  rw [encrypt_body_eq] at h
  by_cases hg : (ext.generate rand (params.db / 8)).1 = false
  · rw [if_pos hg] at h
    simp only [Option.some.injEq, EncStep.ret.injEq] at h
    exact absurd h.1 (by decide)
  · rw [if_neg hg] at h
    refine ⟨by simpa using hg, ?_⟩
    cases hr : ntru_gen_blind_poly ext fuel
        (encrypt_seed ext msg msg_len pub params (ext.generate rand (params.db / 8)).2.1 stk)
        params stk.r with
    | none => rw [hr] at h; exact absurd h (by simp)
    | some r =>
      rw [hr] at h
      simp only [] at h
      refine ⟨r, rfl, ?_⟩
      split at h
      · exact absurd h (by simp)
      · rename_i h1
        split at h
        · exact absurd h (by simp)
        · rename_i h2
          simp only [Option.some.injEq, EncStep.ret.injEq, true_and] at h
          exact ⟨h1, h2, h.1.symm, h.2.symm⟩

/-- A run of the loop of `ntru_encrypt` that returns `NTRU_SUCCESS` ends with a pass that does. -/
theorem encrypt_loop_success_inv {ρ : Type} (ext : Ext ρ) (fuel : Nat) (msg : Mem) (msg_len : Nat)
    (pub : NtruEncPubKey) (params : NtruEncParams) (stk : Stack) (enc0 : Mem) :
    ∀ (n : Nat) (rand : ρ) (res : Status × ρ × Mem),
      encrypt_loop ext fuel msg msg_len pub params stk enc0 n rand = some res →
      res.1 = NTRU_SUCCESS →
      ∃ rand0, encrypt_body ext fuel msg msg_len pub params rand0 stk enc0 =
        some (EncStep.ret NTRU_SUCCESS res.2.1 res.2.2) := by
  intro n
  induction n with
  | zero => intro rand res h; simp [encrypt_loop] at h
  | succ n ih =>
    intro rand res h hs
    rw [encrypt_loop] at h
    cases hb : encrypt_body ext fuel msg msg_len pub params rand stk enc0 with
    | none => rw [hb] at h; exact absurd h (by simp)
    | some step =>
      rw [hb] at h
      cases step with
      | cont rand1 => exact ih rand1 res h hs
      | ret status rand1 enc =>
        simp only [Option.some.injEq] at h
        subst h
        simp only [] at hs
        subst hs
        exact ⟨rand, hb⟩

/-- C15: when `maxm1 > 0` and `ntru_encrypt` returns `NTRU_SUCCESS`, the call ended in a pass of
the loop (started in some state `rand0` of the random context, with the salt `b` drawn there and
the blinding polynomial `r`) in which `mtrin`, the decoded record plus the mask, had
`ntru_sum_coeffs(mtrin) ≤ maxm1` before its constant coefficient was set to zero; the polynomial
that is reduced modulo 3 and added to `R` to give the ciphertext is `mtrin` with the constant
coefficient `0` and all other coefficients unchanged. -/
theorem ntru_encrypt_maxm1_bound {ρ : Type} (ext : Ext ρ) (fuel : Nat) (msg : Mem) (msg_len : Nat)
    (pub : NtruEncPubKey) (params : NtruEncParams) (rand : ρ) (stk : Stack) (enc0 : Mem)
    (hm : params.maxm1 > 0)
    (hs : (ntru_encrypt ext fuel msg msg_len pub params rand stk enc0).map Prod.fst
      = some NTRU_SUCCESS) :
    ∃ (rand0 : ρ) (r : BlindPoly),
      (ext.generate rand0 (params.db / 8)).1 = true ∧
      ntru_gen_blind_poly ext fuel
        (encrypt_seed ext msg msg_len pub params (ext.generate rand0 (params.db / 8)).2.1 stk)
        params stk.r = some r ∧
      ext.ntru_sum_coeffs (encrypt_mtrin ext msg msg_len pub params
        (ext.generate rand0 (params.db / 8)).2.1 stk r) ≤ params.maxm1 ∧
      (encrypt_zero_const params.maxm1 (encrypt_mtrin ext msg msg_len pub params
        (ext.generate rand0 (params.db / 8)).2.1 stk r)).coeffs 0 = 0 ∧
      (∀ i, i ≠ 0 →
        (encrypt_zero_const params.maxm1 (encrypt_mtrin ext msg msg_len pub params
          (ext.generate rand0 (params.db / 8)).2.1 stk r)).coeffs i =
        (encrypt_mtrin ext msg msg_len pub params
          (ext.generate rand0 (params.db / 8)).2.1 stk r).coeffs i) ∧
      ntru_encrypt ext fuel msg msg_len pub params rand stk enc0 =
        some (NTRU_SUCCESS, (ext.generate rand0 (params.db / 8)).2.2,
          ext.ntru_to_arr
            (ext.ntru_add_int_mod (mult_blind ext pub.h r params.q)
              (ext.ntru_mod3 (encrypt_zero_const params.maxm1
                (encrypt_mtrin ext msg msg_len pub params
                  (ext.generate rand0 (params.db / 8)).2.1 stk r))) params.q) params.q) := by
  cases hres : ntru_encrypt ext fuel msg msg_len pub params rand stk enc0 with
  | none => rw [hres] at hs; exact absurd hs (by simp)
  | some res =>
    rw [hres] at hs
    simp only [Option.map_some', Option.some.injEq] at hs
    have hloop : encrypt_loop ext fuel msg msg_len pub params stk enc0 fuel rand = some res := by
      unfold ntru_encrypt at hres
      simp only [] at hres
      split at hres
      · simp only [Option.some.injEq] at hres
        subst hres
        exact absurd hs (by simp)
      · split at hres
        · simp only [Option.some.injEq] at hres
          subst hres
          exact absurd hs (by simp)
        · exact hres
    obtain ⟨rand0, hb⟩ := encrypt_loop_success_inv ext fuel msg msg_len pub params stk enc0
      fuel rand res hloop hs
    obtain ⟨hg, r, hr, h1, _, hr1, henc⟩ := encrypt_body_success_inv ext fuel msg msg_len pub
      params rand0 stk enc0 res.2.1 res.2.2 hb
    refine ⟨rand0, r, hg, hr, ?_, ?_, ?_, ?_⟩
    · exact not_lt.mp (fun hgt => h1 ⟨hm, hgt⟩)
    · unfold encrypt_zero_const
      rw [if_pos hm]
      simp [store]
    · intro i hi
      unfold encrypt_zero_const
      rw [if_pos hm]
      simp [store, hi]
    · obtain ⟨s, rnd, e⟩ := res
      simp only [] at hs hr1 henc
      rw [hs, hr1, henc]
      rfl

theorem ntru_encrypt_maxm1_bound_witness :
    ∃ (rand0 : Unit) (r : BlindPoly),
      (refExt.generate rand0 (params11m.db / 8)).1 = true ∧
      ntru_gen_blind_poly refExt 3
        (encrypt_seed refExt (ofBytes []) 0 kp11.pub params11m
          (refExt.generate rand0 (params11m.db / 8)).2.1 stk0)
        params11m stk0.r = some r ∧
      refExt.ntru_sum_coeffs (encrypt_mtrin refExt (ofBytes []) 0 kp11.pub params11m
        (refExt.generate rand0 (params11m.db / 8)).2.1 stk0 r) ≤ params11m.maxm1 ∧
      (encrypt_zero_const params11m.maxm1 (encrypt_mtrin refExt (ofBytes []) 0 kp11.pub params11m
        (refExt.generate rand0 (params11m.db / 8)).2.1 stk0 r)).coeffs 0 = 0 ∧
      (∀ i, i ≠ 0 →
        (encrypt_zero_const params11m.maxm1 (encrypt_mtrin refExt (ofBytes []) 0 kp11.pub
          params11m (refExt.generate rand0 (params11m.db / 8)).2.1 stk0 r)).coeffs i =
        (encrypt_mtrin refExt (ofBytes []) 0 kp11.pub params11m
          (refExt.generate rand0 (params11m.db / 8)).2.1 stk0 r).coeffs i) ∧
      ntru_encrypt refExt 3 (ofBytes []) 0 kp11.pub params11m () stk0 (fun _ => 0) =
        some (NTRU_SUCCESS, (refExt.generate rand0 (params11m.db / 8)).2.2,
          refExt.ntru_to_arr
            (refExt.ntru_add_int_mod (mult_blind refExt kp11.pub.h r params11m.q)
              (refExt.ntru_mod3 (encrypt_zero_const params11m.maxm1
                (encrypt_mtrin refExt (ofBytes []) 0 kp11.pub params11m
                  (refExt.generate rand0 (params11m.db / 8)).2.1 stk0 r))) params11m.q)
            params11m.q) :=
  ntru_encrypt_maxm1_bound refExt 3 (ofBytes []) 0 kp11.pub params11m () stk0 (fun _ => 0)
    (by decide) (by decide)

theorem tdiv_natCast (a b : Nat) : ((a : Int)).tdiv (b : Int) = ((a / b : Nat) : Int) := by
  rw [Int.tdiv_eq_ediv (Int.ofNat_nonneg a) (Int.ofNat_nonneg b)]
  rfl

/-- The value of the expression of `ntru_max_msg_len` in natural numbers, when it is not
negative. -/
theorem max_msg_len_formula_nat (params : NtruEncParams) (h0 : 0 ≤ max_msg_len_formula params) :
    max_msg_len_formula params + 1 + ((params.db / 8 : Nat) : Int) =
      (((if params.maxm1 > 0 then (params.N - 1) * 3 / 2 / 8 else params.N * 3 / 2 / 8 : Nat)) : Int) ∧
    (params.maxm1 > 0 → 1 ≤ params.N) := by
  unfold max_msg_len_formula at h0 ⊢
  simp only [] at h0 ⊢
  have hdb : ((params.db : Int)).tdiv 8 = ((params.db / 8 : Nat) : Int) := tdiv_natCast params.db 8
  by_cases hm : params.maxm1 > 0
  · rw [if_pos hm] at h0 ⊢
    rw [if_pos hm]
    rw [hdb] at h0 ⊢
    by_cases hN : params.N = 0
    · rw [hN] at h0
      have : ((((0 : Nat) : Int) - 1) * 3).tdiv 2 = -1 := by decide
      rw [this] at h0
      have : ((-1 : Int)).tdiv 8 = 0 := by decide
      rw [this] at h0
      omega
    · have e : ((params.N : Int) - 1) * 3 = (((params.N - 1) * 3 : Nat) : Int) := by
        have : 1 ≤ params.N := by omega
        push_cast [this]
        ring
      rw [e]
      have e2 := tdiv_natCast ((params.N - 1) * 3) 2
      simp only [Nat.cast_ofNat] at e2
      rw [e2]
      have e3 := tdiv_natCast ((params.N - 1) * 3 / 2) 8
      simp only [Nat.cast_ofNat] at e3
      rw [e3]
      exact ⟨by omega, fun _ => by omega⟩
  · rw [if_neg hm] at h0 ⊢
    rw [if_neg hm]
    rw [hdb]
    have e : (params.N : Int) * 3 = ((params.N * 3 : Nat) : Int) := by push_cast; ring
    rw [e]
    have e2 := tdiv_natCast (params.N * 3) 2
    simp only [Nat.cast_ofNat] at e2
    rw [e2]
    have e3 := tdiv_natCast (params.N * 3 / 2) 8
    simp only [Nat.cast_ofNat] at e3
    rw [e3]
    exact ⟨by omega, fun h => absurd h hm⟩

/-- C18: for a parameter set whose expression `N*3/2/8 - 1 - db/8` (with `N-1` for `N` when
`maxm1 > 0`) has a value in `0..255` and a `msg_len` that passes the guard
`msg_len <= max_len_bytes`, the length `max_len_bytes + 1 - msg_len` of the zero padding is at
least 1, and the `db/8 + 1 + msg_len + (max_len_bytes + 1 - msg_len)` bytes written for
`b | octL | msg | zeros` do not exceed `(buf_len_bits + 7)/8` with
`buf_len_bits = (N*3/2 + 7)/8*8 + 1`. That number is the `M_len` of the code whenever
`buf_len_bits` fits its `uint16_t`, and then building the record leaves every byte from index
`M_len` on as it was. -/
theorem ntru_encrypt_record_in_bounds (params : NtruEncParams) (msg_len : Nat)
    (h0 : 0 ≤ max_msg_len_formula params) (h1 : max_msg_len_formula params ≤ 255)
    (hlen : msg_len ≤ ntru_max_msg_len params) :
    1 ≤ ntru_max_msg_len params + 1 - msg_len ∧
    params.db / 8 + 1 + msg_len + (ntru_max_msg_len params + 1 - msg_len)
      ≤ ((params.N * 3 / 2 + 7) / 8 * 8 + 1 + 7) / 8 ∧
    ((params.N * 3 / 2 + 7) / 8 * 8 + 1 < 65536 →
      encrypt_M_len params = ((params.N * 3 / 2 + 7) / 8 * 8 + 1 + 7) / 8 ∧
      ∀ (msg b M0 : Mem) (i : Nat), encrypt_M_len params ≤ i →
        encrypt_M params msg msg_len b M0 i = M0 i) := by
  obtain ⟨hf, hN⟩ := max_msg_len_formula_nat params h0
  have hmax : (ntru_max_msg_len params : Int) = max_msg_len_formula params := by
    unfold ntru_max_msg_len
    omega
  have hbound : params.db / 8 + 1 + msg_len + (ntru_max_msg_len params + 1 - msg_len)
      ≤ ((params.N * 3 / 2 + 7) / 8 * 8 + 1 + 7) / 8 := by
    by_cases hm : params.maxm1 > 0
    · rw [if_pos hm] at hf
      omega
    · rw [if_neg hm] at hf
      omega
  refine ⟨by omega, hbound, ?_⟩
  intro hw
  have hM : encrypt_M_len params = ((params.N * 3 / 2 + 7) / 8 * 8 + 1 + 7) / 8 := by
    unfold encrypt_M_len
    rw [Nat.mod_eq_of_lt hw]
  refine ⟨hM, ?_⟩
  intro msg b M0 i hi
  rw [hM] at hi
  unfold encrypt_M memset0 memcpy store
  simp only []
  rw [if_neg (by omega), if_neg (by omega), if_neg (by omega), if_neg (by omega)]

theorem ntru_encrypt_record_in_bounds_witness :
    1 ≤ ntru_max_msg_len params11 + 1 - 1 ∧
    params11.db / 8 + 1 + 1 + (ntru_max_msg_len params11 + 1 - 1)
      ≤ ((params11.N * 3 / 2 + 7) / 8 * 8 + 1 + 7) / 8 ∧
    ((params11.N * 3 / 2 + 7) / 8 * 8 + 1 < 65536 →
      encrypt_M_len params11 = ((params11.N * 3 / 2 + 7) / 8 * 8 + 1 + 7) / 8 ∧
      ∀ (msg b M0 : Mem) (i : Nat), encrypt_M_len params11 ≤ i →
        encrypt_M params11 msg 1 b M0 i = M0 i) :=
  ntru_encrypt_record_in_bounds params11 1 (by decide) (by decide) (by decide)

/-- For odd `N` other than `11 mod 16` the `N*3/2/8` bytes fit the coefficient pairs of
`ntru_from_sves` without skip. -/
theorem capacity_noskip (N : Nat) (hodd : N % 2 = 1) (hne : N % 16 ≠ 11) :
    8 * (N * 3 / 2 / 8) ≤
      3 * min (8 * (((N * 3 / 2 + 7) / 8 * 8 + 1 + 7) / 8 / 3)) ((N - 0) / 2) := by
  obtain ⟨m, s, hms, hs⟩ : ∃ m s, N = 16 * m + s ∧ s < 16 := ⟨N / 16, N % 16, by omega, by omega⟩
  subst hms
  interval_cases s <;> omega

/-- For `N = 11 mod 16` the `N*3/2/8` bytes have one bit more than the coefficient pairs of
`ntru_from_sves` without skip. -/
theorem capacity_noskip_11 (N : Nat) (h11 : N % 16 = 11) :
    8 * (N * 3 / 2 / 8) =
      3 * min (8 * (((N * 3 / 2 + 7) / 8 * 8 + 1 + 7) / 8 / 3)) ((N - 0) / 2) + 1 := by
  obtain ⟨m, hm⟩ : ∃ m, N = 16 * m + 11 := ⟨N / 16, by omega⟩
  subst hm
  omega

/-- For odd `N` the `(N-1)*3/2/8` bytes fit the coefficient pairs of `ntru_from_sves` with
skip. -/
theorem capacity_skip (N : Nat) (hodd : N % 2 = 1) :
    8 * ((N - 1) * 3 / 2 / 8) ≤
      3 * min (8 * (((N * 3 / 2 + 7) / 8 * 8 + 1 + 7) / 8 / 3)) ((N - 1) / 2) := by
  obtain ⟨m, s, hms, hs⟩ : ∃ m s, N = 16 * m + s ∧ s < 16 := ⟨N / 16, N % 16, by omega, by omega⟩
  subst hms
  interval_cases s <;> omega

/-- C20 (the code misses the claim for `N = 11 mod 16` with `maxm1 = 0`): for a parameter set with
odd `N`, a value of the expression of `ntru_max_msg_len` in `0..255`, a `buf_len_bits` that fits
its `uint16_t` and `msg_len <= max_msg_len`, the `8*(db/8 + 1 + msg_len)` bits of `b|octL|msg`
are within the `3*D` bits of the `D` coefficient pairs that `ntru_from_sves` fills, unless
`maxm1 = 0` and `N % 16 = 11`; in that case a message of the maximal length has one bit more than
`3*D`. For `N = 11`, `db = 0`, `maxm1 = 0` and the one-byte message `0x80` the record has 16
bits, `D = 5`, and `ntru_to_sves` of `ntru_from_sves` of the record `01 80 00` gives `01 00`. -/
theorem ntru_encrypt_capacity :
    (∀ (params : NtruEncParams) (msg_len : Nat),
      params.N % 2 = 1 → 0 ≤ max_msg_len_formula params → max_msg_len_formula params ≤ 255 →
      (params.N * 3 / 2 + 7) / 8 * 8 + 1 < 65536 →
      msg_len ≤ ntru_max_msg_len params →
      (¬ (params.maxm1 = 0 ∧ params.N % 16 = 11) →
        8 * (params.db / 8 + 1 + msg_len)
          ≤ 3 * sves_pairs (encrypt_M_len params) params.N params.maxm1) ∧
      (params.maxm1 = 0 → params.N % 16 = 11 → msg_len = ntru_max_msg_len params →
        8 * (params.db / 8 + 1 + msg_len)
          = 3 * sves_pairs (encrypt_M_len params) params.N params.maxm1 + 1)) ∧
    params11.N % 2 = 1 ∧ max_msg_len_formula params11 = 1 ∧ ntru_max_msg_len params11 = 1 ∧
    8 * (params11.db / 8 + 1 + 1) = 16 ∧
    3 * sves_pairs (encrypt_M_len params11) params11.N params11.maxm1 = 15 ∧
    firstN (encrypt_M params11 (ofBytes [128]) 1 (ofBytes []) stk0.M) 3 = [1, 128, 0] ∧
    firstN (ntru_to_sves
      (ntru_from_sves (encrypt_M params11 (ofBytes [128]) 1 (ofBytes []) stk0.M)
        (encrypt_M_len params11) params11.N params11.maxm1 stk0.mtrin)
      params11.maxm1 (fun _ => 0)).2 2 = [1, 0] := by
  refine ⟨?_, by decide, by decide, by decide, by decide, by decide, by decide, by decide⟩
  intro params msg_len hodd h0 h1 hw hlen
  obtain ⟨hf, hN⟩ := max_msg_len_formula_nat params h0
  have hmax : (ntru_max_msg_len params : Int) = max_msg_len_formula params := by
    unfold ntru_max_msg_len
    omega
  have hM : encrypt_M_len params = ((params.N * 3 / 2 + 7) / 8 * 8 + 1 + 7) / 8 := by
    unfold encrypt_M_len
    rw [Nat.mod_eq_of_lt hw]
  rw [hM]
  unfold sves_pairs sves_start
  clear hM hw
  by_cases hm : params.maxm1 > 0
  · rw [if_pos hm] at hf
    rw [if_pos (by omega)]
    have hc := capacity_skip params.N hodd
    refine ⟨fun _ => ?_, fun h => absurd h (by omega)⟩
    generalize (params.N - 1) * 3 / 2 / 8 = T at hf hc
    generalize min (8 * (((params.N * 3 / 2 + 7) / 8 * 8 + 1 + 7) / 8 / 3))
      ((params.N - 1) / 2) = D at hc ⊢
    omega
  · rw [if_neg hm] at hf
    rw [if_neg (by omega)]
    refine ⟨fun hne => ?_, fun _ h16 he => ?_⟩
    · have h16 : params.N % 16 ≠ 11 := fun h => hne ⟨by omega, h⟩
      have hc := capacity_noskip params.N hodd h16
      generalize params.N * 3 / 2 / 8 = T at hf hc
      generalize min (8 * (((params.N * 3 / 2 + 7) / 8 * 8 + 1 + 7) / 8 / 3))
        ((params.N - 0) / 2) = D at hc ⊢
      omega
    · have hc := capacity_noskip_11 params.N h16
      generalize params.N * 3 / 2 / 8 = T at hf hc
      generalize min (8 * (((params.N * 3 / 2 + 7) / 8 * 8 + 1 + 7) / 8 / 3))
        ((params.N - 0) / 2) = D at hc ⊢
      omega

/-- The seed that `ntru_decrypt` passes to `ntru_gen_blind_poly` is `oid | pt | cb | htrunc` when
`pklen/8 = db/8`; its length is `3 + cl + db/8 + db/8` (as `uint16_t`) in every case. -/
theorem decrypt_seed_layout {ρ : Type} (ext : Ext ρ) (enc : Mem) (kp : NtruEncKeyPair)
    (params : NtruEncParams) (stk : Stack) (dec0 : Mem) :
    (decrypt_seed ext enc kp params stk dec0).length =
      (oid_len + decrypt_cl ext enc kp params stk + params.db / 8 + params.db / 8) % 65536 ∧
    (params.pklen / 8 = params.db / 8 →
      oid_len + decrypt_cl ext enc kp params stk + params.db / 8 + params.db / 8 < 65536 →
      decrypt_seed ext enc kp params stk dec0 = decrypt_seed_spec ext enc kp params stk dec0) := by
  refine ⟨by simp [decrypt_seed, firstN_length], ?_⟩
  intro he hlt
  have hL := ntru_get_seed_layout ext (decrypt_dec ext enc kp params stk dec0)
    (decrypt_cl ext enc kp params stk) kp.pub.h
    (memcpy (fun _ => 0) 0 (decrypt_cM ext enc kp params stk) (params.db / 8)) params stk.sdata
  have hcb := firstN_memcpy_add (fun _ => 0) 0 (decrypt_cM ext enc kp params stk) (params.db / 8)
  rw [Nat.zero_add, firstN_zero, List.nil_append] at hcb
  rw [hcb, he] at hL
  unfold decrypt_seed decrypt_seed_spec
  simp only []
  rw [Nat.mod_eq_of_lt hlt, hL, he]

/-- C2 (code differs from the claim when `pklen/8 ≠ db/8`): `ntru_decrypt` returns
`NTRU_SUCCESS` only if `cR' = h * cr` equals `cR = (e - ci) mod q`, and returns
`NTRU_ERR_INVALID_ENCODING` when the earlier checks pass and `cR'` differs from `cR`, where `cr`
is `ntru_gen_blind_poly` of the array `sdata` with the length `3 + cl + db/8 + db/8`. That
string is the seed `oid | pt | cb | htrunc` of the claim when `pklen/8 = db/8`. With `db = 8` and
`pklen = 0` it is not: for the ciphertext `enc_stale` the code's seed is `0 2 4 0 85`, whose last
byte is what the stack array held before, the call returns `NTRU_SUCCESS` although `h * cr` for
the seed `oid | pt | cb | htrunc = 0 2 4 0` differs from `cR`, and with `86` on the stack the
same call returns `NTRU_ERR_INVALID_ENCODING`. -/
theorem ntru_decrypt_reencryption_seed :
    (∀ (ρ : Type) (ext : Ext ρ) (fuel : Nat) (enc : Mem) (kp : NtruEncKeyPair)
       (params : NtruEncParams) (stk : Stack) (dec0 : Mem) (dec_len0 : Nat),
      ((ntru_decrypt ext fuel enc kp params stk dec0 dec_len0).map Prod.fst = some NTRU_SUCCESS →
        ∃ cr, ntru_gen_blind_poly ext fuel (decrypt_seed ext enc kp params stk dec0) params stk.r =
            some cr ∧
          (mult_blind ext kp.pub.h cr params.q).N = (decrypt_cR ext enc kp params).N ∧
          ∀ i, i < (decrypt_cR ext enc kp params).N →
            (mult_blind ext kp.pub.h cr params.q).coeffs i =
              (decrypt_cR ext enc kp params).coeffs i) ∧
      (∀ cr, ¬ (params.dm0 > 0 ∧
            ntru_check_rep_weight (decrypt_ci ext enc kp params) params.dm0 = false) →
        decrypt_cl ext enc kp params stk ≤ ntru_max_msg_len params →
        decrypt_zero_pad ext enc kp params stk = true →
        ntru_gen_blind_poly ext fuel (decrypt_seed ext enc kp params stk dec0) params stk.r
          = some cr →
        ¬ ((mult_blind ext kp.pub.h cr params.q).N = (decrypt_cR ext enc kp params).N ∧
          ∀ i, i < (decrypt_cR ext enc kp params).N →
            (mult_blind ext kp.pub.h cr params.q).coeffs i =
              (decrypt_cR ext enc kp params).coeffs i) →
        ntru_decrypt ext fuel enc kp params stk dec0 dec_len0 =
          some (NTRU_ERR_INVALID_ENCODING, decrypt_dec ext enc kp params stk dec0, dec_len0)) ∧
      (decrypt_seed ext enc kp params stk dec0).length =
        (oid_len + decrypt_cl ext enc kp params stk + params.db / 8 + params.db / 8) % 65536 ∧
      (params.pklen / 8 = params.db / 8 →
        oid_len + decrypt_cl ext enc kp params stk + params.db / 8 + params.db / 8 < 65536 →
        decrypt_seed ext enc kp params stk dec0 = decrypt_seed_spec ext enc kp params stk dec0)) ∧
    (ntru_decrypt refExt 3 enc_stale kp11 params_db8 stk0 (fun _ => 9) 77).map
      (fun r => (r.1, r.2.2)) = some (NTRU_SUCCESS, 0) ∧
    decrypt_seed refExt enc_stale kp11 params_db8 stk0 (fun _ => 9) = [0, 2, 4, 0, 85] ∧
    decrypt_seed_spec refExt enc_stale kp11 params_db8 stk0 (fun _ => 9) = [0, 2, 4, 0] ∧
    (ntru_gen_blind_poly refExt 3
        (decrypt_seed_spec refExt enc_stale kp11 params_db8 stk0 (fun _ => 9)) params_db8 stk0.r).map
      (fun cr => ntru_equals_int (mult_blind refExt kp11.pub.h cr params_db8.q)
        (decrypt_cR refExt enc_stale kp11 params_db8)) = some false ∧
    (ntru_decrypt refExt 3 enc_stale kp11 params_db8 stk86 (fun _ => 9) 77).map
      (fun r => (r.1, r.2.2)) = some (NTRU_ERR_INVALID_ENCODING, 77) := by
  refine ⟨?_, by decide, by decide, by decide, by decide, by decide⟩
  intro ρ ext fuel enc kp params stk dec0 dec_len0
  have h := ntru_decrypt_reencryption_check ext fuel enc kp params stk dec0 dec_len0
  have hl := decrypt_seed_layout ext enc kp params stk dec0
  exact ⟨h.1, h.2, hl.1, hl.2⟩

end NTRU
